import Mathlib

/-!
Verification development for the rusterix ASTERIX code generator and its
runtime.  The definitions below are shallow embeddings, translated from the
Rust sources:

* `rusterix-core/src/bit_writer.rs` and `bit_reader.rs` — the bit-stream
  runtime (`WState`, `RState`, `write_bits`, `read_bits`, `flushW`);
* `rusterix-core/src/fspec.rs` — the FSPEC bitmap;
* `rasterix-codegen/src/transform/ir.rs` — the schema validator;
* `rusterix-codegen/src/transform/lowerer.rs` and `generate/utils.rs` —
  field lowering and name conversion;
* `rusterix-codegen/src/generate/{encode_gen,decode_gen,record_gen,
  datablock_gen}.rs` — the semantics of the emitted encode/decode code,
  expressed as functions parameterised by the IR that the generator walks.

Machine integers are modelled as `Nat` with explicit `% 2 ^ w` where the
Rust code can overflow (release-mode wrapping semantics).  Fallible code
returns `Option`.
-/

/-- MSB-first list of the low `n` bits of `v`: bit `n-1` first, bit `0` last.
This is the order in which `BitWriter::write_bits` emits the bits of `v`. -/
def natBits : Nat → Nat → List Nat
  | 0, _ => []
  | n + 1, v => (v >>> n) % 2 :: natBits n v

/-- Value of an MSB-first bit list (left fold `2*acc + bit`), the order in
which `BitReader::read_bits` accumulates bits. -/
def bitsVal (l : List Nat) : Nat :=
  l.foldl (fun a b => 2 * a + b) 0

/-- The eight bits of one byte, MSB first. -/
def byteBits (b : Nat) : List Nat := natBits 8 b

/-- All bits of a byte list, in stream order. -/
def bytesBits (bs : List Nat) : List Nat := (bs.map byteBits).flatten

/-- State of `BitWriter` over an in-memory sink: `out` is the byte sequence
already emitted to the underlying writer, `buffer`/`bitsFilled` the partial
byte being assembled (`bit_writer.rs`). -/
structure WState where
  out : List Nat
  buffer : Nat
  bitsFilled : Nat
  deriving Repr, DecidableEq

/-- One iteration of the `write_bits` loop: shift the bit into the buffer and
emit a full byte when eight bits have accumulated. -/
def writeBit (s : WState) (bit : Nat) : WState :=
  let buf := s.buffer * 2 + bit
  if s.bitsFilled + 1 = 8 then
    ⟨s.out ++ [buf], 0, 0⟩
  else
    ⟨s.out, buf, s.bitsFilled + 1⟩

/-- `BitWriter::write_bits(value, count)`: the loop runs over
`i in (0..count).rev()`, writing bit `(value >> i) & 1` at each step. -/
def write_bits (s : WState) (value : Nat) : Nat → WState
  | 0 => s
  | n + 1 => write_bits (writeBit s ((value >>> n) % 2)) value n

/-- `BitWriter::flush`: emit the partial byte padded with zeros on the right
(the `u8` shift wraps modulo 256); no-op when byte aligned. -/
def flushW (s : WState) : WState :=
  if s.bitsFilled > 0 then
    ⟨s.out ++ [(s.buffer <<< (8 - s.bitsFilled)) % 256], 0, 0⟩
  else
    s

/-- Abstract bit stream a writer state has produced so far. -/
def wBits (s : WState) : List Nat :=
  bytesBits s.out ++ natBits s.bitsFilled s.buffer

/-- Writer invariant: the buffer holds exactly `bitsFilled < 8` bits and every
emitted byte fits in 8 bits. -/
def WfW (s : WState) : Prop :=
  s.buffer < 2 ^ s.bitsFilled ∧ s.bitsFilled < 8 ∧ ∀ b ∈ s.out, b < 256

/-- State of `BitReader` over an in-memory source: `input` is the byte
sequence the underlying reader has not yet delivered, `buffer`/`bitsLeft` the
partially consumed byte (`bit_reader.rs`). -/
structure RState where
  input : List Nat
  buffer : Nat
  bitsLeft : Nat
  deriving Repr, DecidableEq

/-- One iteration of the `read_bits` loop: fetch a byte when the buffer is
empty, then return the next bit MSB-first. -/
def readBit (s : RState) : Option (Nat × RState) :=
  if s.bitsLeft = 0 then
    match s.input with
    | [] => none
    | b :: rest => some ((b >>> 7) % 2, ⟨rest, b, 7⟩)
  else
    some ((s.buffer >>> (s.bitsLeft - 1)) % 2, ⟨s.input, s.buffer, s.bitsLeft - 1⟩)

/-- Accumulating loop of `read_bits`; the accumulator is a `u64`, hence the
`% 2 ^ 64` on each shift-in. -/
def readBitsAux (acc : Nat) (s : RState) : Nat → Option (Nat × RState)
  | 0 => some (acc, s)
  | n + 1 =>
    match readBit s with
    | none => none
    | some (bit, s1) => readBitsAux ((2 * acc + bit) % 2 ^ 64) s1 n

/-- `BitReader::read_bits(count)`: MSB-first, right-aligned result. -/
def read_bits (s : RState) (count : Nat) : Option (Nat × RState) :=
  readBitsAux 0 s count

/-- Abstract bit stream still ahead of a reader state. -/
def rBits (s : RState) : List Nat :=
  natBits s.bitsLeft s.buffer ++ bytesBits s.input

/-- Reader invariant: at most 7 buffered bits between calls and every pending
byte fits in 8 bits. -/
def WfR (s : RState) : Prop :=
  s.bitsLeft ≤ 7 ∧ ∀ b ∈ s.input, b < 256

-- ── Basic bit-list lemmas ─────────────────────────────────────────────────

theorem natBits_length (n v : Nat) : (natBits n v).length = n := by
  induction n generalizing v with
  | zero => rfl
  | succ n ih => simp [natBits, ih]

theorem bytesBits_length (bs : List Nat) : (bytesBits bs).length = 8 * bs.length := by
  induction bs with
  | nil => rfl
  | cons b t ih =>
      simp [bytesBits, byteBits, natBits_length] at ih ⊢
      omega

theorem bytesBits_append (a b : List Nat) :
    bytesBits (a ++ b) = bytesBits a ++ bytesBits b := by
  simp [bytesBits]

theorem rBits_length (s : RState) :
    (rBits s).length = s.bitsLeft + 8 * s.input.length := by
  simp [rBits, natBits_length, bytesBits_length]

theorem foldl_bitsVal (l : List Nat) (a : Nat) :
    l.foldl (fun a b => 2 * a + b) a = a * 2 ^ l.length + bitsVal l := by
  induction l generalizing a with
  | nil => simp [bitsVal]
  | cons x t ih =>
      have hx : bitsVal (x :: t) = x * 2 ^ t.length + bitsVal t := by
        rw [bitsVal, List.foldl_cons, ih]
        norm_num
      rw [List.foldl_cons, ih, List.length_cons, hx, pow_succ]
      ring

theorem bitsVal_cons (x : Nat) (t : List Nat) :
    bitsVal (x :: t) = x * 2 ^ t.length + bitsVal t := by
  rw [bitsVal, List.foldl_cons, foldl_bitsVal]
  norm_num

theorem natBits_succ (n v : Nat) :
    natBits (n + 1) v = (v >>> n) % 2 :: natBits n v := rfl

theorem mod_mul_two (v a : Nat) (ha : 0 < a) :
    v % (a * 2) = v / a % 2 * a + v % a := by
  conv_lhs => rw [← Nat.div_add_mod v a, ← Nat.div_add_mod (v / a) 2]
  have h : a * (2 * (v / a / 2) + v / a % 2) + v % a
      = a * 2 * (v / a / 2) + (v / a % 2 * a + v % a) := by ring
  rw [h, Nat.mul_add_mod]
  have h2 : v / a % 2 ≤ 1 := by omega
  have h3 : v / a % 2 * a ≤ 1 * a := Nat.mul_le_mul_right a h2
  have hr : v % a < a := Nat.mod_lt _ ha
  exact Nat.mod_eq_of_lt (by omega)

theorem mod_two_pow_succ (v n : Nat) :
    v % 2 ^ (n + 1) = v / 2 ^ n % 2 * 2 ^ n + v % 2 ^ n := by
  rw [pow_succ]
  exact mod_mul_two v (2 ^ n) (Nat.pos_pow_of_pos _ (by norm_num))

theorem bitsVal_natBits (n v : Nat) : bitsVal (natBits n v) = v % 2 ^ n := by
  induction n generalizing v with
  | zero => simp [natBits, bitsVal, Nat.mod_one]
  | succ n ih =>
      rw [natBits_succ, bitsVal_cons, ih, natBits_length, Nat.shiftRight_eq_div_pow,
        mod_two_pow_succ]

theorem natBits_lt (n v : Nat) : bitsVal (natBits n v) < 2 ^ n := by
  rw [bitsVal_natBits]; exact Nat.mod_lt _ (Nat.pos_pow_of_pos n (by norm_num))

theorem natBits_split (a b v : Nat) :
    natBits (a + b) v = natBits a (v >>> b) ++ natBits b v := by
  induction a generalizing v with
  | zero => simp [natBits]
  | succ a ih =>
      have hs : a + 1 + b = (a + b) + 1 := by omega
      rw [hs, natBits_succ, ih, natBits_succ]
      have hshift : v >>> (a + b) = (v >>> b) >>> a := by
        rw [Nat.add_comm, Nat.shiftRight_add]
      rw [hshift]
      rfl


theorem natBits_of_dvd (n v : Nat) (h : 2 ^ n ∣ v) :
    natBits n v = List.replicate n 0 := by
  induction n generalizing v with
  | zero => rfl
  | succ n ih =>
      obtain ⟨c, hc⟩ := h
      have hpos : 0 < 2 ^ n := Nat.pos_pow_of_pos n (by norm_num)
      have h1 : v >>> n % 2 = 0 := by
        rw [Nat.shiftRight_eq_div_pow, hc]
        have he : 2 ^ (n + 1) * c = 2 ^ n * (2 * c) := by ring
        rw [he, Nat.mul_div_cancel_left _ hpos]
        omega
      have h2 : natBits n v = List.replicate n 0 := by
        refine ih v ⟨2 * c, ?_⟩
        rw [hc]; ring
      rw [natBits_succ, h1, h2, List.replicate_succ]

theorem natBits_two_mul_add (n v b : Nat) (hb : b < 2) :
    natBits (n + 1) (v * 2 + b) = natBits n v ++ [b] := by
  rw [natBits_split n 1 (v * 2 + b)]
  have h1 : (v * 2 + b) >>> 1 = v := by
    rw [Nat.shiftRight_eq_div_pow]
    omega
  have h2 : natBits 1 (v * 2 + b) = [b] := by
    show [(v * 2 + b) >>> 0 % 2] = [b]
    rw [Nat.shiftRight_zero]
    congr 1
    omega
  rw [h1, h2]

-- ── Writer correctness relative to the bit abstraction ───────────────────

theorem writeBit_full (s : WState) (bit : Nat) (h : s.bitsFilled + 1 = 8) :
    writeBit s bit = ⟨s.out ++ [s.buffer * 2 + bit], 0, 0⟩ := by
  unfold writeBit
  rw [if_pos h]

theorem writeBit_unfilled (s : WState) (bit : Nat) (h : ¬ s.bitsFilled + 1 = 8) :
    writeBit s bit = ⟨s.out, s.buffer * 2 + bit, s.bitsFilled + 1⟩ := by
  unfold writeBit
  rw [if_neg h]

theorem writeBit_ok (s : WState) (bit : Nat) (hb : bit < 2) (hw : WfW s) :
    wBits (writeBit s bit) = wBits s ++ [bit] ∧ WfW (writeBit s bit) := by
  obtain ⟨hbuf, hfill, hout⟩ := hw
  by_cases h : s.bitsFilled + 1 = 8
  · rw [writeBit_full s bit h]
    have h7 : s.bitsFilled = 7 := by omega
    have hlt : s.buffer * 2 + bit < 256 := by
      have : s.buffer < 2 ^ 7 := h7 ▸ hbuf
      norm_num at this ⊢
      omega
    constructor
    · show bytesBits (s.out ++ [s.buffer * 2 + bit]) ++ natBits 0 0 = _
      rw [bytesBits_append, wBits, h7]
      have hone : bytesBits [s.buffer * 2 + bit] = natBits 8 (s.buffer * 2 + bit) := by
        simp [bytesBits, byteBits]
      rw [hone, show (8 : Nat) = 7 + 1 from rfl, natBits_two_mul_add 7 s.buffer bit hb]
      simp [natBits]
    · refine ⟨by norm_num, by norm_num, ?_⟩
      intro b hbmem
      rcases List.mem_append.mp hbmem with h1 | h1
      · exact hout b h1
      · have hb1 : b = s.buffer * 2 + bit := by simpa using h1
        omega
  · rw [writeBit_unfilled s bit h]
    constructor
    · show bytesBits s.out ++ natBits (s.bitsFilled + 1) (s.buffer * 2 + bit) = _
      rw [natBits_two_mul_add _ _ _ hb, wBits]
      simp
    · refine ⟨?_, ?_, hout⟩
      · show s.buffer * 2 + bit < 2 ^ (s.bitsFilled + 1)
        rw [pow_succ]
        omega
      · show s.bitsFilled + 1 < 8
        omega

theorem write_bits_ok (n : Nat) (s : WState) (v : Nat) (hw : WfW s) :
    wBits (write_bits s v n) = wBits s ++ natBits n v ∧ WfW (write_bits s v n) := by
  induction n generalizing s with
  | zero => simpa [write_bits, natBits] using hw
  | succ n ih =>
      have hb : (v >>> n) % 2 < 2 := Nat.mod_lt _ (by norm_num)
      obtain ⟨h1, h2⟩ := writeBit_ok s ((v >>> n) % 2) hb hw
      obtain ⟨h3, h4⟩ := ih (writeBit s ((v >>> n) % 2)) h2
      refine ⟨?_, h4⟩
      show wBits (write_bits (writeBit s ((v >>> n) % 2)) v n) = _
      rw [h3, h1, natBits_succ]
      simp

theorem natBits_eight_split (k b : Nat) (hk : k ≤ 8) (hb : b < 2 ^ k) :
    natBits 8 (b <<< (8 - k)) = natBits k b ++ List.replicate (8 - k) 0 := by
  have h8 : (8 : Nat) = k + (8 - k) := by omega
  have hback : b <<< (8 - k) >>> (8 - k) = b := by
    rw [Nat.shiftLeft_eq, Nat.shiftRight_eq_div_pow,
      Nat.mul_div_cancel _ (Nat.pos_pow_of_pos _ (by norm_num))]
  have hzero : natBits (8 - k) (b <<< (8 - k)) = List.replicate (8 - k) 0 := by
    apply natBits_of_dvd
    rw [Nat.shiftLeft_eq]
    exact Dvd.intro_left b rfl
  calc natBits 8 (b <<< (8 - k)) = natBits (k + (8 - k)) (b <<< (8 - k)) := by rw [← h8]
    _ = natBits k (b <<< (8 - k) >>> (8 - k)) ++ natBits (8 - k) (b <<< (8 - k)) :=
        natBits_split k (8 - k) _
    _ = natBits k b ++ List.replicate (8 - k) 0 := by rw [hback, hzero]

theorem flushW_unfilled (s : WState) (h : s.bitsFilled > 0) :
    flushW s = ⟨s.out ++ [(s.buffer <<< (8 - s.bitsFilled)) % 256], 0, 0⟩ := by
  unfold flushW
  rw [if_pos h]

theorem flushW_aligned (s : WState) (h : ¬ s.bitsFilled > 0) : flushW s = s := by
  unfold flushW
  rw [if_neg h]

theorem flushW_ok (s : WState) (hw : WfW s) :
    (flushW s).bitsFilled = 0 ∧ (flushW s).buffer = 0 ∧
    bytesBits (flushW s).out = wBits s ++ List.replicate ((8 - s.bitsFilled) % 8) 0 ∧
    (∀ b ∈ (flushW s).out, b < 256) := by
  obtain ⟨hbuf, hfill, hout⟩ := hw
  by_cases h : s.bitsFilled > 0
  · rw [flushW_unfilled s h]
    have hlt : s.buffer <<< (8 - s.bitsFilled) < 256 := by
      rw [Nat.shiftLeft_eq]
      calc s.buffer * 2 ^ (8 - s.bitsFilled) < 2 ^ s.bitsFilled * 2 ^ (8 - s.bitsFilled) :=
            (Nat.mul_lt_mul_right (Nat.pos_pow_of_pos _ (by norm_num))).mpr hbuf
        _ = 2 ^ 8 := by rw [← pow_add]; congr 1; omega
    have hmod : s.buffer <<< (8 - s.bitsFilled) % 256 = s.buffer <<< (8 - s.bitsFilled) :=
      Nat.mod_eq_of_lt hlt
    refine ⟨rfl, rfl, ?_, ?_⟩
    · show bytesBits (s.out ++ [(s.buffer <<< (8 - s.bitsFilled)) % 256]) = _
      rw [bytesBits_append, hmod]
      have hone : bytesBits [s.buffer <<< (8 - s.bitsFilled)] =
          natBits 8 (s.buffer <<< (8 - s.bitsFilled)) := by simp [bytesBits, byteBits]
      rw [hone, natBits_eight_split s.bitsFilled s.buffer (by omega) hbuf, wBits]
      have hm : (8 - s.bitsFilled) % 8 = 8 - s.bitsFilled := by omega
      rw [hm, List.append_assoc]
    · intro b hbmem
      rcases List.mem_append.mp hbmem with h1 | h1
      · exact hout b h1
      · have hb1 : b = s.buffer <<< (8 - s.bitsFilled) % 256 := by simpa using h1
        subst hb1
        exact Nat.mod_lt _ (by norm_num)
  · have h0 : s.bitsFilled = 0 := by omega
    rw [flushW_aligned s h]
    have hb0 : s.buffer = 0 := by
      rw [h0] at hbuf
      simpa using hbuf
    refine ⟨h0, hb0, ?_, hout⟩
    rw [wBits, h0]
    simp [natBits]

-- ── Reader correctness relative to the bit abstraction ───────────────────

theorem readBit_ok (s : RState) (x : Nat) (xs : List Nat) (hw : WfR s)
    (h : rBits s = x :: xs) :
    ∃ s', readBit s = some (x, s') ∧ rBits s' = xs ∧ WfR s' := by
  obtain ⟨hfill, hin⟩ := hw
  by_cases h0 : s.bitsLeft = 0
  · rw [rBits, h0] at h
    simp only [natBits, List.nil_append] at h
    cases hi : s.input with
    | nil => rw [hi] at h; simp [bytesBits] at h
    | cons b rest =>
        rw [hi] at h
        have hb : bytesBits (b :: rest) = (b >>> 7) % 2 :: (natBits 7 b ++ bytesBits rest) := by
          show (byteBits b :: rest.map byteBits).flatten = _
          rw [List.flatten_cons]
          rw [byteBits, show (8 : Nat) = 7 + 1 from rfl, natBits_succ, List.cons_append]
          rfl
        rw [hb] at h
        injection h with hx hxs
        refine ⟨⟨rest, b, 7⟩, ?_, ?_, ?_⟩
        · unfold readBit
          rw [if_pos h0, hi, ← hx]
        · rw [rBits, ← hxs]
        · exact ⟨by norm_num, fun c hc => hin c (hi ▸ List.mem_cons_of_mem b hc)⟩
  · obtain ⟨k, hk⟩ : ∃ k, s.bitsLeft = k + 1 := ⟨s.bitsLeft - 1, by omega⟩
    rw [rBits, hk, natBits_succ, List.cons_append] at h
    injection h with hx hxs
    refine ⟨⟨s.input, s.buffer, s.bitsLeft - 1⟩, ?_, ?_, ?_⟩
    · unfold readBit
      rw [if_neg h0, hk, Nat.add_sub_cancel, hx]
    · rw [rBits, hk, Nat.add_sub_cancel, ← hxs]
    · refine ⟨?_, hin⟩
      show s.bitsLeft - 1 ≤ 7
      omega

theorem mod_mul_add_mod (a b c m : Nat) : (a % m * b + c) % m = (a * b + c) % m := by
  conv_rhs => rw [← Nat.mod_add_div a m]
  have h : (a % m + m * (a / m)) * b + c = a % m * b + c + m * (a / m * b) := by ring
  rw [h, Nat.add_mul_mod_self_left]

theorem readBitsAux_ok (n : Nat) (s : RState) (acc : Nat) (hw : WfR s)
    (hlen : n ≤ (rBits s).length) (hacc : acc < 2 ^ 64) :
    ∃ s', readBitsAux acc s n =
        some ((acc * 2 ^ n + bitsVal ((rBits s).take n)) % 2 ^ 64, s') ∧
      rBits s' = (rBits s).drop n ∧ WfR s' := by
  induction n generalizing s acc with
  | zero =>
      refine ⟨s, ?_, by simp, hw⟩
      show some (acc, s) = _
      rw [List.take_zero]
      show _ = some ((acc * 2 ^ 0 + bitsVal []) % 2 ^ 64, s)
      rw [pow_zero, Nat.mul_one, show bitsVal [] = 0 from rfl, Nat.add_zero,
        Nat.mod_eq_of_lt hacc]
  | succ n ih =>
      cases hr : rBits s with
      | nil => rw [hr] at hlen; simp at hlen
      | cons x xs =>
          obtain ⟨s1, he, hr1, hw1⟩ := readBit_ok s x xs hw hr
          have hxslen : n ≤ xs.length := by
            rw [hr] at hlen
            simpa using Nat.le_of_succ_le_succ hlen
          have hlen1 : n ≤ (rBits s1).length := by rw [hr1]; exact hxslen
          have hacc1 : (2 * acc + x) % 2 ^ 64 < 2 ^ 64 := Nat.mod_lt _ (by positivity)
          obtain ⟨s', he', hr', hw'⟩ := ih s1 ((2 * acc + x) % 2 ^ 64) hw1 hlen1 hacc1
          refine ⟨s', ?_, ?_, hw'⟩
          · show readBitsAux acc s (n + 1) = _
            simp only [readBitsAux]
            rw [he]
            show readBitsAux ((2 * acc + x) % 2 ^ 64) s1 n = _
            rw [he']
            have hxlen : (xs.take n).length = n := by
              rw [List.length_take]
              omega
            have hval : ((2 * acc + x) % 2 ^ 64 * 2 ^ n + bitsVal ((rBits s1).take n)) % 2 ^ 64
                = (acc * 2 ^ (n + 1) + bitsVal ((rBits s).take (n + 1))) % 2 ^ 64 := by
              rw [hr1, hr, mod_mul_add_mod,
                show (x :: xs).take (n + 1) = x :: xs.take n from rfl, bitsVal_cons, hxlen]
              congr 1
              rw [pow_succ]
              ring
            rw [hval, hr]
          · rw [hr', hr1, List.drop_succ_cons]

theorem read_bits_ok (s : RState) (n v : Nat) (rest : List Nat) (hw : WfR s)
    (h : rBits s = natBits n v ++ rest) (hn : n ≤ 64) :
    ∃ s', read_bits s n = some (v % 2 ^ n, s') ∧ rBits s' = rest ∧ WfR s' := by
  have hlen : n ≤ (rBits s).length := by
    rw [h]
    simp [natBits_length]
  obtain ⟨s', he, hr, hw'⟩ := readBitsAux_ok n s 0 hw hlen (by positivity)
  have htake : (rBits s).take n = natBits n v := by
    have ht := List.take_left (natBits n v) rest
    rw [natBits_length] at ht
    rw [h, ht]
  have hdrop : (rBits s).drop n = rest := by
    have hd := List.drop_left (natBits n v) rest
    rw [natBits_length] at hd
    rw [h, hd]
  refine ⟨s', ?_, by rw [hr, hdrop], hw'⟩
  show readBitsAux 0 s n = _
  rw [he, htake]
  have hlt : v % 2 ^ n < 2 ^ 64 :=
    Nat.lt_of_lt_of_le (Nat.mod_lt _ (Nat.pos_pow_of_pos _ (by norm_num)))
      (Nat.pow_le_pow_right (by norm_num) hn)
  rw [bitsVal_natBits, Nat.zero_mul, Nat.zero_add, Nat.mod_eq_of_lt hlt]

-- ── Byte-level alignment ──────────────────────────────────────────────────

theorem byteBits_inj (a b : Nat) (ha : a < 256) (hb : b < 256)
    (h : byteBits a = byteBits b) : a = b := by
  have hv := congrArg bitsVal h
  rw [byteBits, byteBits, bitsVal_natBits, bitsVal_natBits] at hv
  have h8 : (2 : Nat) ^ 8 = 256 := by norm_num
  rw [h8, Nat.mod_eq_of_lt ha, Nat.mod_eq_of_lt hb] at hv
  exact hv

theorem bytesBits_inj (bs1 bs2 : List Nat) (h1 : ∀ b ∈ bs1, b < 256)
    (h2 : ∀ b ∈ bs2, b < 256) (h : bytesBits bs1 = bytesBits bs2) : bs1 = bs2 := by
  induction bs1 generalizing bs2 with
  | nil =>
      cases bs2 with
      | nil => rfl
      | cons b t =>
          have hl := congrArg List.length h
          rw [bytesBits_length, bytesBits_length] at hl
          simp at hl
  | cons a t ih =>
      cases bs2 with
      | nil =>
          have hl := congrArg List.length h
          rw [bytesBits_length, bytesBits_length] at hl
          simp at hl
      | cons b t2 =>
          have hh : byteBits a ++ bytesBits t = byteBits b ++ bytesBits t2 := by
            simpa [bytesBits] using h
          have hlen8 : (byteBits a).length = (byteBits b).length := by
            simp [byteBits, natBits_length]
          obtain ⟨hhead, htail⟩ := List.append_inj hh hlen8
          have hab : a = b :=
            byteBits_inj a b (h1 a (by simp)) (h2 b (by simp)) hhead
          have htt : t = t2 :=
            ih t2 (fun c hc => h1 c (List.mem_cons_of_mem a hc))
              (fun c hc => h2 c (List.mem_cons_of_mem b hc)) htail
          rw [hab, htt]

theorem reader_aligned (s : RState) (bs : List Nat) (hw : WfR s)
    (hb : ∀ b ∈ bs, b < 256) (h : rBits s = bytesBits bs) :
    s.bitsLeft = 0 ∧ s.input = bs := by
  have hlen := congrArg List.length h
  rw [rBits_length, bytesBits_length] at hlen
  have h0 : s.bitsLeft = 0 := by
    obtain ⟨hf, _⟩ := hw
    omega
  refine ⟨h0, ?_⟩
  apply bytesBits_inj _ _ hw.2 hb
  rw [← h, rBits, h0]
  simp [natBits]

theorem writer_aligned (s : WState) (hw : WfW s) (h : (wBits s).length % 8 = 0) :
    s.bitsFilled = 0 ∧ wBits s = bytesBits s.out := by
  have hlen : (wBits s).length = 8 * s.out.length + s.bitsFilled := by
    simp [wBits, bytesBits_length, natBits_length]
  obtain ⟨hbuf, hfill, _⟩ := hw
  have h0 : s.bitsFilled = 0 := by omega
  refine ⟨h0, ?_⟩
  rw [wBits, h0]
  simp [natBits]

-- ── Sequences of write_bits / read_bits calls (spec §8 law 4) ─────────────

/-- A sequence of `write_bits(v, n)` calls on one writer, in order. -/
def writeSeq (ops : List (Nat × Nat)) (s : WState) : WState :=
  ops.foldl (fun s p => write_bits s p.1 p.2) s

/-- Bytes produced by a fresh `BitWriter` after the calls in `ops` and a
final `flush`. -/
def outBytes (ops : List (Nat × Nat)) : List Nat :=
  (flushW (writeSeq ops ⟨[], 0, 0⟩)).out

/-- A sequence of `read_bits(n)` calls on one reader, collecting results. -/
def readSeq (s : RState) : List Nat → Option (List Nat)
  | [] => some []
  | n :: ns =>
    match read_bits s n with
    | none => none
    | some (v, s') =>
      match readSeq s' ns with
      | none => none
      | some vs => some (v :: vs)

theorem writeSeq_ok (ops : List (Nat × Nat)) (s : WState) (hw : WfW s) :
    wBits (writeSeq ops s) = wBits s ++ (ops.map fun p => natBits p.2 p.1).flatten ∧
    WfW (writeSeq ops s) := by
  induction ops generalizing s with
  | nil => simpa [writeSeq] using hw
  | cons p t ih =>
      obtain ⟨h1, h2⟩ := write_bits_ok p.2 s p.1 hw
      obtain ⟨h3, h4⟩ := ih (write_bits s p.1 p.2) h2
      refine ⟨?_, h4⟩
      show wBits (writeSeq t (write_bits s p.1 p.2)) = _
      rw [h3, h1]
      simp

theorem readSeq_ok (ops : List (Nat × Nat)) (s : RState) (extra : List Nat) (hw : WfR s)
    (h : rBits s = (ops.map fun p => natBits p.2 p.1).flatten ++ extra)
    (hb : ∀ p ∈ ops, p.2 ≤ 64 ∧ p.1 < 2 ^ p.2) :
    readSeq s (ops.map Prod.snd) = some (ops.map Prod.fst) := by
  induction ops generalizing s extra with
  | nil => simp [readSeq]
  | cons p t ih =>
      obtain ⟨hn, hv⟩ := hb p (by simp)
      have hh : rBits s =
          natBits p.2 p.1 ++ ((t.map fun p => natBits p.2 p.1).flatten ++ extra) := by
        rw [h]
        simp
      obtain ⟨s', he, hr, hw'⟩ := read_bits_ok s p.2 p.1 _ hw hh hn
      have hmod : p.1 % 2 ^ p.2 = p.1 := Nat.mod_eq_of_lt hv
      have hrec := ih s' _ hw' hr (fun q hq => hb q (List.mem_cons_of_mem p hq))
      rw [List.map_cons, List.map_cons]
      show (match read_bits s p.2 with
        | none => none
        | some (v, s') =>
          match readSeq s' (t.map Prod.snd) with
          | none => none
          | some vs => some (v :: vs)) = some (p.1 :: t.map Prod.fst)
      rw [he]
      dsimp only
      rw [hrec]
      dsimp only
      rw [hmod]

/-- C3 (amended): for any sequence of `write_bits(v_i, n_i)` calls with
`n_i ≤ 64` and `v_i < 2 ^ n_i` (i.e. values that fit in their declared bit
count), followed by `flush`, a fresh `BitReader` over the produced bytes
returns exactly `v_0, v_1, …` from `read_bits(n_0), read_bits(n_1), …`.
Without the `v_i < 2 ^ n_i` restriction the property fails, because
`write_bits` only emits the low `n_i` bits (see the counterexample). -/
theorem write_read_roundtrip (ops : List (Nat × Nat))
    (h : ∀ p ∈ ops, p.2 ≤ 64 ∧ p.1 < 2 ^ p.2) :
    readSeq ⟨outBytes ops, 0, 0⟩ (ops.map Prod.snd) = some (ops.map Prod.fst) := by
  have hw0 : WfW ⟨[], 0, 0⟩ := ⟨by norm_num, by norm_num, by simp⟩
  obtain ⟨hb, hwf⟩ := writeSeq_ok ops ⟨[], 0, 0⟩ hw0
  obtain ⟨hf0, hf1, hf2, hf3⟩ := flushW_ok _ hwf
  have hwr : WfR ⟨outBytes ops, 0, 0⟩ := by
    refine ⟨?_, ?_⟩
    · show (0 : Nat) ≤ 7
      norm_num
    · show ∀ b ∈ outBytes ops, b < 256
      exact hf3
  apply readSeq_ok ops _ (List.replicate ((8 - (writeSeq ops ⟨[], 0, 0⟩).bitsFilled) % 8) 0)
    hwr _ h
  show natBits 0 0 ++ bytesBits (outBytes ops) = _
  rw [outBytes, hf2, hb]
  have hempty : wBits ⟨[], 0, 0⟩ = [] := by simp [wBits, bytesBits, natBits]
  rw [hempty]
  simp [natBits]

/-- C3 counterexample: the claim as stated quantifies over all `u64` values,
including values with more than `n` significant bits.  Writing the value 2
with `write_bits(2, 1)` and flushing produces the byte `0x00`; reading one
bit back yields 0, not 2, so the round-trip does not return the written
value. -/
theorem write_read_roundtrip_cex :
    readSeq ⟨outBytes [(2, 1)], 0, 0⟩ [1] ≠ some [2] := by decide

/-- Witness for `write_read_roundtrip` at the concrete call
`write_bits(5, 3)`. -/
theorem write_read_roundtrip_witness :
    readSeq ⟨outBytes [(5, 3)], 0, 0⟩ [3] = some [5] := by
  have h := write_read_roundtrip [(5, 3)] (by decide)
  simpa using h

-- ══ FSPEC bitmap (`rusterix-core/src/fspec.rs`) ═══════════════════════════

/-- The FSPEC bitmap: a growable byte vector (`Fspec { bytes: Vec<u8> }`). -/
structure Fspec where
  bytes : List Nat
  deriving Repr, DecidableEq

/-- `Fspec::new`: a single byte initialised to `0x00`. -/
def Fspec.new : Fspec := ⟨[0]⟩

/-- Loop of `Fspec::read`: consume bytes until one has FX (LSB) = 0; `none`
models the `Io` error on a short read. -/
def fspecReadGo : List Nat → Option (List Nat × List Nat)
  | [] => none
  | b :: rest =>
    if b &&& 1 = 0 then some ([b], rest)
    else
      match fspecReadGo rest with
      | none => none
      | some (bs, r) => some (b :: bs, r)

/-- `Fspec::read` over an in-memory byte stream, returning the parsed FSPEC
and the unconsumed rest of the stream. -/
def Fspec.read (input : List Nat) : Option (Fspec × List Nat) :=
  match fspecReadGo input with
  | none => none
  | some (bs, rest) => some (⟨bs⟩, rest)

/-- `Fspec::write`: the stored bytes, verbatim. -/
def Fspec.write (f : Fspec) : List Nat := f.bytes

/-- `Fspec::is_set`: test bit `1 << (7 - bit)` of byte `byte`; out-of-range
bytes yield `false` (`unwrap_or(false)`).  The source computes `7 - bit` in
`u8`; for `bit ≤ 7` (the only calls the generator emits) this agrees with
truncated `Nat` subtraction used here. -/
def Fspec.is_set (f : Fspec) (byte : Nat) (bit : Nat) : Bool :=
  match f.bytes.get? byte with
  | some b => b &&& (1 <<< (7 - bit)) != 0
  | none => false

/-- The `for i in 0..byte` loop of `Fspec::set`: OR the FX bit (LSB) into the
first `k` bytes. -/
def orFxBelow : List Nat → Nat → List Nat
  | bs, 0 => bs
  | [], _ + 1 => []
  | b :: bs, k + 1 => (b ||| 1) :: orFxBelow bs k

/-- `Fspec::set`: extend with zero bytes up to index `byte`, OR in bit
`1 << (7 - bit)` of that byte, and set FX on every preceding byte. -/
def Fspec.set (f : Fspec) (byte : Nat) (bit : Nat) : Fspec :=
  let padded := f.bytes ++ List.replicate (byte + 1 - f.bytes.length) 0
  let withBit := padded.set byte (padded.getD byte 0 ||| (1 <<< (7 - bit)))
  ⟨orFxBelow withBit byte⟩

/-- A sequence of `set` calls, in order. -/
def Fspec.setAll (f : Fspec) (ps : List (Nat × Nat)) : Fspec :=
  ps.foldl (fun f p => f.set p.1 p.2) f

-- ── Index-level characterisation of the FSPEC operations ──────────────────

theorem orFxBelow_length (bs : List Nat) (k : Nat) :
    (orFxBelow bs k).length = bs.length := by
  induction bs generalizing k with
  | nil => cases k <;> rfl
  | cons b t ih =>
      cases k with
      | zero => rfl
      | succ k => simp [orFxBelow, ih]

theorem orFxBelow_getD (bs : List Nat) (k i : Nat) :
    (orFxBelow bs k).getD i 0 =
      if i < k ∧ i < bs.length then bs.getD i 0 ||| 1 else bs.getD i 0 := by
  induction bs generalizing k i with
  | nil =>
      cases k with
      | zero => simp [orFxBelow]
      | succ k => simp [orFxBelow]
  | cons b t ih =>
      cases k with
      | zero => simp [orFxBelow]
      | succ k =>
          cases i with
          | zero => simp [orFxBelow]
          | succ i =>
              show (orFxBelow t k).getD i 0 = _
              rw [ih k i]
              simp only [List.length_cons, List.getD_cons_succ]
              by_cases h1 : i < k ∧ i < t.length
              · rw [if_pos h1, if_pos ⟨by omega, by omega⟩]
              · rw [if_neg h1, if_neg (by omega)]

theorem getD_replicate_zero (n i : Nat) : (List.replicate n (0 : Nat)).getD i 0 = 0 := by
  by_cases h : i < n
  · rw [List.getD_eq_getElem _ _ (by simpa using h)]
    exact List.getElem_replicate _ _
  · rw [List.getD_eq_default _ _ (by simpa using h)]

theorem getD_append_replicate_zero (l : List Nat) (n i : Nat) :
    (l ++ List.replicate n 0).getD i 0 = l.getD i 0 := by
  by_cases h : i < l.length
  · rw [List.getD_append _ _ _ _ h]
  · rw [List.getD_eq_default l _ (by omega), List.getD_append_right _ _ _ _ (by omega),
      getD_replicate_zero]

theorem fspec_set_length (f : Fspec) (b k : Nat) :
    (f.set b k).bytes.length = max f.bytes.length (b + 1) := by
  show (orFxBelow _ b).length = _
  rw [orFxBelow_length, List.length_set, List.length_append, List.length_replicate]
  omega

theorem getD_set_list (l : List Nat) (n a m : Nat) :
    (l.set n a).getD m 0 = if m = n ∧ n < l.length then a else l.getD m 0 := by
  by_cases h : m = n ∧ n < l.length
  · rw [if_pos h, List.getD_eq_getElem _ _ (by rw [List.length_set]; omega)]
    obtain ⟨rfl, h2⟩ := h
    exact List.getElem_set_self _
  · rw [if_neg h]
    by_cases hm : m < l.length
    · rw [List.getD_eq_getElem _ _ (by rw [List.length_set]; omega),
        List.getD_eq_getElem _ _ hm]
      apply List.getElem_set_ne
      intro hc
      exact h ⟨hc.symm, by omega⟩
    · rw [List.getD_eq_default _ _ (by rw [List.length_set]; omega),
        List.getD_eq_default _ _ (by omega)]

theorem fspec_set_getD (f : Fspec) (b k i : Nat) :
    (f.set b k).bytes.getD i 0 =
      if i < b then f.bytes.getD i 0 ||| 1
      else if i = b then f.bytes.getD b 0 ||| (1 <<< (7 - k))
      else f.bytes.getD i 0 := by
  show (orFxBelow _ b).getD i 0 = _
  rw [orFxBelow_getD]
  have hplen : (f.bytes ++ List.replicate (b + 1 - f.bytes.length) 0).length =
      max f.bytes.length (b + 1) := by
    rw [List.length_append, List.length_replicate]
    omega
  have hblt : b < (f.bytes ++ List.replicate (b + 1 - f.bytes.length) 0).length := by
    omega
  rw [List.length_set, getD_set_list, hplen]
  by_cases hib : i < b
  · rw [if_pos ⟨hib, by omega⟩]
    rw [if_neg (by omega), if_pos hib]
    congr 1
    rw [getD_append_replicate_zero]
  · rw [if_neg (by omega)]
    by_cases hieq : i = b
    · rw [if_pos ⟨hieq, by rw [← hplen] at *; omega⟩, if_neg (by omega), if_pos hieq,
        getD_append_replicate_zero]
    · rw [if_neg (by simp [hieq]), if_neg (by omega), if_neg hieq,
        getD_append_replicate_zero]

/-- `is_set` in terms of `getD`: the `unwrap_or(false)` branch coincides with
testing the zero default. -/
theorem is_set_eq_getD (f : Fspec) (b k : Nat) :
    f.is_set b k = (f.bytes.getD b 0 &&& (1 <<< (7 - k)) != 0) := by
  rw [Fspec.is_set]
  by_cases h : b < f.bytes.length
  · rw [List.getD_eq_getElem _ _ h]
    rw [List.get?_eq_getElem?, List.getElem?_eq_getElem h]
  · rw [List.getD_eq_default _ _ (by omega)]
    rw [List.get?_eq_getElem?, List.getElem?_eq_none (by omega)]
    simp

theorem and_shift_ne_zero (x j : Nat) :
    (x &&& (1 <<< j) != 0) = x.testBit j := by
  rw [Nat.one_shiftLeft, Nat.and_two_pow]
  cases h : x.testBit j with
  | false => simp
  | true =>
      simp only [h, Bool.toNat_true, Nat.one_mul]
      have hne : 2 ^ j ≠ 0 := (Nat.pos_pow_of_pos j (by norm_num)).ne'
      simp [hne]

theorem is_set_testBit (f : Fspec) (b k : Nat) :
    f.is_set b k = (f.bytes.getD b 0).testBit (7 - k) := by
  rw [is_set_eq_getD, and_shift_ne_zero]

/-- Setting a data bit (`k ≤ 6`) changes `is_set` exactly at the target data
position; every other data position (`k' ≤ 6`) is untouched.  FX bits on
preceding bytes are position 7 and are not observable here. -/
theorem is_set_set (f : Fspec) (b k b' k' : Nat) (hk : k ≤ 6) (hk' : k' ≤ 6) :
    (f.set b k).is_set b' k'
      = (f.is_set b' k' || (decide (b = b') && decide (k = k'))) := by
  rw [is_set_testBit, is_set_testBit, fspec_set_getD]
  by_cases h1 : b' < b
  · rw [if_pos h1]
    have hth : (f.bytes.getD b' 0 ||| 1).testBit (7 - k')
        = (f.bytes.getD b' 0).testBit (7 - k') := by
      rw [Nat.testBit_or]
      have h0 : Nat.testBit 1 (7 - k') = false := by
        rw [show (1 : Nat) = 2 ^ 0 from rfl, Nat.testBit_two_pow]
        simp
        omega
      rw [h0, Bool.or_false]
    rw [hth]
    have hd : decide (b = b') = false := by simp; omega
    rw [hd]
    simp
  · by_cases h2 : b' = b
    · rw [if_neg h1, if_pos h2]
      subst h2
      rw [Nat.testBit_or, Nat.one_shiftLeft, Nat.testBit_two_pow]
      have hd : decide (b' = b') = true := by simp
      have hkk : decide (7 - k = 7 - k') = decide (k = k') := by
        by_cases h : k = k'
        · simp [h]
        · have hne : ¬ (7 - k = 7 - k') := by omega
          simp [h, hne]
      rw [hkk]
      simp
    · rw [if_neg h1, if_neg h2]
      have hd : decide (b = b') = false := by simp; omega
      rw [hd]
      simp

theorem is_set_new (b k : Nat) : Fspec.new.is_set b k = false := by
  rw [is_set_testBit]
  have h0 : (Fspec.new.bytes.getD b 0) = 0 := by
    cases b with
    | zero => rfl
    | succ b => rfl
  rw [h0]
  simp

theorem is_set_setAll (ps : List (Nat × Nat)) (f : Fspec) (b k : Nat)
    (hk : k ≤ 6) (hps : ∀ p ∈ ps, p.2 ≤ 6) :
    ((f.setAll ps).is_set b k = true) ↔ (f.is_set b k = true ∨ (b, k) ∈ ps) := by
  induction ps generalizing f with
  | nil => simp [Fspec.setAll]
  | cons p t ih =>
      show ((Fspec.setAll (f.set p.1 p.2) t).is_set b k = true) ↔ _
      rw [ih (f.set p.1 p.2) (fun q hq => hps q (List.mem_cons_of_mem p hq)),
        is_set_set f p.1 p.2 b k (hps p (by simp)) hk]
      simp only [Bool.or_eq_true, Bool.and_eq_true, decide_eq_true_eq, List.mem_cons,
        Prod.ext_iff]
      constructor
      · rintro ((h | ⟨h1, h2⟩) | h)
        · exact Or.inl h
        · exact Or.inr (Or.inl ⟨h1.symm, h2.symm⟩)
        · exact Or.inr (Or.inr h)
      · rintro (h | ⟨h1, h2⟩ | h)
        · exact Or.inl (Or.inl h)
        · exact Or.inl (Or.inr ⟨h1.symm, h2.symm⟩)
        · exact Or.inr h

-- ── FX chain invariant ────────────────────────────────────────────────────

/-- The FX-chain shape of a serialized FSPEC: every byte except the last has
FX (LSB) = 1, the last byte has FX = 0; the empty sequence is not a valid
FSPEC. -/
def fxChainOk : List Nat → Bool
  | [] => false
  | [b] => decide (b % 2 = 0)
  | b :: rest => decide (b % 2 = 1) && fxChainOk rest

theorem fxChainOk_cons_cons (b c : Nat) (rest : List Nat) :
    fxChainOk (b :: c :: rest) = (decide (b % 2 = 1) && fxChainOk (c :: rest)) := rfl

theorem fxChainOk_iff (bs : List Nat) :
    fxChainOk bs = true ↔
      (bs ≠ [] ∧ ∀ i, i < bs.length →
        bs.getD i 0 % 2 = if i + 1 = bs.length then 0 else 1) := by
  induction bs with
  | nil => simp [fxChainOk]
  | cons b t ih =>
      cases t with
      | nil =>
          simp only [fxChainOk, decide_eq_true_eq, List.length_cons, List.length_nil]
          constructor
          · intro h
            refine ⟨by simp, ?_⟩
            intro i hi
            have h0 : i = 0 := by omega
            subst h0
            simpa using h
          · rintro ⟨-, h⟩
            have h0 := h 0 (by norm_num)
            simpa using h0
      | cons c rest =>
          rw [fxChainOk_cons_cons, Bool.and_eq_true, decide_eq_true_eq, ih]
          constructor
          · rintro ⟨hb, -, h⟩
            refine ⟨by simp, ?_⟩
            intro i hi
            cases i with
            | zero =>
                rw [List.getD_cons_zero, if_neg (by simp only [List.length_cons]; omega)]
                exact hb
            | succ j =>
                rw [List.getD_cons_succ]
                have hj : j < (c :: rest).length := by
                  simp only [List.length_cons] at hi ⊢
                  omega
                have hval := h j hj
                by_cases hc : j + 1 = (c :: rest).length
                · rw [if_pos hc] at hval
                  rw [hval, if_pos (by simp only [List.length_cons] at hc ⊢; omega)]
                · rw [if_neg hc] at hval
                  rw [hval, if_neg (by simp only [List.length_cons] at hc ⊢; omega)]
          · rintro ⟨-, h⟩
            have hb := h 0 (by simp)
            rw [List.getD_cons_zero, if_neg (by simp only [List.length_cons]; omega)] at hb
            refine ⟨hb, by simp, ?_⟩
            intro j hj
            have hv := h (j + 1) (by simp only [List.length_cons] at hj ⊢; omega)
            rw [List.getD_cons_succ] at hv
            by_cases hc : j + 1 = (c :: rest).length
            · rw [if_pos hc]
              rw [if_pos (by simp only [List.length_cons] at hc ⊢; omega)] at hv
              exact hv
            · rw [if_neg hc]
              rw [if_neg (by simp only [List.length_cons] at hc ⊢; omega)] at hv
              exact hv

theorem or_one_mod_two (x : Nat) : (x ||| 1) % 2 = 1 := by
  have h := Nat.testBit_or x 1 0
  simpa [Nat.testBit_zero] using h

theorem or_shift_mod_two (x j : Nat) (hj : 0 < j) : (x ||| 1 <<< j) % 2 = x % 2 := by
  rw [Nat.one_shiftLeft]
  have h := Nat.testBit_or x (2 ^ j) 0
  have h2 : Nat.testBit (2 ^ j) 0 = false := by
    rw [Nat.testBit_two_pow]
    simp
    omega
  rw [h2, Bool.or_false] at h
  simp only [Nat.testBit_zero] at h
  by_cases hx : x % 2 = 1
  · have hA : (x ||| 2 ^ j) % 2 = 1 := of_decide_eq_true (by rw [h]; exact decide_eq_true hx)
    omega
  · have hA : ¬ ((x ||| 2 ^ j) % 2 = 1) := by
      rw [decide_eq_false hx] at h
      exact of_decide_eq_false h
    omega

theorem fxChainOk_set (f : Fspec) (b k : Nat) (hk : k ≤ 6)
    (h : fxChainOk f.bytes = true) : fxChainOk (f.set b k).bytes = true := by
  rw [fxChainOk_iff] at h ⊢
  obtain ⟨hne, hidx⟩ := h
  have hlen := fspec_set_length f b k
  have hL : 1 ≤ f.bytes.length := by
    cases hb : f.bytes with
    | nil => exact absurd hb hne
    | cons x t => simp [hb]
  refine ⟨?_, ?_⟩
  · intro hc
    have hc2 := congrArg List.length hc
    rw [hlen] at hc2
    simp only [List.length_nil] at hc2
    omega
  · intro i hi
    rw [hlen] at hi
    rw [fspec_set_getD]
    by_cases h1 : i < b
    · rw [if_pos h1, or_one_mod_two, if_neg (by omega)]
    · by_cases h2 : i = b
      · rw [if_neg h1, if_pos h2, or_shift_mod_two _ _ (by omega : 0 < 7 - k)]
        subst h2
        by_cases h3 : i < f.bytes.length
        · have hv := hidx i h3
          by_cases h4 : i + 1 = f.bytes.length
          · rw [if_pos h4] at hv
            rw [hv, if_pos (by omega)]
          · rw [if_neg h4] at hv
            rw [hv, if_neg (by omega)]
        · rw [List.getD_eq_default _ _ (by omega), if_pos (by omega)]
      · rw [if_neg h1, if_neg h2]
        have hiL : i < f.bytes.length := by omega
        have hv := hidx i hiL
        by_cases h4 : i + 1 = f.bytes.length
        · rw [if_pos h4] at hv
          rw [hv, if_pos (by omega)]
        · rw [if_neg h4] at hv
          rw [hv, if_neg (by omega)]

theorem fxChainOk_setAll (ops : List (Nat × Nat)) (f : Fspec)
    (hf : fxChainOk f.bytes = true) (hops : ∀ p ∈ ops, p.2 ≤ 6) :
    fxChainOk (f.setAll ops).bytes = true := by
  induction ops generalizing f with
  | nil => exact hf
  | cons p t ih =>
      show fxChainOk ((f.set p.1 p.2).setAll t).bytes = true
      exact ih (f.set p.1 p.2) (fxChainOk_set f p.1 p.2 (hops p (by simp)) hf)
        (fun q hq => hops q (List.mem_cons_of_mem p hq))

theorem fxChainOk_new : fxChainOk Fspec.new.bytes = true := by decide

-- ── Fspec read/write round trip ───────────────────────────────────────────

theorem fspecReadGo_cons (b : Nat) (l : List Nat) :
    fspecReadGo (b :: l) =
      if b &&& 1 = 0 then some ([b], l)
      else
        match fspecReadGo l with
        | none => none
        | some (bs, r) => some (b :: bs, r) := rfl

theorem fspecReadGo_of_fxChainOk (bs : List Nat) (rest : List Nat)
    (h : fxChainOk bs = true) : fspecReadGo (bs ++ rest) = some (bs, rest) := by
  induction bs with
  | nil => simp [fxChainOk] at h
  | cons b t ih =>
      cases t with
      | nil =>
          have hb : b % 2 = 0 := by simpa [fxChainOk] using h
          show fspecReadGo (b :: rest) = some ([b], rest)
          rw [fspecReadGo_cons, Nat.and_one_is_mod, hb, if_pos rfl]
      | cons c t2 =>
          have hb : b % 2 = 1 ∧ fxChainOk (c :: t2) = true := by
            simpa [fxChainOk_cons_cons] using h
          have ih2 := ih hb.2
          show fspecReadGo (b :: ((c :: t2) ++ rest)) = _
          rw [fspecReadGo_cons, Nat.and_one_is_mod, hb.1, if_neg (by norm_num), ih2]

-- ── FSPEC claim theorems ──────────────────────────────────────────────────

/-- C5: any Fspec reachable from `Fspec::new` by `set(b, k)` calls with
`0 ≤ k ≤ 6` serializes (via `write`, which emits the stored bytes verbatim)
to a byte sequence in which every byte except the last has FX (LSB) = 1 and
the last byte has FX = 0.  `fxChainOk` states exactly this shape (see
`fxChainOk_iff` for the index-level reading). -/
theorem fspec_fx_chain_invariant (ops : List (Nat × Nat))
    (h : ∀ p ∈ ops, p.2 ≤ 6) :
    fxChainOk (Fspec.write (Fspec.setAll Fspec.new ops)) = true :=
  fxChainOk_setAll ops Fspec.new fxChainOk_new h

/-- Witness for `fspec_fx_chain_invariant` at `set(0,0); set(2,3)`. -/
theorem fspec_fx_chain_invariant_witness :
    fxChainOk (Fspec.write (Fspec.setAll Fspec.new [(0, 0), (2, 3)])) = true :=
  fspec_fx_chain_invariant [(0, 0), (2, 3)] (by decide)

/-- C4: `set`-ing any finite list of positions `(b, k)` with data-bit index
`k ∈ 0..7` (i.e. `k ≤ 6`; position 7 is the FX bit, outside the claimed
range) on a fresh Fspec, then `write` followed by `read`, consumes exactly
the written bytes and yields back the same Fspec, on which `is_set(b, k)` is
true precisely for the positions that were set. -/
theorem fspec_set_write_read_roundtrip (ps : List (Nat × Nat))
    (h : ∀ p ∈ ps, p.2 ≤ 6) :
    Fspec.read (Fspec.write (Fspec.setAll Fspec.new ps))
        = some (Fspec.setAll Fspec.new ps, []) ∧
    ∀ b k, k ≤ 6 →
      ((Fspec.setAll Fspec.new ps).is_set b k = true ↔ (b, k) ∈ ps) := by
  constructor
  · have hfx : fxChainOk (Fspec.setAll Fspec.new ps).bytes = true :=
      fxChainOk_setAll ps Fspec.new fxChainOk_new h
    have hgo := fspecReadGo_of_fxChainOk (Fspec.setAll Fspec.new ps).bytes [] hfx
    rw [List.append_nil] at hgo
    rw [Fspec.read, Fspec.write, hgo]
  · intro b k hk
    rw [is_set_setAll ps Fspec.new b k hk h, is_set_new]
    simp

/-- Witness for `fspec_set_write_read_roundtrip` at `S = {(1, 2)}`. -/
theorem fspec_set_write_read_roundtrip_witness :
    Fspec.read (Fspec.write (Fspec.setAll Fspec.new [(1, 2)]))
        = some (Fspec.setAll Fspec.new [(1, 2)], []) ∧
    ((Fspec.setAll Fspec.new [(1, 2)]).is_set 1 2 = true ↔ (1, 2) ∈ [(1, 2)]) :=
  ⟨(fspec_set_write_read_roundtrip [(1, 2)] (by decide)).1,
   (fspec_set_write_read_roundtrip [(1, 2)] (by decide)).2 1 2 (by decide)⟩

/-- C9: frame property of `Fspec::set`: after `set(b, k)` with `k ≤ 6` the
target data bit reads as set, and every other data position `(b', k')` with
`k' ≤ 6` reads exactly as before — `set` only adds the target bit (and FX
bits, which live at position 7 and are not data positions). -/
theorem fspec_set_frame (f : Fspec) (b k : Nat) (hk : k ≤ 6) :
    (f.set b k).is_set b k = true ∧
    ∀ b' k', k' ≤ 6 → (b', k') ≠ (b, k) →
      (f.set b k).is_set b' k' = f.is_set b' k' := by
  constructor
  · rw [is_set_set f b k b k hk hk]
    simp
  · intro b' k' hk' hne
    rw [is_set_set f b k b' k' hk hk']
    have hnot : ¬ (b = b' ∧ k = k') := by
      rintro ⟨h1, h2⟩
      exact hne (by rw [h1, h2])
    have hfalse : (decide (b = b') && decide (k = k')) = false := by
      by_cases h1 : b = b'
      · by_cases h2 : k = k'
        · exact absurd ⟨h1, h2⟩ hnot
        · simp [h2]
      · simp [h1]
    rw [hfalse, Bool.or_false]

/-- Witness for `fspec_set_frame` on the Fspec with bytes `[0x0A]`,
setting `(1, 2)` and observing `(0, 3)`. -/
theorem fspec_set_frame_witness :
    ((Fspec.mk [10]).set 1 2).is_set 1 2 = true ∧
    ((Fspec.mk [10]).set 1 2).is_set 0 3 = (Fspec.mk [10]).is_set 0 3 :=
  ⟨(fspec_set_frame (Fspec.mk [10]) 1 2 (by decide)).1,
   (fspec_set_frame (Fspec.mk [10]) 1 2 (by decide)).2 0 3 (by decide) (by decide)⟩

/-- C8 counterexample: `is_set(b, 7)` does report the FX continuation bit.
`Fspec::new` followed by `set(1, 0)` stores bytes `[0x01, 0x80]`, where byte
0 consists of the FX bit alone, yet `is_set(0, 7)` returns `true`.  (The
repository's own test `read_multi_byte_fspec` asserts the same behaviour.) -/
theorem fspec_is_set_fx_cex :
    (Fspec.set Fspec.new 1 0).bytes = [1, 128] ∧
    (Fspec.set Fspec.new 1 0).is_set 0 7 = true := by decide

/-- C8 (amended): `is_set(b, 7)` reports exactly the FX (LSB) bit of byte
`b`: it is `true` iff byte `b` exists and its least significant bit is 1
(out-of-range bytes read as 0, hence `false`). -/
theorem fspec_is_set_seven_is_fx (f : Fspec) (b : Nat) :
    f.is_set b 7 = decide (f.bytes.getD b 0 % 2 = 1) := by
  rw [is_set_testBit, show (7 : Nat) - 7 = 0 from rfl, Nat.testBit_zero]

-- ══ Schema validator (`rasterix-codegen/src/transform/ir.rs`) ═════════════

namespace Rast

/-- `IRElement` of the validator tree (`rasterix-codegen`): a leaf of an item
layout.  `field` carries the `is_string` flag of that tree. -/
inductive Element where
  | field (name : String) (bits : Nat) (isString : Bool)
  | epb (content : Element)
  | enum (name : String) (bits : Nat) (values : List (String × Nat))
  | spare (bits : Nat)
  deriving Repr

/-- `IRElement::bit_size`: wire width in bits; EPB adds 1 validity bit to its
content. -/
def Element.bit_size : Element → Nat
  | .field _ bits _ => bits
  | .enum _ bits _ => bits
  | .spare bits => bits
  | .epb content => 1 + content.bit_size

/-- `IRLayout` of the validator tree.  Extended part groups are `(index,
elements)` pairs, compound sub-items `(index, layout)` pairs. -/
inductive Layout where
  | fixed (bytes : Nat) (elements : List Element)
  | explicit (bytes : Nat) (elements : List Element)
  | extended (bytes : Nat) (partGroups : List (Nat × List Element))
  | repetitive (bytes : Nat) (count : Nat) (elements : List Element)
  | compound (subItems : List (Nat × Layout))
  deriving Repr

mutual

/-- `IRLayout::validate`: `true` when the bit-budget assertions hold; the
source panics on `false` (build-time rejection). -/
def Layout.validate : Layout → Bool
  | .fixed bytes els => (els.map Element.bit_size).sum == bytes * 8
  | .explicit bytes els => (els.map Element.bit_size).sum == bytes * 8
  | .extended bytes pgs =>
      bytes == pgs.length && pgs.all (fun g => (g.2.map Element.bit_size).sum == 7)
  | .repetitive bytes _ els => (els.map Element.bit_size).sum == bytes * 8
  | .compound subs => validateSubs subs

/-- The recursive walk of `validate` over compound sub-items. -/
def validateSubs : List (Nat × Layout) → Bool
  | [] => true
  | s :: rest => s.2.validate && validateSubs rest

end

/-- An `IRItem` as consumed by `to_ir`'s validation loop. -/
structure Item where
  id : Nat
  frn : Nat
  layout : Layout

/-- An `IRCategory`. -/
structure Category where
  id : Nat
  items : List Item

/-- The validation performed by `to_ir` (`transformer.rs`): every item's
layout must validate; a failure panics before any code is emitted. -/
def to_ir_validates (cat : Category) : Bool :=
  cat.items.all (fun item => item.layout.validate)

mutual

/-- The condition named by claim C6: a Fixed, Explicit, or Repetitive layout
whose declared byte count differs from `⌈Σ element bits / 8⌉`, anywhere in
the layout (including inside a Compound). -/
def hasBudgetMismatch : Layout → Bool
  | .fixed bytes els => bytes != ((els.map Element.bit_size).sum + 7) / 8
  | .explicit bytes els => bytes != ((els.map Element.bit_size).sum + 7) / 8
  | .extended _ _ => false
  | .repetitive bytes _ els => bytes != ((els.map Element.bit_size).sum + 7) / 8
  | .compound subs => subsHaveMismatch subs

/-- `hasBudgetMismatch` over compound sub-items. -/
def subsHaveMismatch : List (Nat × Layout) → Bool
  | [] => false
  | s :: rest => hasBudgetMismatch s.2 || subsHaveMismatch rest

end

theorem ceil_ne_of_eq_mul (s bytes : Nat) (h : s = bytes * 8) :
    (s + 7) / 8 = bytes := by omega

mutual

theorem mismatch_invalidates : ∀ l : Layout, hasBudgetMismatch l = true →
    l.validate = false
  | .fixed bytes els, h => by
      rw [Layout.validate]
      simp only [hasBudgetMismatch, bne_iff_ne, ne_eq] at h
      simp only [beq_eq_false_iff_ne, ne_eq]
      intro hc
      exact h ((ceil_ne_of_eq_mul _ _ hc).symm)
  | .explicit bytes els, h => by
      rw [Layout.validate]
      simp only [hasBudgetMismatch, bne_iff_ne, ne_eq] at h
      simp only [beq_eq_false_iff_ne, ne_eq]
      intro hc
      exact h ((ceil_ne_of_eq_mul _ _ hc).symm)
  | .repetitive bytes c els, h => by
      rw [Layout.validate]
      simp only [hasBudgetMismatch, bne_iff_ne, ne_eq] at h
      simp only [beq_eq_false_iff_ne, ne_eq]
      intro hc
      exact h ((ceil_ne_of_eq_mul _ _ hc).symm)
  | .compound subs, h => by
      rw [Layout.validate]
      exact subsMismatch_invalidates subs (by simpa [hasBudgetMismatch] using h)

theorem subsMismatch_invalidates : ∀ subs : List (Nat × Layout),
    subsHaveMismatch subs = true → validateSubs subs = false
  | [], h => by simp [subsHaveMismatch] at h
  | s :: rest, h => by
      rw [validateSubs]
      rcases Bool.or_eq_true_iff.mp (by simpa [subsHaveMismatch] using h) with h1 | h1
      · rw [mismatch_invalidates s.2 h1, Bool.false_and]
      · rw [subsMismatch_invalidates rest h1, Bool.and_false]

end

end Rast

/-- C6: any schema that contains a Fixed, Explicit, or Repetitive layout
whose declared byte count does not equal `⌈Σ element bits / 8⌉` (EPB
contributing 1 + the wrapped width) fails `to_ir` validation, i.e. is
rejected before any code is emitted.  (The validator is in fact stricter: it
demands `Σ bits = 8 × bytes` exactly; the claimed ceiling mismatch always
implies that failure.) -/
theorem schema_bit_budget_rejected (cat : Rast.Category) (item : Rast.Item)
    (hmem : item ∈ cat.items) (hbad : Rast.hasBudgetMismatch item.layout = true) :
    Rast.to_ir_validates cat = false := by
  rw [Rast.to_ir_validates]
  have hv := Rast.mismatch_invalidates item.layout hbad
  rcases hall : cat.items.all (fun item => item.layout.validate) with _ | _
  · rfl
  · exfalso
    have := List.all_eq_true.mp hall item hmem
    rw [hv] at this
    exact Bool.false_ne_true this

/-- Witness for `schema_bit_budget_rejected`: a 2-byte Fixed item holding a
single 8-bit field (`⌈8/8⌉ = 1 ≠ 2`). -/
theorem schema_bit_budget_rejected_witness :
    Rast.to_ir_validates
      ⟨48, [⟨10, 0, Rast.Layout.fixed 2 [Rast.Element.field "a" 8 false]⟩]⟩ = false :=
  schema_bit_budget_rejected _ ⟨10, 0, Rast.Layout.fixed 2 [Rast.Element.field "a" 8 false]⟩
    (by simp) (by decide)

-- ══ rusterix-codegen: IR, name conversion, field lowering ═════════════════

namespace Cg

/-- `IRElement` of the rusterix-codegen tree (`transform/ir.rs` as consumed
by the lowerer and the encode/decode generators): no string fields in this
tree. -/
inductive IRElement where
  | field (name : String) (bits : Nat)
  | epb (content : IRElement)
  | enum (name : String) (bits : Nat) (values : List (String × Nat))
  | spare (bits : Nat)
  deriving Repr, DecidableEq

/-- `rust_type_for_bits` (`generate/utils.rs`): smallest unsigned type for a
bit count. -/
def rust_type_for_bits (bits : Nat) : String :=
  if bits ≤ 8 then "u8"
  else if bits ≤ 16 then "u16"
  else if bits ≤ 32 then "u32"
  else if bits ≤ 64 then "u64"
  else "u128"

/-- Per-character step of `to_snake_case` (`generate/utils.rs`): an uppercase
letter with a lowercase neighbour gets an underscore before it; everything is
lowercased.  ASCII semantics (the Rust code mixes Unicode case tests with
`to_ascii_lowercase`; schema names are ASCII). -/
def snakeChar (cs : List Char) (i : Nat) (c : Char) : List Char :=
  if i > 0 then
    if c.isUpper &&
        ((match cs.get? (i - 1) with | some p => p.isLower | none => false) ||
         (match cs.get? (i + 1) with | some n => n.isLower | none => false)) then
      ['_', c.toLower]
    else [c.toLower]
  else [c.toLower]

/-- `to_snake_case`: character walk, then `replace('-', "_")`. -/
def to_snake_case (s : String) : String :=
  let cs := s.data
  ⟨(((List.range cs.length).map (fun i => snakeChar cs i (cs.getD i ' '))).flatten).map
    (fun c => if c = '-' then '_' else c)⟩

/-- One word of `to_pascal_case`: first char uppercased, rest lowercased. -/
def capWord (w : List Char) : List Char :=
  match w with
  | [] => []
  | c :: rest => c.toUpper :: rest.map Char.toLower

/-- `to_pascal_case`: split on `_`/`-`, drop empty words, capitalise each. -/
def to_pascal_case (s : String) : String :=
  ⟨(((s.data.splitOnP (fun c => c = '_' || c = '-')).filter
      (fun w => !w.isEmpty)).map capWord).flatten⟩

/-- Resolved field type (`lower_ir.rs` `FieldType`). -/
inductive FieldType where
  | primitive (ty : String)
  | optionalPrimitive (ty : String)
  | enumT (ty : String)
  | optionalEnum (ty : String)
  deriving Repr, DecidableEq

/-- `FieldDescriptor`: final snake-case field name and resolved type. -/
structure FieldDescriptor where
  name : String
  type_tokens : FieldType
  deriving Repr, DecidableEq

/-- `lower_field` (`transform/lowerer.rs`): one descriptor per visible
element; `none` for Spare.  The source panics on EPB wrapping anything but a
Field or Enum; that panic path is modelled as `none` as well. -/
def lower_field : IRElement → Option FieldDescriptor
  | .field name bits =>
      some ⟨to_snake_case name, .primitive (rust_type_for_bits bits)⟩
  | .epb content =>
      match content with
      | .field name bits =>
          some ⟨to_snake_case name, .optionalPrimitive (rust_type_for_bits bits)⟩
      | .enum name _ _ =>
          some ⟨to_snake_case name, .optionalEnum (to_pascal_case name)⟩
      | _ => none
  | .enum name _ _ =>
      some ⟨to_snake_case name, .enumT (to_pascal_case name)⟩
  | .spare _ => none

/-- `lower_fields`: `elements.iter().filter_map(lower_field).collect()` —
note: no duplicate-name check of any kind. -/
def lower_fields (elements : List IRElement) : List FieldDescriptor :=
  elements.filterMap lower_field

end Cg

/-- C7: duplicate field names are NOT rejected by lowering.  Two 8-bit fields
both named `a` in one scope lower successfully to two `FieldDescriptor`s with
the same snake-case name `a`; `lower_fields` (and the whole lowering
pipeline, which is total) produces output instead of failing with a hard
error. -/
theorem lower_fields_accepts_duplicates :
    Cg.lower_fields [Cg.IRElement.field "a" 8, Cg.IRElement.field "a" 8]
      = [⟨"a", Cg.FieldType.primitive "u8"⟩, ⟨"a", Cg.FieldType.primitive "u8"⟩] := by
  rfl

namespace Cg

-- ══ Semantics of the emitted encode/decode code ═══════════════════════════
-- Each function below mirrors the Rust code that the generator emits for a
-- given IR fragment (`generate/encode_gen.rs`, `generate/decode_gen.rs`,
-- `generate/record_gen.rs`, `generate/datablock_gen.rs`).

/-- Wire width of an element (same computation as the validator's
`bit_size`): EPB adds one validity bit. -/
def IRElement.bit_size : IRElement → Nat
  | .field _ bits => bits
  | .enum _ bits _ => bits
  | .spare bits => bits
  | .epb content => 1 + content.bit_size

/-- Width of the unsigned type chosen by `rust_type_for_bits`; the `as`
cast in the emitted decode truncates to this width. -/
def rustTypeBits (bits : Nat) : Nat :=
  if bits ≤ 8 then 8
  else if bits ≤ 16 then 16
  else if bits ≤ 32 then 32
  else if bits ≤ 64 then 64
  else 128

/-- The `as uN` cast applied to a decoded field value. -/
def castVal (bits v : Nat) : Nat := v % 2 ^ rustTypeBits bits

/-- A value of an emitted enum: a declared variant (by position in the
declaration list) or the `Unknown(u8)` catch-all. -/
inductive EnumVal where
  | named (i : Nat)
  | unknown (v : Nat)
  deriving Repr, DecidableEq

/-- `impl From<Enum> for u8` (enum_gen.rs): a declared variant maps to its
declared value, `Unknown(v)` maps back to `v`. -/
def enumToInt (values : List (String × Nat)) : EnumVal → Nat
  | .named i => (values.getD i ("", 0)).2
  | .unknown v => v

/-- `impl TryFrom<u8> for Enum` (enum_gen.rs): the first declared variant
with a matching value, otherwise `Unknown(value)`; never an error. -/
def enumOfInt (values : List (String × Nat)) (v : Nat) : EnumVal :=
  match values.findIdx? (fun p => p.2 == v) with
  | some i => .named i
  | none => .unknown v

/-- Runtime value of one visible element of a generated struct. -/
inductive ElemVal where
  | vField (v : Nat)
  | vOptField (v : Option Nat)
  | vEnum (e : EnumVal)
  | vOptEnum (e : Option EnumVal)
  deriving Repr, DecidableEq

/-- `generate_element_encode`: the write statements emitted for one element.
The EPB-wraps-neither-Field-nor-Enum panic is modelled as `none`. -/
def encElem : IRElement → ElemVal → WState → Option WState
  | .field _ bits, .vField v, s => some (write_bits s v bits)
  | .epb (.field _ bits), .vOptField (some v), s =>
      some (write_bits (write_bits s 1 1) v bits)
  | .epb (.field _ bits), .vOptField none, s =>
      some (write_bits (write_bits s 0 1) 0 bits)
  | .epb (.enum _ bits vals), .vOptEnum (some e), s =>
      some (write_bits (write_bits s 1 1) (enumToInt vals e) bits)
  | .epb (.enum _ bits _), .vOptEnum none, s =>
      some (write_bits (write_bits s 0 1) 0 bits)
  | .enum _ bits vals, .vEnum e, s => some (write_bits s (enumToInt vals e) bits)
  | _, _, _ => none

/-- The sequence of element writes in a generated `encode` body.  Spare
elements consume no value (they are invisible in the struct) and write zero
bits. -/
def encElems : List IRElement → List ElemVal → WState → Option WState
  | [], [], s => some s
  | .spare bits :: es, vs, s => encElems es vs (write_bits s 0 bits)
  | e :: es, v :: vs, s =>
      match encElem e v s with
      | none => none
      | some s1 => encElems es vs s1
  | _, _, _ => none

/-- The sequence of element reads in a generated `decode` body, collecting
one value per visible element (`generate_element_decode`). -/
def decElems : List IRElement → RState → Option (List ElemVal × RState)
  | [], s => some ([], s)
  | .field _ bits :: es, s =>
      match read_bits s bits with
      | none => none
      | some (v, s1) =>
        match decElems es s1 with
        | none => none
        | some (vs, s2) => some (.vField (castVal bits v) :: vs, s2)
  | .epb (.field _ bits) :: es, s =>
      match read_bits s 1 with
      | none => none
      | some (vbit, s1) =>
        if vbit != 0 then
          match read_bits s1 bits with
          | none => none
          | some (v, s2) =>
            match decElems es s2 with
            | none => none
            | some (vs, s3) => some (.vOptField (some (castVal bits v)) :: vs, s3)
        else
          match read_bits s1 bits with
          | none => none
          | some (_, s2) =>
            match decElems es s2 with
            | none => none
            | some (vs, s3) => some (.vOptField none :: vs, s3)
  | .epb (.enum _ bits vals) :: es, s =>
      match read_bits s 1 with
      | none => none
      | some (vbit, s1) =>
        if vbit != 0 then
          match read_bits s1 bits with
          | none => none
          | some (v, s2) =>
            match decElems es s2 with
            | none => none
            | some (vs, s3) => some (.vOptEnum (some (enumOfInt vals (v % 256))) :: vs, s3)
        else
          match read_bits s1 bits with
          | none => none
          | some (_, s2) =>
            match decElems es s2 with
            | none => none
            | some (vs, s3) => some (.vOptEnum none :: vs, s3)
  | .epb _ :: _, _ => none
  | .enum _ bits vals :: es, s =>
      match read_bits s bits with
      | none => none
      | some (v, s1) =>
        match decElems es s1 with
        | none => none
        | some (vs, s2) => some (.vEnum (enumOfInt vals (v % 256)) :: vs, s2)
  | .spare bits :: es, s =>
      match read_bits s bits with
      | none => none
      | some (_, s1) => decElems es s1

end Cg

namespace Cg

/-- `IRPartGroup`: one 7-data-bit slice of an Extended item. -/
structure IRPartGroup where
  index : Nat
  elements : List IRElement
  deriving Repr, DecidableEq

/-- The non-Compound layouts (`IRLayout::{Fixed, Explicit, Extended,
Repetitive}`).  Compound sub-items may only carry these; the generator
panics on a nested Compound, so the embedding separates the two levels. -/
inductive IRFlat where
  | fixed (bytes : Nat) (elements : List IRElement)
  | explicit (bytes : Nat) (elements : List IRElement)
  | extended (bytes : Nat) (partGroups : List IRPartGroup)
  | repetitive (bytes : Nat) (count : Nat) (elements : List IRElement)
  deriving Repr, DecidableEq

/-- `IRSubItem` of a Compound: FSPEC position index plus a non-Compound
layout. -/
structure IRSubItem where
  index : Nat
  layout : IRFlat
  deriving Repr, DecidableEq

/-- `IRLayout`. -/
inductive IRLayout where
  | flat (l : IRFlat)
  | compound (subItems : List IRSubItem)
  deriving Repr, DecidableEq

/-- Value of a generated struct for a non-Compound item: field list for
Fixed/Explicit, required first part plus optional later parts for Extended,
element list per repetition for Repetitive. -/
inductive FlatVal where
  | simple (fields : List ElemVal)
  | extended (first : List ElemVal) (rest : List (Option (List ElemVal)))
  | repetitive (items : List (List ElemVal))
  deriving Repr, DecidableEq

/-- Value of a generated item struct. -/
inductive ItemVal where
  | flat (v : FlatVal)
  | compound (subs : List (Option FlatVal))
  deriving Repr, DecidableEq

/-- `self.partN.is_some() as u64` of the first entry of an option list. -/
def isSomeHead : List (Option (List ElemVal)) → Nat
  | some _ :: _ => 1
  | _ => 0

/-- The per-part statements of `generate_extended_encode` for parts 1…: an
absent optional part writes nothing and control falls through to the next
statement; a present part encodes its 7 data bits and then the FX bit,
which is 1 iff the next part field is `Some` (0 after the last part). -/
def encExtTail : List IRPartGroup → List (Option (List ElemVal)) → WState → Option WState
  | [], _, s => some s
  | pg :: ptail, vs, s =>
      match vs with
      | some pv :: vtail =>
          match encElems pg.elements pv s with
          | none => none
          | some s1 =>
            match ptail with
            | [] => some (write_bits s1 0 1)
            | _ => encExtTail ptail vtail (write_bits s1 (isSomeHead vtail) 1)
      | none :: vtail => encExtTail ptail vtail s
      | [] => encExtTail ptail [] s

/-- `for item in &self.items { item.encode(writer)? }` of a Repetitive
item: every element of the vector is encoded, regardless of the declared
count. -/
def encRepItems : List IRElement → List (List ElemVal) → WState → Option WState
  | _, [], s => some s
  | els, item :: rest, s =>
      match encElems els item s with
      | none => none
      | some s1 => encRepItems els rest s1

/-- Encode body of a non-Compound item (`generate_simple_encode`,
`generate_extended_encode`, `generate_repetitive_encode`).  Explicit items
first write the length byte `bytes + 1`. -/
def encFlat : IRFlat → FlatVal → WState → Option WState
  | .fixed _ els, .simple vs, s => encElems els vs s
  | .explicit bytes els, .simple vs, s => encElems els vs (write_bits s (bytes + 1) 8)
  | .extended _ pgs, .extended first rest, s =>
      match pgs with
      | [] => some s
      | p0 :: ptail =>
        match encElems p0.elements first s with
        | none => none
        | some s1 =>
          match ptail with
          | [] => some (write_bits s1 0 1)
          | _ => encExtTail ptail rest (write_bits s1 (isSomeHead rest) 1)
  | .repetitive _ _ els, .repetitive items, s => encRepItems els items s
  | _, _, _ => none

/-- Decode loop of `generate_extended_decode` for parts 1…: a part is
decoded iff the FX bit after the previous part was 1; once FX is 0 all
remaining parts are `None`. -/
def decExtTail : List IRPartGroup → Bool → RState → Option (List (Option (List ElemVal)) × RState)
  | [], _, s => some ([], s)
  | pg :: ptail, fx, s =>
      if fx then
        match decElems pg.elements s with
        | none => none
        | some (pv, s1) =>
          match read_bits s1 1 with
          | none => none
          | some (fx2, s2) =>
            match decExtTail ptail (fx2 != 0) s2 with
            | none => none
            | some (rest, s3) => some (some pv :: rest, s3)
      else
        match decExtTail ptail false s with
        | none => none
        | some (rest, s1) => some (none :: rest, s1)

/-- `for _ in 0..count` decode loop of a Repetitive item. -/
def decRepItems : List IRElement → Nat → RState → Option (List (List ElemVal) × RState)
  | _, 0, s => some ([], s)
  | els, n + 1, s =>
      match decElems els s with
      | none => none
      | some (item, s1) =>
        match decRepItems els n s1 with
        | none => none
        | some (rest, s2) => some (item :: rest, s2)

/-- Decode body of a non-Compound item (`generate_simple_decode`,
`generate_extended_decode`, `generate_repetitive_decode`).  Explicit items
read and ignore the length byte. -/
def decFlat : IRFlat → RState → Option (FlatVal × RState)
  | .fixed _ els, s =>
      match decElems els s with
      | none => none
      | some (vs, s1) => some (.simple vs, s1)
  | .explicit _ els, s =>
      match read_bits s 8 with
      | none => none
      | some (_, s1) =>
        match decElems els s1 with
        | none => none
        | some (vs, s2) => some (.simple vs, s2)
  | .extended _ pgs, s =>
      match pgs with
      | [] => some (.extended [] [], s)
      | p0 :: ptail =>
        match decElems p0.elements s with
        | none => none
        | some (v0, s1) =>
          match read_bits s1 1 with
          | none => none
          | some (fx, s2) =>
            match decExtTail ptail (fx != 0) s2 with
            | none => none
            | some (rest, s3) => some (.extended v0 rest, s3)
  | .repetitive _ count els, s =>
      match decRepItems els count s with
      | none => none
      | some (items, s1) => some (.repetitive items, s1)

end Cg

namespace Cg

/-- `frn_to_fspec_position` (`generate/utils.rs`). -/
def frn_to_fspec_position (frn : Nat) : Nat × Nat := (frn / 7, frn % 7)

/-- FSPEC construction in `generate_compound_encode`: one `set` per present
sub-item, in declaration order. -/
def buildCmpFspec : List IRSubItem → List (Option FlatVal) → Fspec → Fspec
  | [], _, f => f
  | sub :: subs, vs, f =>
      match vs with
      | some _ :: vtail =>
          buildCmpFspec subs vtail
            (f.set (frn_to_fspec_position sub.index).1 (frn_to_fspec_position sub.index).2)
      | none :: vtail => buildCmpFspec subs vtail f
      | [] => buildCmpFspec subs [] f

/-- The per-sub-item encode statements of a Compound: present sub-items are
encoded in order on the nested `BitWriter`. -/
def encCmpSubs : List IRSubItem → List (Option FlatVal) → WState → Option WState
  | [], _, s => some s
  | sub :: subs, vs, s =>
      match vs with
      | some v :: vtail =>
          match encFlat sub.layout v s with
          | none => none
          | some s1 => encCmpSubs subs vtail s1
      | none :: vtail => encCmpSubs subs vtail s
      | [] => encCmpSubs subs [] s

/-- `generate_compound_encode`: build the FSPEC from the present sub-items,
write its bytes through the caller's `Write` passthrough (directly onto the
underlying stream, leaving the caller's bit buffer untouched), then encode
the present sub-items on a fresh nested `BitWriter` over the same underlying
stream, and flush it. -/
def cmpEncode (subs : List IRSubItem) (vs : List (Option FlatVal)) (s : WState) :
    Option WState :=
  let fsp := buildCmpFspec subs vs Fspec.new
  match encCmpSubs subs vs ⟨s.out ++ Fspec.write fsp, 0, 0⟩ with
  | none => none
  | some inner => some ⟨(flushW inner).out, s.buffer, s.bitsFilled⟩

/-- The per-sub-item decode statements of a Compound: a sub-item is decoded
iff its FSPEC bit is set. -/
def decCmpSubs : List IRSubItem → Fspec → RState → Option (List (Option FlatVal) × RState)
  | [], _, s => some ([], s)
  | sub :: subs, fsp, s =>
      if fsp.is_set (frn_to_fspec_position sub.index).1 (frn_to_fspec_position sub.index).2 then
        match decFlat sub.layout s with
        | none => none
        | some (v, s1) =>
          match decCmpSubs subs fsp s1 with
          | none => none
          | some (vsl, s2) => some (some v :: vsl, s2)
      else
        match decCmpSubs subs fsp s with
        | none => none
        | some (vsl, s1) => some (none :: vsl, s1)

/-- `generate_compound_decode`: `Fspec::read` through the caller's `Read`
passthrough (raw bytes from the underlying stream, ignoring the caller's
bit buffer), then decode sub-items on a fresh nested `BitReader`; the nested
reader's unconsumed buffered bits are dropped when it goes out of scope. -/
def cmpDecode (subs : List IRSubItem) (s : RState) : Option (ItemVal × RState) :=
  match Fspec.read s.input with
  | none => none
  | some (fsp, rest) =>
    match decCmpSubs subs fsp ⟨rest, 0, 0⟩ with
    | none => none
    | some (vsl, inner) => some (.compound vsl, ⟨inner.input, s.buffer, s.bitsLeft⟩)

/-- Encode dispatch for one item (`impl Encode` of a flat item; the inherent
`encode` of a compound item). -/
def itemEncode : IRLayout → ItemVal → WState → Option WState
  | .flat l, .flat v, s => encFlat l v s
  | .compound subs, .compound vsl, s => cmpEncode subs vsl s
  | _, _, _ => none

/-- Decode dispatch for one item. -/
def itemDecode : IRLayout → RState → Option (ItemVal × RState)
  | .flat l, s =>
      match decFlat l s with
      | none => none
      | some (v, s1) => some (.flat v, s1)
  | .compound subs, s => cmpDecode subs s

/-- One record entry: the item's FRN and layout (`record_gen.rs` walks the
category's items in order). -/
structure RecItem where
  frn : Nat
  layout : IRLayout
  deriving Repr, DecidableEq

/-- Record FSPEC construction (`generate_record_encode`): one `set` at
`frn_to_fspec_position(frn)` per present item. -/
def buildRecFspec : List RecItem → List (Option ItemVal) → Fspec → Fspec
  | [], _, f => f
  | it :: its, vs, f =>
      match vs with
      | some _ :: vtail =>
          buildRecFspec its vtail
            (f.set (frn_to_fspec_position it.frn).1 (frn_to_fspec_position it.frn).2)
      | none :: vtail => buildRecFspec its vtail f
      | [] => buildRecFspec its [] f

/-- The per-item encode statements of a record body. -/
def encRecItems : List RecItem → List (Option ItemVal) → WState → Option WState
  | [], _, s => some s
  | it :: its, vs, s =>
      match vs with
      | some v :: vtail =>
          match itemEncode it.layout v s with
          | none => none
          | some s1 => encRecItems its vtail s1
      | none :: vtail => encRecItems its vtail s
      | [] => encRecItems its [] s

/-- `generate_record_encode`: write the FSPEC to the raw stream, then encode
present items on a fresh `BitWriter`, then flush it.  Takes and returns the
raw underlying byte stream. -/
def recordEncode (its : List RecItem) (vs : List (Option ItemVal)) (out : List Nat) :
    Option (List Nat) :=
  let fsp := buildRecFspec its vs Fspec.new
  match encRecItems its vs ⟨out ++ Fspec.write fsp, 0, 0⟩ with
  | none => none
  | some s1 => some (flushW s1).out

/-- The per-item decode statements of a record body. -/
def decRecItems : List RecItem → Fspec → RState → Option (List (Option ItemVal) × RState)
  | [], _, s => some ([], s)
  | it :: its, fsp, s =>
      if fsp.is_set (frn_to_fspec_position it.frn).1 (frn_to_fspec_position it.frn).2 then
        match itemDecode it.layout s with
        | none => none
        | some (v, s1) =>
          match decRecItems its fsp s1 with
          | none => none
          | some (vsl, s2) => some (some v :: vsl, s2)
      else
        match decRecItems its fsp s with
        | none => none
        | some (vsl, s1) => some (none :: vsl, s1)

/-- `generate_record_decode`: `Fspec::read` from the raw stream, then item
decodes on a fresh `BitReader`; returns the decoded item options and the
bytes the reader has not fetched (its dropped bit buffer is lost). -/
def recordDecode (its : List RecItem) (input : List Nat) :
    Option (List (Option ItemVal) × List Nat) :=
  match Fspec.read input with
  | none => none
  | some (fsp, rest) =>
    match decRecItems its fsp ⟨rest, 0, 0⟩ with
    | none => none
    | some (vsl, s1) => some (vsl, s1.input)

end Cg

namespace Cg

/-- `3 + record_buf.len() as u16` of `generate_datablock`: the length is
truncated to `u16` by the unchecked cast and the addition wraps
(release-mode semantics). -/
def dbTotalLen (n : Nat) : Nat := (3 + n % 65536) % 65536

/-- Record serialization loop of the DataBlock encode: every record is
encoded into the scratch buffer in order. -/
def encRecords (its : List RecItem) : List (List (Option ItemVal)) → List Nat →
    Option (List Nat)
  | [], buf => some buf
  | r :: rs, buf =>
      match recordEncode its r buf with
      | none => none
      | some buf1 => encRecords its rs buf1

/-- The payload write loop of the DataBlock encode: each scratch byte is
written with `write_bits(byte, 8)`. -/
def writeBytesAsBits : List Nat → WState → WState
  | [], s => s
  | b :: bs, s => writeBytesAsBits bs (write_bits s b 8)

/-- `generate_datablock` encode: serialize the records into a scratch
buffer, then write CAT (8 bits), LEN (16 bits big-endian, wrapped to `u16`)
and the scratch bytes. -/
def dataBlockEncode (cat : Nat) (its : List RecItem)
    (records : List (List (Option ItemVal))) (s : WState) : Option WState :=
  match encRecords its records [] with
  | none => none
  | some buf =>
      some (writeBytesAsBits buf (write_bits (write_bits s cat 8) (dbTotalLen buf.length) 16))

/-- The payload read loop of the DataBlock decode: `LEN - 3` bytes, each via
`read_bits(8)`. -/
def readNBytes : Nat → RState → Option (List Nat × RState)
  | 0, s => some ([], s)
  | n + 1, s =>
      match read_bits s 8 with
      | none => none
      | some (v, s1) =>
        match readNBytes n s1 with
        | none => none
        | some (vs, s2) => some (v :: vs, s2)

/-- The `while cursor.position() < total` loop of the DataBlock decode:
records are decoded from the payload until it is exhausted.  The loop
terminates because `Fspec::read` consumes at least one byte per record; the
fuel argument (instantiated with the payload length) makes that measure
explicit. -/
def decRecordsLoop (its : List RecItem) : List Nat → Nat →
    Option (List (List (Option ItemVal)))
  | [], _ => some []
  | _ :: _, 0 => none
  | payload, fuel + 1 =>
      match recordDecode its payload with
      | none => none
      | some (v, rest) =>
        match decRecordsLoop its rest fuel with
        | none => none
        | some vs => some (v :: vs)

/-- `generate_datablock` decode: CAT check, LEN check, staged payload
buffer, then the record loop. -/
def dataBlockDecode (cat : Nat) (its : List RecItem) (s : RState) :
    Option (List (List (Option ItemVal)) × RState) :=
  match read_bits s 8 with
  | none => none
  | some (catv, s1) =>
    if catv != cat then none
    else
      match read_bits s1 16 with
      | none => none
      | some (len, s2) =>
        if len < 3 then none
        else
          match readNBytes (len - 3) s2 with
          | none => none
          | some (payload, s3) =>
            match decRecordsLoop its payload payload.length with
            | none => none
            | some recs => some (recs, s3)

end Cg

namespace Cg

-- ── Legality of schemas and values ────────────────────────────────────────

/-- Schema-side sanity of an enum declaration: every declared value fits the
declared bit width and the declared values are pairwise distinct (spec §3
invariants). -/
def enumValsOk (bits : Nat) (vals : List (String × Nat)) : Bool :=
  vals.all (fun p => decide (p.2 < 2 ^ bits)) && decide (vals.map Prod.snd).Nodup

/-- Schema-side sanity of one element: field widths fit the 64-bit
read/write window, enums fit the `u8` conversions, EPB wraps only a Field or
an Enum. -/
def wfElem : IRElement → Bool
  | .field _ bits => decide (bits ≤ 64)
  | .epb (.field _ bits) => decide (bits ≤ 64)
  | .epb (.enum _ bits vals) => decide (bits ≤ 8) && enumValsOk bits vals
  | .epb _ => false
  | .enum _ bits vals => decide (bits ≤ 8) && enumValsOk bits vals
  | .spare _ => true

/-- Total wire width of an element list. -/
def elemsBitSum (els : List IRElement) : Nat := (els.map IRElement.bit_size).sum

/-- Schema-side sanity of a non-Compound layout: element sanity plus the
bit-budget equations the validator enforces (Σ bits = 8 × bytes for
Fixed/Explicit/Repetitive, 7 bits per Extended part group). -/
def wfFlat : IRFlat → Bool
  | .fixed bytes els => els.all wfElem && decide (elemsBitSum els = bytes * 8)
  | .explicit bytes els => els.all wfElem && decide (elemsBitSum els = bytes * 8)
  | .extended _ pgs =>
      pgs.all (fun pg => pg.elements.all wfElem && decide (elemsBitSum pg.elements = 7))
  | .repetitive bytes _ els => els.all wfElem && decide (elemsBitSum els = bytes * 8)

/-- Schema-side sanity of a layout; compound sub-item FSPEC indices must be
pairwise distinct (as produced by the lowerer from distinct positions). -/
def wfLayout : IRLayout → Bool
  | .flat l => wfFlat l
  | .compound subs =>
      subs.all (fun sub => wfFlat sub.layout) && decide ((subs.map IRSubItem.index).Nodup)

/-- Legality of an enum value: a declared variant index, or an `Unknown`
payload that fits the bit width and is not itself a declared value (such a
value could never be produced by decode, and re-encoding it would collide
with the named variant). -/
def wfEnumVal (bits : Nat) (vals : List (String × Nat)) : EnumVal → Bool
  | .named i => decide (i < vals.length)
  | .unknown v => decide (v < 2 ^ bits) && vals.all (fun p => p.2 != v)

/-- Legality of a value list against an element list: shapes match and every
field value fits its declared bit width. -/
def wfElems : List IRElement → List ElemVal → Bool
  | [], [] => true
  | .spare _ :: es, vs => wfElems es vs
  | .field _ bits :: es, .vField v :: vs => decide (v < 2 ^ bits) && wfElems es vs
  | .epb (.field _ bits) :: es, .vOptField (some v) :: vs =>
      decide (v < 2 ^ bits) && wfElems es vs
  | .epb (.field _ _) :: es, .vOptField none :: vs => wfElems es vs
  | .enum _ bits vals :: es, .vEnum e :: vs => wfEnumVal bits vals e && wfElems es vs
  | .epb (.enum _ bits vals) :: es, .vOptEnum (some e) :: vs =>
      wfEnumVal bits vals e && wfElems es vs
  | .epb (.enum _ _ _) :: es, .vOptEnum none :: vs => wfElems es vs
  | _, _ => false

/-- Legality of the optional later parts of an Extended value. -/
def wfParts : List IRPartGroup → List (Option (List ElemVal)) → Bool
  | [], [] => true
  | pg :: pt, some pv :: vt => wfElems pg.elements pv && wfParts pt vt
  | _ :: pt, none :: vt => wfParts pt vt
  | _, _ => false

/-- Legality of a non-Compound value against its layout. -/
def wfFlatVal : IRFlat → FlatVal → Bool
  | .fixed _ els, .simple vs => wfElems els vs
  | .explicit _ els, .simple vs => wfElems els vs
  | .extended _ [], .extended first rest => first.isEmpty && rest.isEmpty
  | .extended _ (p0 :: ptail), .extended first rest =>
      wfElems p0.elements first && wfParts ptail rest
  | .repetitive _ count els, .repetitive items =>
      decide (items.length = count) && items.all (wfElems els)
  | _, _ => false

/-- No absent part is followed by a present part (the amended C1
condition). -/
def noGap : List (Option (List ElemVal)) → Bool
  | [] => true
  | some _ :: t => noGap t
  | none :: t => t.all (fun o => o.isNone)

/-- Gap-freedom for a non-Compound value (only Extended has parts). -/
def gapFreeFlat : FlatVal → Bool
  | .extended _ rest => noGap rest
  | .simple _ => true
  | .repetitive _ => true

/-- Legality of the sub-item values of a Compound. -/
def wfCmpVals : List IRSubItem → List (Option FlatVal) → Bool
  | [], [] => true
  | sub :: subs, some v :: vt => wfFlatVal sub.layout v && wfCmpVals subs vt
  | _ :: subs, none :: vt => wfCmpVals subs vt
  | _, _ => false

/-- Legality of an item value against its layout. -/
def wfItemVal : IRLayout → ItemVal → Bool
  | .flat l, .flat v => wfFlatVal l v
  | .compound subs, .compound vsl => wfCmpVals subs vsl
  | _, _ => false

/-- Gap-freedom of an item value. -/
def gapFreeItem : ItemVal → Bool
  | .flat v => gapFreeFlat v
  | .compound vsl =>
      vsl.all (fun o => match o with | some v => gapFreeFlat v | none => true)

/-- Schema-side sanity of a record's item list: layouts sane with pairwise
distinct FRNs. -/
def wfRecSchema (its : List RecItem) : Bool :=
  its.all (fun it => wfLayout it.layout) && decide ((its.map RecItem.frn).Nodup)

/-- Legality of record values. -/
def wfRecVals : List RecItem → List (Option ItemVal) → Bool
  | [], [] => true
  | it :: its, some v :: vt => wfItemVal it.layout v && wfRecVals its vt
  | _ :: its, none :: vt => wfRecVals its vt
  | _, _ => false

/-- Gap-freedom of a record value. -/
def gapFreeRec (vs : List (Option ItemVal)) : Bool :=
  vs.all (fun o => match o with | some v => gapFreeItem v | none => true)

end Cg

namespace Cg

-- ── Helper lemmas for the round-trip proofs ───────────────────────────────

theorem le_rustTypeBits (bits : Nat) (h : bits ≤ 64) : bits ≤ rustTypeBits bits := by
  unfold rustTypeBits
  split_ifs <;> omega

theorem castVal_small (bits v : Nat) (hb : bits ≤ 64) (hv : v < 2 ^ bits) :
    castVal bits v = v := by
  rw [castVal]
  exact Nat.mod_eq_of_lt
    (Nat.lt_of_lt_of_le hv (Nat.pow_le_pow_right (by norm_num) (le_rustTypeBits bits hb)))

theorem enumToInt_lt (bits : Nat) (vals : List (String × Nat)) (e : EnumVal)
    (hok : enumValsOk bits vals = true) (he : wfEnumVal bits vals e = true) :
    enumToInt vals e < 2 ^ bits := by
  cases e with
  | unknown v =>
      simp only [wfEnumVal, Bool.and_eq_true, decide_eq_true_eq] at he
      exact he.1
  | named i =>
      simp only [wfEnumVal, decide_eq_true_eq] at he
      simp only [enumValsOk, Bool.and_eq_true, List.all_eq_true, decide_eq_true_eq] at hok
      have hmem : vals.getD i ("", 0) ∈ vals := by
        rw [List.getD_eq_getElem _ _ he]
        exact List.getElem_mem _
      exact hok.1 _ hmem

theorem findIdx_of_nodup (vals : List (String × Nat)) (i : Nat)
    (hi : i < vals.length) (hnd : (vals.map Prod.snd).Nodup) :
    vals.findIdx? (fun p => p.2 == (vals.getD i ("", 0)).2) = some i := by
  induction vals generalizing i with
  | nil => simp at hi
  | cons p t ih =>
      cases i with
      | zero =>
          rw [List.findIdx?_cons]
          simp
      | succ j =>
          rw [List.findIdx?_cons]
          have hj : j < t.length := by simpa using hi
          have htarget : (p :: t).getD (j + 1) ("", 0) = t.getD j ("", 0) :=
            List.getD_cons_succ ..
          rw [htarget]
          have hne : (p.2 == (t.getD j ("", 0)).2) = false := by
            simp only [List.map_cons, List.nodup_cons] at hnd
            have hmem : (t.getD j ("", 0)).2 ∈ t.map Prod.snd := by
              rw [List.getD_eq_getElem _ _ hj]
              exact List.mem_map_of_mem _ (List.getElem_mem _)
            have : p.2 ≠ (t.getD j ("", 0)).2 := by
              intro hc
              exact hnd.1 (hc ▸ hmem)
            simpa using this
          rw [hne]
          simp only [Bool.false_eq_true, if_false]
          rw [List.findIdx?_succ,
            ih j hj (by simp only [List.map_cons, List.nodup_cons] at hnd; exact hnd.2)]
          rfl

theorem findIdx_none_of_all_ne (vals : List (String × Nat)) (v : Nat)
    (h : ∀ p ∈ vals, (p.2 == v) = false) :
    vals.findIdx? (fun p => p.2 == v) = none :=
  List.findIdx?_eq_none_iff.mpr h

theorem enumOfInt_enumToInt (bits : Nat) (vals : List (String × Nat)) (e : EnumVal)
    (hok : enumValsOk bits vals = true) (he : wfEnumVal bits vals e = true) :
    enumOfInt vals (enumToInt vals e) = e := by
  cases e with
  | named i =>
      simp only [wfEnumVal, decide_eq_true_eq] at he
      simp only [enumValsOk, Bool.and_eq_true, decide_eq_true_eq] at hok
      rw [enumOfInt, enumToInt, findIdx_of_nodup vals i he hok.2]
  | unknown v =>
      simp only [wfEnumVal, Bool.and_eq_true, List.all_eq_true, decide_eq_true_eq] at he
      rw [enumOfInt, enumToInt, findIdx_none_of_all_ne vals v ?_]
      intro p hp
      simpa using he.2 p hp

end Cg

theorem read_bits_any (s : RState) (n : Nat) (pre rest : List Nat) (hw : WfR s)
    (hlen : pre.length = n) (h : rBits s = pre ++ rest) :
    ∃ v k', read_bits s n = some (v, k') ∧ rBits k' = rest ∧ WfR k' := by
  have hlen2 : n ≤ (rBits s).length := by
    rw [h]
    simp
    omega
  obtain ⟨k', he, hr, hw'⟩ := readBitsAux_ok n s 0 hw hlen2 (by positivity)
  refine ⟨_, k', he, ?_, hw'⟩
  rw [hr, h, ← hlen, List.drop_left]

namespace Cg

theorem elemsBitSum_cons (e : IRElement) (es : List IRElement) :
    elemsBitSum (e :: es) = e.bit_size + elemsBitSum es := by
  simp [elemsBitSum]

/-- Element-level round trip: a legal value list is encoded as a bit block
of width `elemsBitSum els`, and decoding that block returns exactly the
values. -/
theorem elems_rt (els : List IRElement) : ∀ (vs : List ElemVal),
    els.all wfElem = true → wfElems els vs = true →
    ∃ B : List Nat,
      B.length = elemsBitSum els ∧
      (∀ s : WState, WfW s → ∃ s', encElems els vs s = some s' ∧
        wBits s' = wBits s ++ B ∧ WfW s') ∧
      (∀ (k : RState) (rest : List Nat), WfR k → rBits k = B ++ rest →
        ∃ k', decElems els k = some (vs, k') ∧ rBits k' = rest ∧ WfR k') := by
  induction els with
  | nil =>
      intro vs hwf hv
      cases vs with
      | nil =>
          refine ⟨[], by simp [elemsBitSum], ?_, ?_⟩
          · intro s hs
            exact ⟨s, rfl, by simp, hs⟩
          · intro k rest hk hr
            exact ⟨k, rfl, by simpa using hr, hk⟩
      | cons v vt => exact Bool.noConfusion (show (false : Bool) = true from hv)
  | cons e es ih =>
      intro vs hwf hv
      rw [List.all_cons, Bool.and_eq_true] at hwf
      obtain ⟨hwfe, hwfes⟩ := hwf
      cases e with
      | spare bits =>
          obtain ⟨B', hlen', henc', hdec'⟩ := ih vs hwfes hv
          refine ⟨natBits bits 0 ++ B', ?_, ?_, ?_⟩
          · rw [List.length_append, natBits_length, hlen', elemsBitSum_cons]
            rfl
          · intro s hs
            obtain ⟨hw1, hw2⟩ := write_bits_ok bits s 0 hs
            obtain ⟨s', he', hb', hwf'⟩ := henc' (write_bits s 0 bits) hw2
            refine ⟨s', ?_, ?_, hwf'⟩
            · simp only [encElems]
              exact he'
            · rw [hb', hw1, List.append_assoc]
          · intro k rest hk hr
            have hr' : rBits k = natBits bits 0 ++ (B' ++ rest) := by
              rw [hr, List.append_assoc]
            obtain ⟨v0, k1, he1, hrk1, hk1⟩ :=
              read_bits_any k bits (natBits bits 0) (B' ++ rest) hk (natBits_length _ _) hr'
            obtain ⟨k', he2, hr2, hk2⟩ := hdec' k1 rest hk1 hrk1
            refine ⟨k', ?_, hr2, hk2⟩
            simp only [decElems]
            rw [he1]
            exact he2
      | field name bits =>
          cases vs with
          | nil => exact Bool.noConfusion (show (false : Bool) = true from hv)
          | cons v vt =>
              cases v with
              | vOptField ov => exact Bool.noConfusion (show (false : Bool) = true from hv)
              | vEnum ev => exact Bool.noConfusion (show (false : Bool) = true from hv)
              | vOptEnum oe => exact Bool.noConfusion (show (false : Bool) = true from hv)
              | vField w =>
                  have hv' : (decide (w < 2 ^ bits) && wfElems es vt) = true := hv
                  rw [Bool.and_eq_true, decide_eq_true_eq] at hv'
                  obtain ⟨hvw, hvt⟩ := hv'
                  have hb64 : bits ≤ 64 := of_decide_eq_true hwfe
                  obtain ⟨B', hlen', henc', hdec'⟩ := ih vt hwfes hvt
                  refine ⟨natBits bits w ++ B', ?_, ?_, ?_⟩
                  · rw [List.length_append, natBits_length, hlen', elemsBitSum_cons]
                    rfl
                  · intro s hs
                    obtain ⟨hw1, hw2⟩ := write_bits_ok bits s w hs
                    obtain ⟨s', he', hb', hwf'⟩ := henc' (write_bits s w bits) hw2
                    refine ⟨s', ?_, ?_, hwf'⟩
                    · simp only [encElems, encElem]
                      exact he'
                    · rw [hb', hw1, List.append_assoc]
                  · intro k rest hk hr
                    have hr' : rBits k = natBits bits w ++ (B' ++ rest) := by
                      rw [hr, List.append_assoc]
                    obtain ⟨k1, he1, hrk1, hk1⟩ :=
                      read_bits_ok k bits w (B' ++ rest) hk hr' hb64
                    have he1' : read_bits k bits = some (w, k1) := by
                      rw [Nat.mod_eq_of_lt hvw] at he1
                      exact he1
                    obtain ⟨k', he2, hr2, hk2⟩ := hdec' k1 rest hk1 hrk1
                    refine ⟨k', ?_, hr2, hk2⟩
                    simp only [decElems]
                    rw [he1']
                    dsimp only
                    rw [he2]
                    dsimp only
                    rw [castVal_small bits w hb64 hvw]
      | enum name bits vals =>
          cases vs with
          | nil => exact Bool.noConfusion (show (false : Bool) = true from hv)
          | cons v vt =>
              cases v with
              | vField w => exact Bool.noConfusion (show (false : Bool) = true from hv)
              | vOptField ov => exact Bool.noConfusion (show (false : Bool) = true from hv)
              | vOptEnum oe => exact Bool.noConfusion (show (false : Bool) = true from hv)
              | vEnum ev =>
                  have hv' : (wfEnumVal bits vals ev && wfElems es vt) = true := hv
                  rw [Bool.and_eq_true] at hv'
                  obtain ⟨hve, hvt⟩ := hv'
                  have hwfe' : (decide (bits ≤ 8) && enumValsOk bits vals) = true := hwfe
                  rw [Bool.and_eq_true, decide_eq_true_eq] at hwfe'
                  obtain ⟨hb8, hok⟩ := hwfe'
                  have hb64 : bits ≤ 64 := by omega
                  have hwlt : enumToInt vals ev < 2 ^ bits := enumToInt_lt bits vals ev hok hve
                  have h256 : enumToInt vals ev % 256 = enumToInt vals ev := by
                    have hp : (2:Nat) ^ bits ≤ 2 ^ 8 := Nat.pow_le_pow_right (by norm_num) hb8
                    have : enumToInt vals ev < 256 := by
                      have h8 : (2:Nat) ^ 8 = 256 := by norm_num
                      omega
                    exact Nat.mod_eq_of_lt this
                  obtain ⟨B', hlen', henc', hdec'⟩ := ih vt hwfes hvt
                  refine ⟨natBits bits (enumToInt vals ev) ++ B', ?_, ?_, ?_⟩
                  · rw [List.length_append, natBits_length, hlen', elemsBitSum_cons]
                    rfl
                  · intro s hs
                    obtain ⟨hw1, hw2⟩ := write_bits_ok bits s (enumToInt vals ev) hs
                    obtain ⟨s', he', hb', hwf'⟩ := henc' (write_bits s (enumToInt vals ev) bits) hw2
                    refine ⟨s', ?_, ?_, hwf'⟩
                    · simp only [encElems, encElem]
                      exact he'
                    · rw [hb', hw1, List.append_assoc]
                  · intro k rest hk hr
                    have hr' : rBits k = natBits bits (enumToInt vals ev) ++ (B' ++ rest) := by
                      rw [hr, List.append_assoc]
                    obtain ⟨k1, he1, hrk1, hk1⟩ :=
                      read_bits_ok k bits (enumToInt vals ev) (B' ++ rest) hk hr' hb64
                    have he1' : read_bits k bits = some (enumToInt vals ev, k1) := by
                      rw [Nat.mod_eq_of_lt hwlt] at he1
                      exact he1
                    obtain ⟨k', he2, hr2, hk2⟩ := hdec' k1 rest hk1 hrk1
                    refine ⟨k', ?_, hr2, hk2⟩
                    simp only [decElems]
                    rw [he1']
                    dsimp only
                    rw [he2]
                    dsimp only
                    rw [h256, enumOfInt_enumToInt bits vals ev hok hve]
      | epb content =>
          cases content with
          | spare b2 => exact Bool.noConfusion (show (false : Bool) = true from hwfe)
          | epb c2 => exact Bool.noConfusion (show (false : Bool) = true from hwfe)
          | field name bits =>
              cases vs with
              | nil => exact Bool.noConfusion (show (false : Bool) = true from hv)
              | cons v vt =>
                  cases v with
                  | vField w => exact Bool.noConfusion (show (false : Bool) = true from hv)
                  | vEnum ev => exact Bool.noConfusion (show (false : Bool) = true from hv)
                  | vOptEnum oe => exact Bool.noConfusion (show (false : Bool) = true from hv)
                  | vOptField ov =>
                      have hb64 : bits ≤ 64 := of_decide_eq_true hwfe
                      cases ov with
                      | some w =>
                          have hv' : (decide (w < 2 ^ bits) && wfElems es vt) = true := hv
                          rw [Bool.and_eq_true, decide_eq_true_eq] at hv'
                          obtain ⟨hvw, hvt⟩ := hv'
                          obtain ⟨B', hlen', henc', hdec'⟩ := ih vt hwfes hvt
                          refine ⟨natBits 1 1 ++ (natBits bits w ++ B'), ?_, ?_, ?_⟩
                          · rw [List.length_append, List.length_append, natBits_length,
                              natBits_length, hlen', elemsBitSum_cons]
                            show 1 + (bits + elemsBitSum es) = 1 + bits + elemsBitSum es
                            omega
                          · intro s hs
                            obtain ⟨hw1, hw2⟩ := write_bits_ok 1 s 1 hs
                            obtain ⟨hw3, hw4⟩ := write_bits_ok bits (write_bits s 1 1) w hw2
                            obtain ⟨s', he', hb', hwf'⟩ := henc' _ hw4
                            refine ⟨s', ?_, ?_, hwf'⟩
                            · simp only [encElems, encElem]
                              exact he'
                            · rw [hb', hw3, hw1]
                              simp [List.append_assoc]
                          · intro k rest hk hr
                            have hr' : rBits k = natBits 1 1 ++ (natBits bits w ++ (B' ++ rest)) := by
                              rw [hr]
                              simp [List.append_assoc]
                            obtain ⟨k1, he1, hrk1, hk1⟩ :=
                              read_bits_ok k 1 1 (natBits bits w ++ (B' ++ rest)) hk hr' (by norm_num)
                            have he1' : read_bits k 1 = some (1, k1) := by
                              rw [show (1:Nat) % 2 ^ 1 = 1 from rfl] at he1
                              exact he1
                            obtain ⟨k2, he2, hrk2, hk2⟩ :=
                              read_bits_ok k1 bits w (B' ++ rest) hk1 hrk1 hb64
                            have he2' : read_bits k1 bits = some (w, k2) := by
                              rw [Nat.mod_eq_of_lt hvw] at he2
                              exact he2
                            obtain ⟨k', he3, hr3, hk3⟩ := hdec' k2 rest hk2 hrk2
                            refine ⟨k', ?_, hr3, hk3⟩
                            simp only [decElems]
                            rw [he1']
                            dsimp only
                            rw [if_pos (by decide : ((1:Nat) != 0) = true)]
                            rw [he2']
                            dsimp only
                            rw [he3]
                            rw [castVal_small bits w hb64 hvw]
                      | none =>
                          have hvt : wfElems es vt = true := hv
                          obtain ⟨B', hlen', henc', hdec'⟩ := ih vt hwfes hvt
                          refine ⟨natBits 1 0 ++ (natBits bits 0 ++ B'), ?_, ?_, ?_⟩
                          · rw [List.length_append, List.length_append, natBits_length,
                              natBits_length, hlen', elemsBitSum_cons]
                            show 1 + (bits + elemsBitSum es) = 1 + bits + elemsBitSum es
                            omega
                          · intro s hs
                            obtain ⟨hw1, hw2⟩ := write_bits_ok 1 s 0 hs
                            obtain ⟨hw3, hw4⟩ := write_bits_ok bits (write_bits s 0 1) 0 hw2
                            obtain ⟨s', he', hb', hwf'⟩ := henc' _ hw4
                            refine ⟨s', ?_, ?_, hwf'⟩
                            · simp only [encElems, encElem]
                              exact he'
                            · rw [hb', hw3, hw1]
                              simp [List.append_assoc]
                          · intro k rest hk hr
                            have hr' : rBits k = natBits 1 0 ++ (natBits bits 0 ++ (B' ++ rest)) := by
                              rw [hr]
                              simp [List.append_assoc]
                            obtain ⟨k1, he1, hrk1, hk1⟩ :=
                              read_bits_ok k 1 0 (natBits bits 0 ++ (B' ++ rest)) hk hr' (by norm_num)
                            have he1' : read_bits k 1 = some (0, k1) := by
                              rw [show (0:Nat) % 2 ^ 1 = 0 from rfl] at he1
                              exact he1
                            obtain ⟨v0, k2, he2, hrk2, hk2⟩ :=
                              read_bits_any k1 bits (natBits bits 0) (B' ++ rest) hk1
                                (natBits_length _ _) hrk1
                            obtain ⟨k', he3, hr3, hk3⟩ := hdec' k2 rest hk2 hrk2
                            refine ⟨k', ?_, hr3, hk3⟩
                            simp only [decElems]
                            rw [he1']
                            dsimp only
                            rw [if_neg (by decide : ¬ ((0:Nat) != 0) = true)]
                            rw [he2]
                            dsimp only
                            rw [he3]
          | enum name bits vals =>
              cases vs with
              | nil => exact Bool.noConfusion (show (false : Bool) = true from hv)
              | cons v vt =>
                  cases v with
                  | vField w => exact Bool.noConfusion (show (false : Bool) = true from hv)
                  | vEnum ev => exact Bool.noConfusion (show (false : Bool) = true from hv)
                  | vOptField ov => exact Bool.noConfusion (show (false : Bool) = true from hv)
                  | vOptEnum oe =>
                      have hwfe' : (decide (bits ≤ 8) && enumValsOk bits vals) = true := hwfe
                      rw [Bool.and_eq_true, decide_eq_true_eq] at hwfe'
                      obtain ⟨hb8, hok⟩ := hwfe'
                      have hb64 : bits ≤ 64 := by omega
                      cases oe with
                      | some ev =>
                          have hv' : (wfEnumVal bits vals ev && wfElems es vt) = true := hv
                          rw [Bool.and_eq_true] at hv'
                          obtain ⟨hve, hvt⟩ := hv'
                          have hwlt : enumToInt vals ev < 2 ^ bits :=
                            enumToInt_lt bits vals ev hok hve
                          have h256 : enumToInt vals ev % 256 = enumToInt vals ev := by
                            have hp : (2:Nat) ^ bits ≤ 2 ^ 8 :=
                              Nat.pow_le_pow_right (by norm_num) hb8
                            have h8 : (2:Nat) ^ 8 = 256 := by norm_num
                            exact Nat.mod_eq_of_lt (by omega)
                          obtain ⟨B', hlen', henc', hdec'⟩ := ih vt hwfes hvt
                          refine ⟨natBits 1 1 ++ (natBits bits (enumToInt vals ev) ++ B'),
                            ?_, ?_, ?_⟩
                          · rw [List.length_append, List.length_append, natBits_length,
                              natBits_length, hlen', elemsBitSum_cons]
                            show 1 + (bits + elemsBitSum es) = 1 + bits + elemsBitSum es
                            omega
                          · intro s hs
                            obtain ⟨hw1, hw2⟩ := write_bits_ok 1 s 1 hs
                            obtain ⟨hw3, hw4⟩ :=
                              write_bits_ok bits (write_bits s 1 1) (enumToInt vals ev) hw2
                            obtain ⟨s', he', hb', hwf'⟩ := henc' _ hw4
                            refine ⟨s', ?_, ?_, hwf'⟩
                            · simp only [encElems, encElem]
                              exact he'
                            · rw [hb', hw3, hw1]
                              simp [List.append_assoc]
                          · intro k rest hk hr
                            have hr' : rBits k
                                = natBits 1 1 ++ (natBits bits (enumToInt vals ev) ++ (B' ++ rest)) := by
                              rw [hr]
                              simp [List.append_assoc]
                            obtain ⟨k1, he1, hrk1, hk1⟩ :=
                              read_bits_ok k 1 1 _ hk hr' (by norm_num)
                            have he1' : read_bits k 1 = some (1, k1) := by
                              rw [show (1:Nat) % 2 ^ 1 = 1 from rfl] at he1
                              exact he1
                            obtain ⟨k2, he2, hrk2, hk2⟩ :=
                              read_bits_ok k1 bits (enumToInt vals ev) (B' ++ rest) hk1 hrk1 hb64
                            have he2' : read_bits k1 bits = some (enumToInt vals ev, k2) := by
                              rw [Nat.mod_eq_of_lt hwlt] at he2
                              exact he2
                            obtain ⟨k', he3, hr3, hk3⟩ := hdec' k2 rest hk2 hrk2
                            refine ⟨k', ?_, hr3, hk3⟩
                            simp only [decElems]
                            rw [he1']
                            dsimp only
                            rw [if_pos (by decide : ((1:Nat) != 0) = true)]
                            rw [he2']
                            dsimp only
                            rw [he3]
                            rw [h256, enumOfInt_enumToInt bits vals ev hok hve]
                      | none =>
                          have hvt : wfElems es vt = true := hv
                          obtain ⟨B', hlen', henc', hdec'⟩ := ih vt hwfes hvt
                          refine ⟨natBits 1 0 ++ (natBits bits 0 ++ B'), ?_, ?_, ?_⟩
                          · rw [List.length_append, List.length_append, natBits_length,
                              natBits_length, hlen', elemsBitSum_cons]
                            show 1 + (bits + elemsBitSum es) = 1 + bits + elemsBitSum es
                            omega
                          · intro s hs
                            obtain ⟨hw1, hw2⟩ := write_bits_ok 1 s 0 hs
                            obtain ⟨hw3, hw4⟩ := write_bits_ok bits (write_bits s 0 1) 0 hw2
                            obtain ⟨s', he', hb', hwf'⟩ := henc' _ hw4
                            refine ⟨s', ?_, ?_, hwf'⟩
                            · simp only [encElems, encElem]
                              exact he'
                            · rw [hb', hw3, hw1]
                              simp [List.append_assoc]
                          · intro k rest hk hr
                            have hr' : rBits k = natBits 1 0 ++ (natBits bits 0 ++ (B' ++ rest)) := by
                              rw [hr]
                              simp [List.append_assoc]
                            obtain ⟨k1, he1, hrk1, hk1⟩ :=
                              read_bits_ok k 1 0 (natBits bits 0 ++ (B' ++ rest)) hk hr' (by norm_num)
                            have he1' : read_bits k 1 = some (0, k1) := by
                              rw [show (0:Nat) % 2 ^ 1 = 0 from rfl] at he1
                              exact he1
                            obtain ⟨v0, k2, he2, hrk2, hk2⟩ :=
                              read_bits_any k1 bits (natBits bits 0) (B' ++ rest) hk1
                                (natBits_length _ _) hrk1
                            obtain ⟨k', he3, hr3, hk3⟩ := hdec' k2 rest hk2 hrk2
                            refine ⟨k', ?_, hr3, hk3⟩
                            simp only [decElems]
                            rw [he1']
                            dsimp only
                            rw [if_neg (by decide : ¬ ((0:Nat) != 0) = true)]
                            rw [he2]
                            dsimp only
                            rw [he3]

end Cg

namespace Cg

theorem isSomeHead_lt (l : List (Option (List ElemVal))) : isSomeHead l < 2 := by
  cases l with
  | nil => decide
  | cons o t => cases o <;> simp [isSomeHead]

theorem wfParts_nil_right (pt : List IRPartGroup) (vt : List (Option (List ElemVal)))
    (h : wfParts pt vt = true) : vt.length = pt.length := by
  induction pt generalizing vt with
  | nil =>
      cases vt with
      | nil => rfl
      | cons o t => exact Bool.noConfusion (show (false : Bool) = true from h)
  | cons pg ptail ih =>
      cases vt with
      | nil => exact Bool.noConfusion (show (false : Bool) = true from h)
      | cons o t =>
          cases o with
          | some pv =>
              have h' : (wfElems pg.elements pv && wfParts ptail t) = true := h
              rw [Bool.and_eq_true] at h'
              simp [ih t h'.2]
          | none =>
              have h' : wfParts ptail t = true := h
              simp [ih t h']

theorem encExtTail_all_none (pt : List IRPartGroup) :
    ∀ (vt : List (Option (List ElemVal))) (s : WState),
    vt.all (fun o => o.isNone) = true → encExtTail pt vt s = some s := by
  induction pt with
  | nil =>
      intro vt s _
      simp only [encExtTail]
  | cons pg ptail ih =>
      intro vt s hall
      cases vt with
      | nil =>
          simp only [encExtTail]
          exact ih [] s rfl
      | cons o t =>
          cases o with
          | some pv =>
              rw [List.all_cons] at hall
              simp [Option.isNone] at hall
          | none =>
              rw [List.all_cons] at hall
              simp only [encExtTail]
              exact ih t s (by simpa using hall)

theorem decExtTail_false (pt : List IRPartGroup) :
    ∀ (vt : List (Option (List ElemVal))) (k : RState),
    wfParts pt vt = true → vt.all (fun o => o.isNone) = true →
    decExtTail pt false k = some (vt, k) := by
  induction pt with
  | nil =>
      intro vt k hv _
      cases vt with
      | nil => rfl
      | cons o t => exact Bool.noConfusion (show (false : Bool) = true from hv)
  | cons pg ptail ih =>
      intro vt k hv hall
      cases vt with
      | nil => exact Bool.noConfusion (show (false : Bool) = true from hv)
      | cons o t =>
          cases o with
          | some pv =>
              rw [List.all_cons] at hall
              simp [Option.isNone] at hall
          | none =>
              have hv' : wfParts ptail t = true := hv
              rw [List.all_cons] at hall
              have ih2 := ih t k hv' (by simpa using hall)
              simp only [decExtTail, Bool.false_eq_true, if_false]
              rw [ih2]

/-- Round trip of the optional later parts of an Extended item, for
gap-free values: the encoded block is 8 bits per present part, and the
decode loop (entered with the FX bit that the encoder derived from the
first part's presence) returns exactly the original option list. -/
theorem extTail_rt (pt : List IRPartGroup) : ∀ (vt : List (Option (List ElemVal))),
    pt.all (fun pg => pg.elements.all wfElem && decide (elemsBitSum pg.elements = 7)) = true →
    wfParts pt vt = true → noGap vt = true →
    ∃ B : List Nat,
      B.length = 8 * vt.countP (fun o => o.isSome) ∧
      (∀ s : WState, WfW s → ∃ s', encExtTail pt vt s = some s' ∧
        wBits s' = wBits s ++ B ∧ WfW s') ∧
      (∀ (k : RState) (rest : List Nat), WfR k → rBits k = B ++ rest →
        ∃ k', decExtTail pt (isSomeHead vt != 0) k = some (vt, k') ∧ rBits k' = rest ∧ WfR k') := by
  induction pt with
  | nil =>
      intro vt hwf hv hg
      cases vt with
      | cons o t => exact Bool.noConfusion (show (false : Bool) = true from hv)
      | nil =>
          refine ⟨[], by simp, ?_, ?_⟩
          · intro s hs
            refine ⟨s, ?_, by simp, hs⟩
            simp only [encExtTail]
          · intro k rest hk hr
            exact ⟨k, rfl, by simpa using hr, hk⟩
  | cons pg ptail ih =>
      intro vt hwf hv hg
      rw [List.all_cons, Bool.and_eq_true] at hwf
      obtain ⟨hpg, hpt⟩ := hwf
      rw [Bool.and_eq_true, decide_eq_true_eq] at hpg
      obtain ⟨hpgw, hpg7⟩ := hpg
      cases vt with
      | nil => exact Bool.noConfusion (show (false : Bool) = true from hv)
      | cons o vtail =>
          cases o with
          | some pv =>
              have hv' : (wfElems pg.elements pv && wfParts ptail vtail) = true := hv
              rw [Bool.and_eq_true] at hv'
              obtain ⟨hvp, hvt⟩ := hv'
              have hg' : noGap vtail = true := hg
              obtain ⟨B0, h0len, enc0, dec0⟩ := elems_rt pg.elements pv hpgw hvp
              have h7 : B0.length = 7 := by rw [h0len, hpg7]
              obtain ⟨B', hlen', henc', hdec'⟩ := ih vtail hpt hvt hg'
              refine ⟨B0 ++ (natBits 1 (isSomeHead vtail) ++ B'), ?_, ?_, ?_⟩
              · rw [List.length_append, List.length_append, natBits_length, h7, hlen']
                have hc : (some pv :: vtail).countP (fun o => o.isSome)
                    = vtail.countP (fun o => o.isSome) + 1 := by
                  simp [List.countP_cons]
                rw [hc]
                omega
              · intro s hs
                obtain ⟨s1, he1, hb1, hw1⟩ := enc0 s hs
                obtain ⟨hw2, hw3⟩ := write_bits_ok 1 s1 (isSomeHead vtail) hw1
                obtain ⟨s', he', hb', hwf'⟩ := henc' _ hw3
                refine ⟨s', ?_, ?_, hwf'⟩
                · simp only [encExtTail]
                  rw [he1]
                  cases ptail with
                  | nil =>
                      cases vtail with
                      | cons a b => exact Bool.noConfusion (show (false : Bool) = true from hvt)
                      | nil =>
                          dsimp only
                          simp only [encExtTail] at he' ⊢
                          exact he'
                  | cons q qt =>
                      dsimp only
                      exact he'
                · rw [hb', hw2, hb1]
                  simp [List.append_assoc]
              · intro k rest hk hr
                have hr' : rBits k = B0 ++ (natBits 1 (isSomeHead vtail) ++ (B' ++ rest)) := by
                  rw [hr]
                  simp [List.append_assoc]
                obtain ⟨k1, hd1, hrk1, hk1⟩ := dec0 k _ hk hr'
                obtain ⟨k2, he2, hrk2, hk2⟩ :=
                  read_bits_ok k1 1 (isSomeHead vtail) (B' ++ rest) hk1 hrk1 (by norm_num)
                have he2' : read_bits k1 1 = some (isSomeHead vtail, k2) := by
                  rw [Nat.mod_eq_of_lt (by simpa using isSomeHead_lt vtail)] at he2
                  exact he2
                obtain ⟨k', hd3, hr3, hk3⟩ := hdec' k2 rest hk2 hrk2
                refine ⟨k', ?_, hr3, hk3⟩
                simp only [decExtTail]
                rw [if_pos (show (isSomeHead (some pv :: vtail) != 0) = true from rfl)]
                rw [hd1]
                dsimp only
                rw [he2']
                dsimp only
                rw [hd3]
          | none =>
              have hv' : wfParts ptail vtail = true := hv
              have hg' : vtail.all (fun o => o.isNone) = true := hg
              have hc : vtail.countP (fun o => o.isSome) = 0 := by
                rw [List.countP_eq_zero]
                intro a ha
                cases a with
                | none => simp
                | some x =>
                    have := List.all_eq_true.mp hg' _ ha
                    simp [Option.isNone] at this
              refine ⟨[], ?_, ?_, ?_⟩
              · simp [List.countP_cons, hc]
              · intro s hs
                refine ⟨s, ?_, by simp, hs⟩
                simp only [encExtTail]
                exact encExtTail_all_none ptail vtail s hg'
              · intro k rest hk hr
                refine ⟨k, ?_, by simpa using hr, hk⟩
                have hfx : (isSomeHead (none :: vtail) != 0) = false := rfl
                simp only [decExtTail, hfx, Bool.false_eq_true, if_false]
                rw [decExtTail_false ptail vtail k hv' hg']

end Cg

namespace Cg

/-- Round trip of the repetition loop: `items.length` repetitions encode to
`items.length × elemsBitSum els` bits, and the count-driven decode loop
returns exactly the original vector. -/
theorem repItems_rt (els : List IRElement) (hwf : els.all wfElem = true) :
    ∀ (items : List (List ElemVal)), items.all (fun it => wfElems els it) = true →
    ∃ B : List Nat,
      B.length = items.length * elemsBitSum els ∧
      (∀ s : WState, WfW s → ∃ s', encRepItems els items s = some s' ∧
        wBits s' = wBits s ++ B ∧ WfW s') ∧
      (∀ (k : RState) (rest : List Nat), WfR k → rBits k = B ++ rest →
        ∃ k', decRepItems els items.length k = some (items, k') ∧ rBits k' = rest ∧ WfR k') := by
  intro items
  induction items with
  | nil =>
      intro _
      refine ⟨[], by simp, ?_, ?_⟩
      · intro s hs
        exact ⟨s, rfl, by simp, hs⟩
      · intro k rest hk hr
        exact ⟨k, rfl, by simpa using hr, hk⟩
  | cons it rest' ih =>
      intro hall
      rw [List.all_cons, Bool.and_eq_true] at hall
      obtain ⟨hit, hrest⟩ := hall
      obtain ⟨Bi, hiLen, encI, decI⟩ := elems_rt els it hwf hit
      obtain ⟨B', hlen', henc', hdec'⟩ := ih hrest
      refine ⟨Bi ++ B', ?_, ?_, ?_⟩
      · rw [List.length_append, hiLen, hlen', List.length_cons]
        ring
      · intro s hs
        obtain ⟨s1, he1, hb1, hw1⟩ := encI s hs
        obtain ⟨s', he', hb', hwf'⟩ := henc' s1 hw1
        refine ⟨s', ?_, ?_, hwf'⟩
        · simp only [encRepItems]
          rw [he1]
          exact he'
        · rw [hb', hb1, List.append_assoc]
      · intro k rest hk hr
        have hr' : rBits k = Bi ++ (B' ++ rest) := by
          rw [hr, List.append_assoc]
        obtain ⟨k1, hd1, hrk1, hk1⟩ := decI k _ hk hr'
        obtain ⟨k', hd2, hr2, hk2⟩ := hdec' k1 rest hk1 hrk1
        refine ⟨k', ?_, hr2, hk2⟩
        rw [List.length_cons]
        simp only [decRepItems]
        rw [hd1]
        dsimp only
        rw [hd2]

/-- Round trip for one non-Compound layout at the bit level: the encoded
block is a whole number of bytes, and decoding it returns the original
value. -/
theorem flat_rt (l : IRFlat) (v : FlatVal) (hwf : wfFlat l = true)
    (hv : wfFlatVal l v = true) (hg : gapFreeFlat v = true) :
    ∃ B : List Nat,
      B.length % 8 = 0 ∧
      (∀ s : WState, WfW s → ∃ s', encFlat l v s = some s' ∧
        wBits s' = wBits s ++ B ∧ WfW s') ∧
      (∀ (k : RState) (rest : List Nat), WfR k → rBits k = B ++ rest →
        ∃ k', decFlat l k = some (v, k') ∧ rBits k' = rest ∧ WfR k') := by
  cases l with
  | fixed bytes els =>
      cases v with
      | extended f r => exact Bool.noConfusion (show (false : Bool) = true from hv)
      | repetitive i => exact Bool.noConfusion (show (false : Bool) = true from hv)
      | simple vs =>
          have hwf' : (els.all wfElem && decide (elemsBitSum els = bytes * 8)) = true := hwf
          rw [Bool.and_eq_true, decide_eq_true_eq] at hwf'
          obtain ⟨hels, hsum⟩ := hwf'
          have hv' : wfElems els vs = true := hv
          obtain ⟨B, hlen, henc, hdec⟩ := elems_rt els vs hels hv'
          refine ⟨B, by omega, ?_, ?_⟩
          · intro s hs
            obtain ⟨s', he, hb, hw⟩ := henc s hs
            refine ⟨s', ?_, hb, hw⟩
            simp only [encFlat]
            exact he
          · intro k rest hk hr
            obtain ⟨k', hd, hrk, hk'⟩ := hdec k rest hk hr
            refine ⟨k', ?_, hrk, hk'⟩
            simp only [decFlat]
            rw [hd]
  | explicit bytes els =>
      cases v with
      | extended f r => exact Bool.noConfusion (show (false : Bool) = true from hv)
      | repetitive i => exact Bool.noConfusion (show (false : Bool) = true from hv)
      | simple vs =>
          have hwf' : (els.all wfElem && decide (elemsBitSum els = bytes * 8)) = true := hwf
          rw [Bool.and_eq_true, decide_eq_true_eq] at hwf'
          obtain ⟨hels, hsum⟩ := hwf'
          have hv' : wfElems els vs = true := hv
          obtain ⟨B, hlen, henc, hdec⟩ := elems_rt els vs hels hv'
          refine ⟨natBits 8 (bytes + 1) ++ B, ?_, ?_, ?_⟩
          · rw [List.length_append, natBits_length]
            omega
          · intro s hs
            obtain ⟨hw1, hw2⟩ := write_bits_ok 8 s (bytes + 1) hs
            obtain ⟨s', he, hb, hw⟩ := henc (write_bits s (bytes + 1) 8) hw2
            refine ⟨s', ?_, ?_, hw⟩
            · simp only [encFlat]
              exact he
            · rw [hb, hw1, List.append_assoc]
          · intro k rest hk hr
            have hr' : rBits k = natBits 8 (bytes + 1) ++ (B ++ rest) := by
              rw [hr, List.append_assoc]
            obtain ⟨v0, k1, he1, hrk1, hk1⟩ :=
              read_bits_any k 8 (natBits 8 (bytes + 1)) (B ++ rest) hk (natBits_length _ _) hr'
            obtain ⟨k', hd, hrk, hk'⟩ := hdec k1 rest hk1 hrk1
            refine ⟨k', ?_, hrk, hk'⟩
            simp only [decFlat]
            rw [he1]
            dsimp only
            rw [hd]
  | extended bytes pgs =>
      cases pgs with
      | nil =>
          cases v with
          | simple vs => exact Bool.noConfusion (show (false : Bool) = true from hv)
          | repetitive i => exact Bool.noConfusion (show (false : Bool) = true from hv)
          | extended first rest0 =>
              have hv' : (first.isEmpty && rest0.isEmpty) = true := hv
              rw [Bool.and_eq_true, List.isEmpty_eq_true, List.isEmpty_eq_true] at hv'
              obtain ⟨hf, hr0⟩ := hv'
              subst hf
              subst hr0
              refine ⟨[], by simp, ?_, ?_⟩
              · intro s hs
                refine ⟨s, ?_, by simp, hs⟩
                simp only [encFlat]
              · intro k rest hk hr
                refine ⟨k, ?_, by simpa using hr, hk⟩
                simp only [decFlat]
      | cons p0 ptail =>
          cases v with
          | simple vs => exact Bool.noConfusion (show (false : Bool) = true from hv)
          | repetitive i => exact Bool.noConfusion (show (false : Bool) = true from hv)
          | extended first rest0 =>
              have hg' : noGap rest0 = true := hg
              have hwf' : ((p0.elements.all wfElem && decide (elemsBitSum p0.elements = 7))
                  && ptail.all (fun pg => pg.elements.all wfElem
                      && decide (elemsBitSum pg.elements = 7))) = true := by
                have h := hwf
                rw [show wfFlat (IRFlat.extended bytes (p0 :: ptail))
                    = (p0 :: ptail).all (fun pg => pg.elements.all wfElem
                        && decide (elemsBitSum pg.elements = 7)) from rfl, List.all_cons] at h
                exact h
              rw [Bool.and_eq_true, Bool.and_eq_true, decide_eq_true_eq] at hwf'
              obtain ⟨⟨hp0w, hp07⟩, hpt⟩ := hwf'
              have hv' : (wfElems p0.elements first && wfParts ptail rest0) = true := hv
              rw [Bool.and_eq_true] at hv'
              obtain ⟨hvf, hvr⟩ := hv'
              obtain ⟨B0, h0len, enc0, dec0⟩ := elems_rt p0.elements first hp0w hvf
              have h7 : B0.length = 7 := by rw [h0len, hp07]
              cases ptail with
              | nil =>
                  cases rest0 with
                  | cons a b => exact Bool.noConfusion (show (false : Bool) = true from hvr)
                  | nil =>
                      refine ⟨B0 ++ natBits 1 0, ?_, ?_, ?_⟩
                      · rw [List.length_append, natBits_length, h7]
                      · intro s hs
                        obtain ⟨s1, he1, hb1, hw1⟩ := enc0 s hs
                        obtain ⟨hw2, hw3⟩ := write_bits_ok 1 s1 0 hw1
                        refine ⟨write_bits s1 0 1, ?_, ?_, hw3⟩
                        · simp only [encFlat]
                          rw [he1]
                        · rw [hw2, hb1, List.append_assoc]
                      · intro k rest hk hr
                        have hr' : rBits k = B0 ++ (natBits 1 0 ++ rest) := by
                          rw [hr, List.append_assoc]
                        obtain ⟨k1, hd1, hrk1, hk1⟩ := dec0 k _ hk hr'
                        obtain ⟨k2, he2, hrk2, hk2⟩ :=
                          read_bits_ok k1 1 0 rest hk1 hrk1 (by norm_num)
                        have he2' : read_bits k1 1 = some (0, k2) := by
                          rw [show (0:Nat) % 2 ^ 1 = 0 from rfl] at he2
                          exact he2
                        refine ⟨k2, ?_, hrk2, hk2⟩
                        simp only [decFlat]
                        rw [hd1]
                        dsimp only
                        rw [he2']
                        dsimp only
                        rw [show decExtTail [] (((0:Nat) != 0)) k2 = some ([], k2) from rfl]
              | cons p1 pt2 =>
                  obtain ⟨Bt, htLen, encT, decT⟩ := extTail_rt (p1 :: pt2) rest0 hpt hvr hg'
                  refine ⟨B0 ++ (natBits 1 (isSomeHead rest0) ++ Bt), ?_, ?_, ?_⟩
                  · rw [List.length_append, List.length_append, natBits_length, h7, htLen]
                    omega
                  · intro s hs
                    obtain ⟨s1, he1, hb1, hw1⟩ := enc0 s hs
                    obtain ⟨hw2, hw3⟩ := write_bits_ok 1 s1 (isSomeHead rest0) hw1
                    obtain ⟨s', he', hb', hwf'⟩ := encT _ hw3
                    refine ⟨s', ?_, ?_, hwf'⟩
                    · simp only [encFlat]
                      rw [he1]
                      dsimp only
                      exact he'
                    · rw [hb', hw2, hb1]
                      simp [List.append_assoc]
                  · intro k rest hk hr
                    have hr' : rBits k = B0 ++ (natBits 1 (isSomeHead rest0) ++ (Bt ++ rest)) := by
                      rw [hr]
                      simp [List.append_assoc]
                    obtain ⟨k1, hd1, hrk1, hk1⟩ := dec0 k _ hk hr'
                    obtain ⟨k2, he2, hrk2, hk2⟩ :=
                      read_bits_ok k1 1 (isSomeHead rest0) (Bt ++ rest) hk1 hrk1 (by norm_num)
                    have he2' : read_bits k1 1 = some (isSomeHead rest0, k2) := by
                      rw [Nat.mod_eq_of_lt (by simpa using isSomeHead_lt rest0)] at he2
                      exact he2
                    obtain ⟨k', hd3, hr3, hk3⟩ := decT k2 rest hk2 hrk2
                    refine ⟨k', ?_, hr3, hk3⟩
                    simp only [decFlat]
                    rw [hd1]
                    dsimp only
                    rw [he2']
                    dsimp only
                    rw [hd3]
  | repetitive bytes count els =>
      cases v with
      | simple vs => exact Bool.noConfusion (show (false : Bool) = true from hv)
      | extended f r => exact Bool.noConfusion (show (false : Bool) = true from hv)
      | repetitive items =>
          have hwf' : (els.all wfElem && decide (elemsBitSum els = bytes * 8)) = true := hwf
          rw [Bool.and_eq_true, decide_eq_true_eq] at hwf'
          obtain ⟨hels, hsum⟩ := hwf'
          have hv' : (decide (items.length = count) && items.all (wfElems els)) = true := hv
          rw [Bool.and_eq_true, decide_eq_true_eq] at hv'
          obtain ⟨hcount, hall⟩ := hv'
          obtain ⟨B, hlen, henc, hdec⟩ := repItems_rt els hels items hall
          refine ⟨B, ?_, ?_, ?_⟩
          · have hb8 : B.length = items.length * bytes * 8 := by
              rw [hlen, hsum]
              ring
            rw [hb8]
            exact Nat.mul_mod_left _ 8
          · intro s hs
            obtain ⟨s', he, hb, hw⟩ := henc s hs
            refine ⟨s', ?_, hb, hw⟩
            simp only [encFlat]
            exact he
          · intro k rest hk hr
            obtain ⟨k', hd, hrk, hk'⟩ := hdec k rest hk hr
            rw [hcount] at hd
            refine ⟨k', ?_, hrk, hk'⟩
            simp only [decFlat]
            rw [hd]

end Cg

-- ── Extracting whole bytes from an aligned bit block ──────────────────────

theorem bytes_of_bits_append (out out2 B : List Nat)
    (h : bytesBits out2 = bytesBits out ++ B)
    (hb : ∀ b ∈ out2, b < 256) (hout : ∀ b ∈ out, b < 256) :
    ∃ pb, out2 = out ++ pb ∧ bytesBits pb = B ∧ ∀ b ∈ pb, b < 256 := by
  have hlen : 8 * out2.length = 8 * out.length + B.length := by
    have hc := congrArg List.length h
    simpa [bytesBits_length] using hc
  have hle : out.length ≤ out2.length := by omega
  have h1 : bytesBits (out2.take out.length) ++ bytesBits (out2.drop out.length)
      = bytesBits out ++ B := by
    rw [← bytesBits_append, List.take_append_drop, h]
  have hl1 : (bytesBits (out2.take out.length)).length = (bytesBits out).length := by
    simp [bytesBits_length, List.length_take, Nat.min_eq_left hle]
  have htake : out2.take out.length = out := by
    apply bytesBits_inj _ _ (fun b hb2 => hb b ((List.take_sublist _ _).subset hb2)) hout
    exact (List.append_inj h1 hl1).1
  refine ⟨out2.drop out.length, ?_, (List.append_inj h1 hl1).2.symm ▸ ?_,
    fun b hb2 => hb b ((List.drop_sublist _ _).subset hb2)⟩
  · conv_lhs => rw [← List.take_append_drop out.length out2]
    rw [htake]
  · rfl

-- ── FSPEC byte bounds and length ──────────────────────────────────────────

theorem getD_lt_256 (l : List Nat) (i : Nat) (h : ∀ b ∈ l, b < 256) :
    l.getD i 0 < 256 := by
  by_cases hi : i < l.length
  · rw [List.getD_eq_getElem _ _ hi]
    exact h _ (List.getElem_mem _)
  · rw [List.getD_eq_default _ _ (by omega)]
    norm_num

theorem or_lt_256 (x y : Nat) (hx : x < 256) (hy : y < 256) : x ||| y < 256 := by
  have := Nat.or_lt_two_pow (n := 8) hx hy
  simpa using this

theorem fspec_set_lt (f : Fspec) (b k : Nat) (hk : k ≤ 6)
    (h : ∀ x ∈ f.bytes, x < 256) : ∀ x ∈ (f.set b k).bytes, x < 256 := by
  intro x hx
  obtain ⟨i, hi, hxi⟩ := List.mem_iff_getElem.mp hx
  have hxd : x = (f.set b k).bytes.getD i 0 := by
    rw [List.getD_eq_getElem _ _ hi, hxi]
  rw [hxd, fspec_set_getD]
  by_cases h1 : i < b
  · rw [if_pos h1]
    exact or_lt_256 _ _ (getD_lt_256 _ _ h) (by norm_num)
  · by_cases h2 : i = b
    · rw [if_neg h1, if_pos h2]
      apply or_lt_256 _ _ (getD_lt_256 _ _ h)
      rw [Nat.one_shiftLeft]
      calc 2 ^ (7 - k) ≤ 2 ^ 7 := Nat.pow_le_pow_right (by norm_num) (by omega)
        _ < 256 := by norm_num
    · rw [if_neg h1, if_neg h2]
      exact getD_lt_256 _ _ h

theorem fspec_setAll_lt (ps : List (Nat × Nat)) (f : Fspec)
    (hps : ∀ p ∈ ps, p.2 ≤ 6) (h : ∀ x ∈ f.bytes, x < 256) :
    ∀ x ∈ (f.setAll ps).bytes, x < 256 := by
  induction ps generalizing f with
  | nil => exact h
  | cons p t ih =>
      show ∀ x ∈ ((f.set p.1 p.2).setAll t).bytes, x < 256
      exact ih (f.set p.1 p.2) (fun q hq => hps q (List.mem_cons_of_mem p hq))
        (fspec_set_lt f p.1 p.2 (hps p (by simp)) h)

theorem fspec_setAll_len (ps : List (Nat × Nat)) (f : Fspec)
    (h : 1 ≤ f.bytes.length) : 1 ≤ (f.setAll ps).bytes.length := by
  induction ps generalizing f with
  | nil => exact h
  | cons p t ih =>
      show 1 ≤ ((f.set p.1 p.2).setAll t).bytes.length
      apply ih
      rw [fspec_set_length]
      omega

-- ── Present-position bookkeeping shared by Compound and Record ────────────

/-- FRNs of the present (Some) entries, walked positionally like the
generated `if let Some(..)` chains. -/
def presentIdxs {α : Type} : List Nat → List (Option α) → List Nat
  | [], _ => []
  | i :: is, some _ :: vt => i :: presentIdxs is vt
  | _ :: is, none :: vt => presentIdxs is vt
  | _ :: _, [] => []

theorem presentIdxs_nil {α : Type} (idxs : List Nat) :
    presentIdxs idxs ([] : List (Option α)) = [] := by
  cases idxs with
  | nil => rfl
  | cons i is => rfl

theorem presentIdxs_subset {α : Type} (idxs : List Nat) (vs : List (Option α)) :
    ∀ x ∈ presentIdxs idxs vs, x ∈ idxs := by
  induction idxs generalizing vs with
  | nil => intro x hx; exact absurd hx (by simp [presentIdxs])
  | cons i is ih =>
      intro x hx
      cases vs with
      | nil => exact absurd hx (by simp [presentIdxs])
      | cons o vt =>
          cases o with
          | some v =>
              rcases List.mem_cons.mp hx with h | h
              · simp [h]
              · exact List.mem_cons_of_mem _ (ih vt x h)
          | none => exact List.mem_cons_of_mem _ (ih vt x hx)

theorem mem_presentIdxs {α : Type} (idxs : List Nat) (vs : List (Option α)) (x : Nat) :
    x ∈ presentIdxs idxs vs ↔
      ∃ n, idxs.get? n = some x ∧ ∃ o, vs.get? n = some o ∧ o.isSome = true := by
  induction idxs generalizing vs with
  | nil =>
      simp [presentIdxs]
  | cons i is ih =>
      cases vs with
      | nil =>
          show x ∈ ([] : List Nat) ↔ _
          simp
      | cons o vt =>
          cases o with
          | some v =>
              show x ∈ i :: presentIdxs is vt ↔ _
              rw [List.mem_cons, ih vt]
              constructor
              · rintro (rfl | ⟨n, hn, o2, ho2, hs⟩)
                · exact ⟨0, rfl, some v, rfl, rfl⟩
                · exact ⟨n + 1, hn, o2, ho2, hs⟩
              · rintro ⟨n, hn, o2, ho2, hs⟩
                cases n with
                | zero =>
                    left
                    simpa using hn.symm
                | succ m => exact Or.inr ⟨m, hn, o2, ho2, hs⟩
          | none =>
              show x ∈ presentIdxs is vt ↔ _
              rw [ih vt]
              constructor
              · rintro ⟨n, hn, o2, ho2, hs⟩
                exact ⟨n + 1, hn, o2, ho2, hs⟩
              · rintro ⟨n, hn, o2, ho2, hs⟩
                cases n with
                | zero =>
                    have ho2' : o2 = none := by simpa using ho2.symm
                    rw [ho2'] at hs
                    simp at hs
                | succ m => exact ⟨m, hn, o2, ho2, hs⟩

theorem frn_pos_inj (a b : Nat)
    (h : Cg.frn_to_fspec_position a = Cg.frn_to_fspec_position b) : a = b := by
  rw [Cg.frn_to_fspec_position, Cg.frn_to_fspec_position, Prod.mk.injEq] at h
  obtain ⟨h1, h2⟩ := h
  omega

/-- The FSPEC built by the generated encoder (one `set` per present entry)
reports `is_set` at an entry's position exactly when that entry is present,
provided the declared FRNs are pairwise distinct. -/
theorem guard_at {α : Type} (idxs : List Nat) (vs : List (Option α)) (j frn : Nat)
    (o : Option α) (hnd : idxs.Nodup) (hj : idxs.get? j = some frn)
    (ho : vs.get? j = some o) :
    (Fspec.setAll Fspec.new
        ((presentIdxs idxs vs).map Cg.frn_to_fspec_position)).is_set
      (Cg.frn_to_fspec_position frn).1 (Cg.frn_to_fspec_position frn).2 = o.isSome := by
  have hk : (Cg.frn_to_fspec_position frn).2 ≤ 6 := by
    show frn % 7 ≤ 6
    omega
  have hps : ∀ p ∈ (presentIdxs idxs vs).map Cg.frn_to_fspec_position, p.2 ≤ 6 := by
    intro p hp
    obtain ⟨y, hy, hyy⟩ := List.mem_map.mp hp
    rw [← hyy]
    show y % 7 ≤ 6
    omega
  have hiff := is_set_setAll ((presentIdxs idxs vs).map Cg.frn_to_fspec_position)
      Fspec.new (Cg.frn_to_fspec_position frn).1 (Cg.frn_to_fspec_position frn).2 hk hps
  rw [is_set_new] at hiff
  have hmem : ((Cg.frn_to_fspec_position frn).1, (Cg.frn_to_fspec_position frn).2)
      ∈ (presentIdxs idxs vs).map Cg.frn_to_fspec_position
        ↔ frn ∈ presentIdxs idxs vs := by
    constructor
    · intro h
      obtain ⟨y, hy, hyy⟩ := List.mem_map.mp h
      have heq : Cg.frn_to_fspec_position y = Cg.frn_to_fspec_position frn := by
        rw [hyy]
      rw [frn_pos_inj y frn heq] at hy
      exact hy
    · intro h
      have hm := List.mem_map_of_mem Cg.frn_to_fspec_position h
      simpa using hm
  have hmem2 : frn ∈ presentIdxs idxs vs ↔ o.isSome = true := by
    rw [mem_presentIdxs]
    constructor
    · rintro ⟨n, hn, o2, ho2, hs⟩
      have hnlt : n < idxs.length := by
        rcases List.get?_eq_some.mp hn with ⟨h, _⟩
        exact h
      have hnj : n = j := by
        apply List.getElem?_inj hnlt hnd
        rw [← List.get?_eq_getElem?, ← List.get?_eq_getElem?, hn, hj]
      subst hnj
      rw [ho] at ho2
      have : o2 = o := by simpa using ho2.symm
      rw [← this]
      exact hs
    · intro hs
      exact ⟨j, hj, o, ho, hs⟩
  cases hos : o.isSome with
  | true =>
      exact hiff.mpr (Or.inr (hmem.mpr (hmem2.mpr hos)))
  | false =>
      cases hset : (Fspec.setAll Fspec.new
          ((presentIdxs idxs vs).map Cg.frn_to_fspec_position)).is_set
            (Cg.frn_to_fspec_position frn).1 (Cg.frn_to_fspec_position frn).2 with
      | false => rfl
      | true =>
          rcases hiff.mp hset with h | h
          · exact absurd h (by simp)
          · rw [hmem2.mp (hmem.mp h)] at hos
            exact hos

namespace Cg

theorem buildCmpFspec_eq (subs : List IRSubItem) : ∀ (vs : List (Option FlatVal)) (f : Fspec),
    buildCmpFspec subs vs f
      = f.setAll ((presentIdxs (subs.map IRSubItem.index) vs).map frn_to_fspec_position) := by
  induction subs with
  | nil => intro vs f; rfl
  | cons sub subs ih =>
      intro vs f
      cases vs with
      | nil =>
          show buildCmpFspec subs [] f = _
          rw [ih [] f, presentIdxs_nil, presentIdxs_nil]
      | cons o vt =>
          cases o with
          | some v =>
              show buildCmpFspec subs vt
                  (f.set (frn_to_fspec_position sub.index).1 (frn_to_fspec_position sub.index).2)
                = _
              rw [ih vt]
              rfl
          | none =>
              show buildCmpFspec subs vt f = _
              rw [ih vt]
              rfl

theorem buildRecFspec_eq (its : List RecItem) : ∀ (vs : List (Option ItemVal)) (f : Fspec),
    buildRecFspec its vs f
      = f.setAll ((presentIdxs (its.map RecItem.frn) vs).map frn_to_fspec_position) := by
  induction its with
  | nil => intro vs f; rfl
  | cons it its ih =>
      intro vs f
      cases vs with
      | nil =>
          show buildRecFspec its [] f = _
          rw [ih [] f, presentIdxs_nil, presentIdxs_nil]
      | cons o vt =>
          cases o with
          | some v =>
              show buildRecFspec its vt
                  (f.set (frn_to_fspec_position it.frn).1 (frn_to_fspec_position it.frn).2)
                = _
              rw [ih vt]
              rfl
          | none =>
              show buildRecFspec its vt f = _
              rw [ih vt]
              rfl

/-- Round trip of the per-sub-item statements of a Compound body against any
FSPEC whose bits agree positionally with the presence of the values. -/
theorem cmpSubs_rt (fsp : Fspec) (subs : List IRSubItem) : ∀ (vs : List (Option FlatVal)),
    subs.all (fun sub => wfFlat sub.layout) = true →
    wfCmpVals subs vs = true →
    vs.all (fun o => match o with | some v => gapFreeFlat v | none => true) = true →
    ∃ B : List Nat, B.length % 8 = 0 ∧
      (∀ s : WState, WfW s → ∃ s', encCmpSubs subs vs s = some s' ∧
        wBits s' = wBits s ++ B ∧ WfW s') ∧
      ((∀ j sub o, subs.get? j = some sub → vs.get? j = some o →
          fsp.is_set (frn_to_fspec_position sub.index).1 (frn_to_fspec_position sub.index).2
            = o.isSome) →
        ∀ (k : RState) (rest : List Nat), WfR k → rBits k = B ++ rest →
          ∃ k', decCmpSubs subs fsp k = some (vs, k') ∧ rBits k' = rest ∧ WfR k') := by
  induction subs with
  | nil =>
      intro vs _ hv _
      cases vs with
      | cons o vt => exact Bool.noConfusion (show (false : Bool) = true from hv)
      | nil =>
          refine ⟨[], by simp, ?_, ?_⟩
          · intro s hs
            exact ⟨s, rfl, by simp, hs⟩
          · intro _ k rest hk hr
            exact ⟨k, rfl, by simpa using hr, hk⟩
  | cons sub subs ih =>
      intro vs hall hv hgaps
      rw [List.all_cons, Bool.and_eq_true] at hall
      obtain ⟨hsub, hsubs⟩ := hall
      cases vs with
      | nil => exact Bool.noConfusion (show (false : Bool) = true from hv)
      | cons o vt =>
          rw [List.all_cons, Bool.and_eq_true] at hgaps
          obtain ⟨hgo, hgt⟩ := hgaps
          cases o with
          | some v =>
              have hv' : (wfFlatVal sub.layout v && wfCmpVals subs vt) = true := hv
              rw [Bool.and_eq_true] at hv'
              obtain ⟨hvv, hvt⟩ := hv'
              obtain ⟨Bv, hv8, encV, decV⟩ := flat_rt sub.layout v hsub hvv (by simpa using hgo)
              obtain ⟨B', h8', henc', hdec'⟩ := ih vt hsubs hvt hgt
              refine ⟨Bv ++ B', by rw [List.length_append]; omega, ?_, ?_⟩
              · intro s hs
                obtain ⟨s1, he1, hb1, hw1⟩ := encV s hs
                obtain ⟨s', he', hb', hwf'⟩ := henc' s1 hw1
                refine ⟨s', ?_, ?_, hwf'⟩
                · simp only [encCmpSubs]
                  rw [he1]
                  exact he'
                · rw [hb', hb1, List.append_assoc]
              · intro hguard k rest hk hr
                have hg0 : fsp.is_set (frn_to_fspec_position sub.index).1
                    (frn_to_fspec_position sub.index).2 = true := by
                  rw [hguard 0 sub (some v) rfl rfl]
                  rfl
                have hr' : rBits k = Bv ++ (B' ++ rest) := by
                  rw [hr, List.append_assoc]
                obtain ⟨k1, hd1, hrk1, hk1⟩ := decV k _ hk hr'
                obtain ⟨k', hd2, hr2, hk2⟩ :=
                  hdec' (fun j s2 o2 hj ho => hguard (j + 1) s2 o2 hj ho) k1 rest hk1 hrk1
                refine ⟨k', ?_, hr2, hk2⟩
                simp only [decCmpSubs]
                rw [if_pos hg0, hd1]
                dsimp only
                rw [hd2]
          | none =>
              have hvt : wfCmpVals subs vt = true := hv
              obtain ⟨B', h8', henc', hdec'⟩ := ih vt hsubs hvt hgt
              refine ⟨B', h8', ?_, ?_⟩
              · intro s hs
                obtain ⟨s', he', hb', hwf'⟩ := henc' s hs
                refine ⟨s', ?_, hb', hwf'⟩
                simp only [encCmpSubs]
                exact he'
              · intro hguard k rest hk hr
                have hg0 : fsp.is_set (frn_to_fspec_position sub.index).1
                    (frn_to_fspec_position sub.index).2 = false := by
                  rw [hguard 0 sub none rfl rfl]
                  rfl
                obtain ⟨k', hd2, hr2, hk2⟩ :=
                  hdec' (fun j s2 o2 hj ho => hguard (j + 1) s2 o2 hj ho) k rest hk hr
                refine ⟨k', ?_, hr2, hk2⟩
                simp only [decCmpSubs]
                rw [hg0]
                simp only [Bool.false_eq_true, if_false]
                rw [hd2]

end Cg

namespace Cg

/-- Byte-level round trip of a Compound item: from a byte-aligned caller the
generated encode appends `FSPEC ++ payload` to the raw stream and restores
the caller's bit buffer; decode consumes exactly those bytes and returns the
original sub-item options. -/
theorem cmp_rt (subs : List IRSubItem) (vs : List (Option FlatVal))
    (hall : subs.all (fun sub => wfFlat sub.layout) = true)
    (hnd : (subs.map IRSubItem.index).Nodup)
    (hv : wfCmpVals subs vs = true)
    (hg : vs.all (fun o => match o with | some v => gapFreeFlat v | none => true) = true) :
    ∃ pb : List Nat, (∀ b ∈ pb, b < 256) ∧
      (∀ out buf fill, (∀ b ∈ out, b < 256) →
        cmpEncode subs vs ⟨out, buf, fill⟩ = some ⟨out ++ pb, buf, fill⟩) ∧
      (∀ buf rest, (∀ b ∈ rest, b < 256) →
        cmpDecode subs ⟨pb ++ rest, buf, 0⟩ = some (ItemVal.compound vs, ⟨rest, buf, 0⟩)) := by
  have hps6 : ∀ p ∈ (presentIdxs (subs.map IRSubItem.index) vs).map frn_to_fspec_position,
      p.2 ≤ 6 := by
    intro p hp
    obtain ⟨y, hy, hyy⟩ := List.mem_map.mp hp
    rw [← hyy]
    show y % 7 ≤ 6
    omega
  have hnew256 : ∀ x ∈ Fspec.new.bytes, x < 256 := by
    intro x hx
    simp [Fspec.new] at hx
    omega
  have hfl : ∀ x ∈ (Fspec.new.setAll
      ((presentIdxs (subs.map IRSubItem.index) vs).map frn_to_fspec_position)).bytes,
      x < 256 := fspec_setAll_lt _ Fspec.new hps6 hnew256
  have hfx : fxChainOk (Fspec.new.setAll
      ((presentIdxs (subs.map IRSubItem.index) vs).map frn_to_fspec_position)).bytes = true :=
    fxChainOk_setAll _ Fspec.new fxChainOk_new hps6
  obtain ⟨B, hB8, hencB, hdecB⟩ := cmpSubs_rt (Fspec.new.setAll
      ((presentIdxs (subs.map IRSubItem.index) vs).map frn_to_fspec_position)) subs vs hall hv hg
  have hrun : ∀ out : List Nat, (∀ b ∈ out, b < 256) → ∃ inner pb2,
      encCmpSubs subs vs ⟨out ++ (Fspec.new.setAll
          ((presentIdxs (subs.map IRSubItem.index) vs).map frn_to_fspec_position)).bytes,
        0, 0⟩ = some inner ∧
      flushW inner = inner ∧
      inner.out = (out ++ (Fspec.new.setAll
          ((presentIdxs (subs.map IRSubItem.index) vs).map frn_to_fspec_position)).bytes)
        ++ pb2 ∧
      bytesBits pb2 = B ∧ (∀ b ∈ pb2, b < 256) := by
    intro out hout
    have hs0 : WfW ⟨out ++ (Fspec.new.setAll
        ((presentIdxs (subs.map IRSubItem.index) vs).map frn_to_fspec_position)).bytes,
        0, 0⟩ := by
      refine ⟨by norm_num, by norm_num, ?_⟩
      intro b hb
      rcases List.mem_append.mp hb with h | h
      · exact hout b h
      · exact hfl b h
    obtain ⟨inner, he, hb, hwI⟩ := hencB _ hs0
    have hw0 : wBits ⟨out ++ (Fspec.new.setAll
        ((presentIdxs (subs.map IRSubItem.index) vs).map frn_to_fspec_position)).bytes,
        0, 0⟩ = bytesBits (out ++ (Fspec.new.setAll
        ((presentIdxs (subs.map IRSubItem.index) vs).map frn_to_fspec_position)).bytes) := by
      simp [wBits, natBits]
    rw [hw0] at hb
    have hlen8 : (wBits inner).length % 8 = 0 := by
      rw [hb, List.length_append, bytesBits_length]
      omega
    obtain ⟨hf0, hwEq⟩ := writer_aligned inner hwI hlen8
    have hfl2 : flushW inner = inner := flushW_aligned inner (by omega)
    have hbytes : bytesBits inner.out = bytesBits (out ++ (Fspec.new.setAll
        ((presentIdxs (subs.map IRSubItem.index) vs).map frn_to_fspec_position)).bytes)
        ++ B := by
      rw [← hwEq, hb]
    obtain ⟨pb2, hsplit, hpbB, hpb256⟩ :=
      bytes_of_bits_append _ inner.out B hbytes hwI.2.2 hs0.2.2
    exact ⟨inner, pb2, he, hfl2, hsplit, hpbB, hpb256⟩
  obtain ⟨inner0, pb0, he0, hfl0, hsplit0, hpbB0, hpb0256⟩ := hrun [] (by simp)
  refine ⟨(Fspec.new.setAll
      ((presentIdxs (subs.map IRSubItem.index) vs).map frn_to_fspec_position)).bytes ++ pb0,
    ?_, ?_, ?_⟩
  · intro b hb
    rcases List.mem_append.mp hb with h | h
    · exact hfl b h
    · exact hpb0256 b h
  · intro out buf fill hout
    obtain ⟨inner, pb2, he, hfl2, hsplit, hpbB, hpb256⟩ := hrun out hout
    have hpb2eq : pb2 = pb0 :=
      bytesBits_inj pb2 pb0 hpb256 hpb0256 (by rw [hpbB, hpbB0])
    simp only [cmpEncode, Fspec.write, buildCmpFspec_eq]
    rw [he]
    dsimp only
    rw [hfl2, hsplit, hpb2eq, List.append_assoc]
  · intro buf rest hrest
    have hread : Fspec.read (((Fspec.new.setAll
        ((presentIdxs (subs.map IRSubItem.index) vs).map frn_to_fspec_position)).bytes ++ pb0)
          ++ rest)
        = some (Fspec.new.setAll
            ((presentIdxs (subs.map IRSubItem.index) vs).map frn_to_fspec_position),
          pb0 ++ rest) := by
      rw [List.append_assoc]
      simp only [Fspec.read]
      rw [fspecReadGo_of_fxChainOk _ (pb0 ++ rest) hfx]
    have hguard : ∀ j sub o, subs.get? j = some sub → vs.get? j = some o →
        (Fspec.new.setAll
            ((presentIdxs (subs.map IRSubItem.index) vs).map frn_to_fspec_position)).is_set
          (frn_to_fspec_position sub.index).1 (frn_to_fspec_position sub.index).2
            = o.isSome := by
      intro j sub o hj ho
      apply guard_at (subs.map IRSubItem.index) vs j sub.index o hnd ?_ ho
      rw [List.get?_map, hj]
      rfl
    have hk0 : WfR ⟨pb0 ++ rest, 0, 0⟩ := by
      refine ⟨by norm_num, ?_⟩
      intro b hb
      rcases List.mem_append.mp hb with h | h
      · exact hpb0256 b h
      · exact hrest b h
    have hr0 : rBits ⟨pb0 ++ rest, 0, 0⟩ = B ++ bytesBits rest := by
      show natBits 0 0 ++ bytesBits (pb0 ++ rest) = _
      rw [bytesBits_append, hpbB0]
      simp [natBits]
    obtain ⟨k1, hdc, hrk1, hk1⟩ := hdecB hguard ⟨pb0 ++ rest, 0, 0⟩ (bytesBits rest) hk0 hr0
    obtain ⟨hbl0, hinp⟩ := reader_aligned k1 rest hk1 hrest hrk1
    simp only [cmpDecode]
    rw [hread]
    dsimp only
    rw [hdc]
    dsimp only
    rw [hinp]

/-- Byte-level round trip of one generated item (flat or compound). -/
theorem itm_rt (L : IRLayout) (v : ItemVal) (hwl : wfLayout L = true)
    (hv : wfItemVal L v = true) (hg : gapFreeItem v = true) :
    ∃ pb : List Nat, (∀ b ∈ pb, b < 256) ∧
      (∀ out : List Nat, (∀ b ∈ out, b < 256) →
        itemEncode L v ⟨out, 0, 0⟩ = some ⟨out ++ pb, 0, 0⟩) ∧
      (∀ (buf : Nat) (rest : List Nat), (∀ b ∈ rest, b < 256) →
        ∃ buf', itemDecode L ⟨pb ++ rest, buf, 0⟩ = some (v, ⟨rest, buf', 0⟩)) := by
  cases L with
  | flat l =>
      cases v with
      | compound vsl => exact Bool.noConfusion (show (false : Bool) = true from hv)
      | flat fv =>
          have hv' : wfFlatVal l fv = true := hv
          have hg' : gapFreeFlat fv = true := hg
          have hwl' : wfFlat l = true := hwl
          obtain ⟨B, hB8, hencB, hdecB⟩ := flat_rt l fv hwl' hv' hg'
          have hrun : ∀ out : List Nat, (∀ b ∈ out, b < 256) → ∃ s' pb2,
              encFlat l fv ⟨out, 0, 0⟩ = some s' ∧ s' = ⟨out ++ pb2, 0, 0⟩ ∧
              bytesBits pb2 = B ∧ (∀ b ∈ pb2, b < 256) := by
            intro out hout
            have hs0 : WfW ⟨out, 0, 0⟩ := ⟨by norm_num, by norm_num, hout⟩
            obtain ⟨s', he, hb, hwI⟩ := hencB _ hs0
            have hw0 : wBits ⟨out, 0, 0⟩ = bytesBits out := by
              simp [wBits, natBits]
            rw [hw0] at hb
            have hlen8 : (wBits s').length % 8 = 0 := by
              rw [hb, List.length_append, bytesBits_length]
              omega
            obtain ⟨hf0, hwEq⟩ := writer_aligned s' hwI hlen8
            have hbuf0 : s'.buffer = 0 := by
              have := hwI.1
              rw [hf0] at this
              simpa using this
            have hbytes : bytesBits s'.out = bytesBits out ++ B := by
              rw [← hwEq, hb]
            obtain ⟨pb2, hsplit, hpbB, hpb256⟩ :=
              bytes_of_bits_append out s'.out B hbytes hwI.2.2 hout
            refine ⟨s', pb2, he, ?_, hpbB, hpb256⟩
            cases s' with
            | mk o b f =>
                dsimp only at hsplit hbuf0 hf0
                rw [hsplit, hbuf0, hf0]
          obtain ⟨s0, pb0, he0, hs0eq, hpbB0, hpb0256⟩ := hrun [] (by simp)
          refine ⟨pb0, hpb0256, ?_, ?_⟩
          · intro out hout
            obtain ⟨s', pb2, he, hseq, hpbB, hpb256⟩ := hrun out hout
            have hpb2eq : pb2 = pb0 :=
              bytesBits_inj pb2 pb0 hpb256 hpb0256 (by rw [hpbB, hpbB0])
            show itemEncode (IRLayout.flat l) (ItemVal.flat fv) ⟨out, 0, 0⟩ = _
            simp only [itemEncode]
            rw [he, hseq, hpb2eq]
          · intro buf rest hrest
            have hk0 : WfR ⟨pb0 ++ rest, buf, 0⟩ := by
              refine ⟨by norm_num, ?_⟩
              intro b hb
              rcases List.mem_append.mp hb with h | h
              · exact hpb0256 b h
              · exact hrest b h
            have hr0 : rBits ⟨pb0 ++ rest, buf, 0⟩ = B ++ bytesBits rest := by
              show natBits 0 buf ++ bytesBits (pb0 ++ rest) = _
              rw [bytesBits_append, hpbB0]
              simp [natBits]
            obtain ⟨k1, hdc, hrk1, hk1⟩ := hdecB ⟨pb0 ++ rest, buf, 0⟩ (bytesBits rest) hk0 hr0
            obtain ⟨hbl0, hinp⟩ := reader_aligned k1 rest hk1 hrest hrk1
            refine ⟨k1.buffer, ?_⟩
            simp only [itemDecode]
            rw [hdc]
            dsimp only
            cases k1 with
            | mk i b f =>
                dsimp only at hbl0 hinp ⊢
                rw [hbl0, hinp]
  | compound subs =>
      cases v with
      | flat fv => exact Bool.noConfusion (show (false : Bool) = true from hv)
      | compound vsl =>
          have hwl' : (subs.all (fun sub => wfFlat sub.layout)
              && decide ((subs.map IRSubItem.index).Nodup)) = true := hwl
          rw [Bool.and_eq_true, decide_eq_true_eq] at hwl'
          obtain ⟨hall, hnd⟩ := hwl'
          have hv' : wfCmpVals subs vsl = true := hv
          have hg' : vsl.all
              (fun o => match o with | some v => gapFreeFlat v | none => true) = true := hg
          obtain ⟨pb, hpb256, hencC, hdecC⟩ := cmp_rt subs vsl hall hnd hv' hg'
          refine ⟨pb, hpb256, ?_, ?_⟩
          · intro out hout
            show itemEncode (IRLayout.compound subs) (ItemVal.compound vsl) ⟨out, 0, 0⟩ = _
            simp only [itemEncode]
            exact hencC out 0 0 hout
          · intro buf rest hrest
            refine ⟨buf, ?_⟩
            simp only [itemDecode]
            exact hdecC buf rest hrest

end Cg

namespace Cg

/-- Round trip of the per-item statements of a record body against any FSPEC
agreeing positionally with the presence of the values. -/
theorem recItems_rt (fsp : Fspec) (its : List RecItem) : ∀ (vs : List (Option ItemVal)),
    its.all (fun it => wfLayout it.layout) = true →
    wfRecVals its vs = true →
    gapFreeRec vs = true →
    ∃ pb : List Nat, (∀ b ∈ pb, b < 256) ∧
      (∀ out : List Nat, (∀ b ∈ out, b < 256) →
        encRecItems its vs ⟨out, 0, 0⟩ = some ⟨out ++ pb, 0, 0⟩) ∧
      ((∀ j it o, its.get? j = some it → vs.get? j = some o →
          fsp.is_set (frn_to_fspec_position it.frn).1 (frn_to_fspec_position it.frn).2
            = o.isSome) →
        ∀ (buf : Nat) (rest : List Nat), (∀ b ∈ rest, b < 256) →
          ∃ buf', decRecItems its fsp ⟨pb ++ rest, buf, 0⟩ = some (vs, ⟨rest, buf', 0⟩)) := by
  induction its with
  | nil =>
      intro vs _ hv _
      cases vs with
      | cons o vt => exact Bool.noConfusion (show (false : Bool) = true from hv)
      | nil =>
          refine ⟨[], by simp, ?_, ?_⟩
          · intro out _
            rw [List.append_nil]
            rfl
          · intro _ buf rest _
            exact ⟨buf, rfl⟩
  | cons it its ih =>
      intro vs hall hv hg
      rw [List.all_cons, Bool.and_eq_true] at hall
      obtain ⟨hit, hits⟩ := hall
      cases vs with
      | nil => exact Bool.noConfusion (show (false : Bool) = true from hv)
      | cons o vt =>
          have hgall := hg
          simp only [gapFreeRec, List.all_cons, Bool.and_eq_true] at hgall
          obtain ⟨hgo, hgt⟩ := hgall
          have hg2 : gapFreeRec vt = true := hgt
          cases o with
          | some v =>
              have hv' : (wfItemVal it.layout v && wfRecVals its vt) = true := hv
              rw [Bool.and_eq_true] at hv'
              obtain ⟨hvv, hvt⟩ := hv'
              have hgi : gapFreeItem v = true := hgo
              obtain ⟨pbi, hpbi256, hencI, hdecI⟩ := itm_rt it.layout v hit hvv hgi
              obtain ⟨pb', hpb'256, henc', hdec'⟩ := ih vt hits hvt hg2
              refine ⟨pbi ++ pb', ?_, ?_, ?_⟩
              · intro b hb
                rcases List.mem_append.mp hb with h | h
                · exact hpbi256 b h
                · exact hpb'256 b h
              · intro out hout
                simp only [encRecItems]
                rw [hencI out hout]
                dsimp only
                have hout2 : ∀ b ∈ out ++ pbi, b < 256 := by
                  intro b hb
                  rcases List.mem_append.mp hb with h | h
                  · exact hout b h
                  · exact hpbi256 b h
                rw [henc' (out ++ pbi) hout2, List.append_assoc]
              · intro hguard buf rest hrest
                have hg0 : fsp.is_set (frn_to_fspec_position it.frn).1
                    (frn_to_fspec_position it.frn).2 = true := by
                  rw [hguard 0 it (some v) rfl rfl]
                  rfl
                have hrest2 : ∀ b ∈ pb' ++ rest, b < 256 := by
                  intro b hb
                  rcases List.mem_append.mp hb with h | h
                  · exact hpb'256 b h
                  · exact hrest b h
                obtain ⟨buf1, hd1⟩ := hdecI buf (pb' ++ rest) hrest2
                obtain ⟨buf', hd2⟩ :=
                  hdec' (fun j i2 o2 hj ho => hguard (j + 1) i2 o2 hj ho) buf1 rest hrest
                refine ⟨buf', ?_⟩
                simp only [decRecItems]
                rw [if_pos hg0, List.append_assoc, hd1]
                dsimp only
                rw [hd2]
          | none =>
              have hvt : wfRecVals its vt = true := hv
              obtain ⟨pb', hpb'256, henc', hdec'⟩ := ih vt hits hvt hg2
              refine ⟨pb', hpb'256, ?_, ?_⟩
              · intro out hout
                simp only [encRecItems]
                exact henc' out hout
              · intro hguard buf rest hrest
                have hg0 : fsp.is_set (frn_to_fspec_position it.frn).1
                    (frn_to_fspec_position it.frn).2 = false := by
                  rw [hguard 0 it none rfl rfl]
                  rfl
                obtain ⟨buf', hd2⟩ :=
                  hdec' (fun j i2 o2 hj ho => hguard (j + 1) i2 o2 hj ho) buf rest hrest
                refine ⟨buf', ?_⟩
                simp only [decRecItems]
                rw [hg0]
                simp only [Bool.false_eq_true, if_false]
                rw [hd2]

/-- Byte-level round trip of a whole record: encode appends
`FSPEC ++ item payloads` (at least one byte) to the raw stream, and decode
consumes exactly those bytes, returning the original item options. -/
theorem record_rt (its : List RecItem) (vs : List (Option ItemVal))
    (hsch : wfRecSchema its = true) (hv : wfRecVals its vs = true)
    (hg : gapFreeRec vs = true) :
    ∃ rb : List Nat, (∀ b ∈ rb, b < 256) ∧ 1 ≤ rb.length ∧
      (∀ out : List Nat, (∀ b ∈ out, b < 256) → recordEncode its vs out = some (out ++ rb)) ∧
      (∀ rest : List Nat, (∀ b ∈ rest, b < 256) →
        recordDecode its (rb ++ rest) = some (vs, rest)) := by
  have hsch' : (its.all (fun it => wfLayout it.layout)
      && decide ((its.map RecItem.frn).Nodup)) = true := hsch
  rw [Bool.and_eq_true, decide_eq_true_eq] at hsch'
  obtain ⟨hall, hnd⟩ := hsch'
  have hps6 : ∀ p ∈ (presentIdxs (its.map RecItem.frn) vs).map frn_to_fspec_position,
      p.2 ≤ 6 := by
    intro p hp
    obtain ⟨y, hy, hyy⟩ := List.mem_map.mp hp
    rw [← hyy]
    show y % 7 ≤ 6
    omega
  have hnew256 : ∀ x ∈ Fspec.new.bytes, x < 256 := by
    intro x hx
    simp [Fspec.new] at hx
    omega
  have hfl : ∀ x ∈ (Fspec.new.setAll
      ((presentIdxs (its.map RecItem.frn) vs).map frn_to_fspec_position)).bytes,
      x < 256 := fspec_setAll_lt _ Fspec.new hps6 hnew256
  have hfx : fxChainOk (Fspec.new.setAll
      ((presentIdxs (its.map RecItem.frn) vs).map frn_to_fspec_position)).bytes = true :=
    fxChainOk_setAll _ Fspec.new fxChainOk_new hps6
  have hflen : 1 ≤ (Fspec.new.setAll
      ((presentIdxs (its.map RecItem.frn) vs).map frn_to_fspec_position)).bytes.length :=
    fspec_setAll_len _ Fspec.new (by simp [Fspec.new])
  obtain ⟨pb, hpb256, hencI, hdecI⟩ := recItems_rt (Fspec.new.setAll
      ((presentIdxs (its.map RecItem.frn) vs).map frn_to_fspec_position)) its vs hall hv hg
  refine ⟨(Fspec.new.setAll
      ((presentIdxs (its.map RecItem.frn) vs).map frn_to_fspec_position)).bytes ++ pb,
    ?_, ?_, ?_, ?_⟩
  · intro b hb
    rcases List.mem_append.mp hb with h | h
    · exact hfl b h
    · exact hpb256 b h
  · rw [List.length_append]
    omega
  · intro out hout
    have hout2 : ∀ b ∈ out ++ (Fspec.new.setAll
        ((presentIdxs (its.map RecItem.frn) vs).map frn_to_fspec_position)).bytes,
        b < 256 := by
      intro b hb
      rcases List.mem_append.mp hb with h | h
      · exact hout b h
      · exact hfl b h
    simp only [recordEncode, Fspec.write, buildRecFspec_eq]
    rw [hencI _ hout2]
    dsimp only
    rw [show flushW ⟨(out ++ (Fspec.new.setAll
        ((presentIdxs (its.map RecItem.frn) vs).map frn_to_fspec_position)).bytes) ++ pb,
      0, 0⟩ = ⟨(out ++ (Fspec.new.setAll
        ((presentIdxs (its.map RecItem.frn) vs).map frn_to_fspec_position)).bytes) ++ pb,
      0, 0⟩ from flushW_aligned _ (by norm_num)]
    rw [List.append_assoc]
  · intro rest hrest
    have hread : Fspec.read (((Fspec.new.setAll
        ((presentIdxs (its.map RecItem.frn) vs).map frn_to_fspec_position)).bytes ++ pb)
          ++ rest)
        = some (Fspec.new.setAll
            ((presentIdxs (its.map RecItem.frn) vs).map frn_to_fspec_position),
          pb ++ rest) := by
      rw [List.append_assoc]
      simp only [Fspec.read]
      rw [fspecReadGo_of_fxChainOk _ (pb ++ rest) hfx]
    have hguard : ∀ j it o, its.get? j = some it → vs.get? j = some o →
        (Fspec.new.setAll
            ((presentIdxs (its.map RecItem.frn) vs).map frn_to_fspec_position)).is_set
          (frn_to_fspec_position it.frn).1 (frn_to_fspec_position it.frn).2 = o.isSome := by
      intro j it o hj ho
      apply guard_at (its.map RecItem.frn) vs j it.frn o hnd ?_ ho
      rw [List.get?_map, hj]
      rfl
    obtain ⟨buf', hd⟩ := hdecI hguard 0 rest hrest
    simp only [recordDecode]
    rw [hread]
    dsimp only
    rw [hd]

end Cg

namespace Cg

theorem writeBytesAsBits_ok (bs : List Nat) : ∀ (s : WState), WfW s →
    wBits (writeBytesAsBits bs s) = wBits s ++ bytesBits bs ∧ WfW (writeBytesAsBits bs s) := by
  induction bs with
  | nil =>
      intro s hs
      refine ⟨?_, hs⟩
      show wBits s = _
      simp [bytesBits]
  | cons b t ih =>
      intro s hs
      obtain ⟨hw1, hw2⟩ := write_bits_ok 8 s b hs
      obtain ⟨h1, h2⟩ := ih (write_bits s b 8) hw2
      refine ⟨?_, h2⟩
      show wBits (writeBytesAsBits t (write_bits s b 8)) = _
      rw [h1, hw1]
      show _ = wBits s ++ (byteBits b ++ bytesBits t)
      rw [List.append_assoc]
      rfl

theorem readNBytes_ok (pb : List Nat) : ∀ (k : RState) (rest : List Nat), WfR k →
    (∀ b ∈ pb, b < 256) → rBits k = bytesBits pb ++ rest →
    ∃ k', readNBytes pb.length k = some (pb, k') ∧ rBits k' = rest ∧ WfR k' := by
  induction pb with
  | nil =>
      intro k rest hk _ hr
      refine ⟨k, rfl, ?_, hk⟩
      rw [hr]
      simp [bytesBits]
  | cons b t ih =>
      intro k rest hk hb hr
      have hb0 : b < 256 := hb b (by simp)
      have hr' : rBits k = natBits 8 b ++ (bytesBits t ++ rest) := by
        rw [hr]
        show bytesBits (b :: t) ++ rest = _
        rw [show bytesBits (b :: t) = byteBits b ++ bytesBits t from by
          simp [bytesBits]]
        rw [List.append_assoc]
        rfl
      obtain ⟨k1, he1, hrk1, hk1⟩ := read_bits_ok k 8 b (bytesBits t ++ rest) hk hr' (by norm_num)
      have he1' : read_bits k 8 = some (b, k1) := by
        have h28 : (2:Nat) ^ 8 = 256 := by norm_num
        rw [Nat.mod_eq_of_lt (by omega : b < 2 ^ 8)] at he1
        exact he1
      obtain ⟨k', he2, hr2, hk2⟩ := ih k1 rest hk1 (fun x hx => hb x (List.mem_cons_of_mem b hx)) hrk1
      refine ⟨k', ?_, hr2, hk2⟩
      rw [List.length_cons]
      simp only [readNBytes]
      rw [he1']
      dsimp only
      rw [he2]

/-- Round trip of the record serialization loop of a DataBlock: the scratch
buffer receives the concatenation of the record byte blocks; the fueled
decode loop (with at least `payload.length` fuel) recovers the records. -/
theorem records_rt (its : List RecItem) (hsch : wfRecSchema its = true) :
    ∀ (rvs : List (List (Option ItemVal))),
    (rvs.all (fun r => wfRecVals its r && gapFreeRec r)) = true →
    ∃ pb : List Nat, (∀ b ∈ pb, b < 256) ∧
      (∀ buf : List Nat, (∀ b ∈ buf, b < 256) → encRecords its rvs buf = some (buf ++ pb)) ∧
      (∀ fuel, pb.length ≤ fuel → decRecordsLoop its pb fuel = some rvs) := by
  intro rvs
  induction rvs with
  | nil =>
      intro _
      refine ⟨[], by simp, ?_, ?_⟩
      · intro buf _
        rw [List.append_nil]
        rfl
      · intro fuel _
        simp only [decRecordsLoop]
  | cons r rs ih =>
      intro hall
      rw [List.all_cons, Bool.and_eq_true] at hall
      obtain ⟨hr, hrs⟩ := hall
      rw [Bool.and_eq_true] at hr
      obtain ⟨hrv, hrg⟩ := hr
      obtain ⟨rb, hrb256, hrbLen, hencR, hdecR⟩ := record_rt its r hsch hrv hrg
      obtain ⟨pb', hpb'256, henc', hdec'⟩ := ih hrs
      refine ⟨rb ++ pb', ?_, ?_, ?_⟩
      · intro b hb
        rcases List.mem_append.mp hb with h | h
        · exact hrb256 b h
        · exact hpb'256 b h
      · intro buf hbuf
        simp only [encRecords]
        rw [hencR buf hbuf]
        dsimp only
        have hbnd : ∀ b ∈ buf ++ rb, b < 256 := by
          intro b hb
          rcases List.mem_append.mp hb with h | h
          · exact hbuf b h
          · exact hrb256 b h
        rw [henc' (buf ++ rb) hbnd, List.append_assoc]
      · intro fuel hfuel
        cases rb with
        | nil => simp at hrbLen
        | cons x rt =>
            rw [List.length_append, List.length_cons] at hfuel
            cases fuel with
            | zero => omega
            | succ f =>
                have hd := hdecR pb' hpb'256
                rw [show (x :: rt) ++ pb' = x :: (rt ++ pb') from rfl] at hd
                show decRecordsLoop its (x :: (rt ++ pb')) (f + 1) = some (r :: rs)
                simp only [decRecordsLoop]
                rw [hd]
                dsimp only
                rw [hdec' f (by omega)]

/-- Byte-level behaviour of the generated DataBlock encode/decode pair from
a fresh writer: the frame is `CAT ++ LEN ++ payload`; when the payload fits
the `u16` length field (≤ 65532 bytes) the decode recovers the records. -/
theorem dataBlock_rt (cat : Nat) (its : List RecItem) (rvs : List (List (Option ItemVal)))
    (hsch : wfRecSchema its = true)
    (hrvs : (rvs.all (fun r => wfRecVals its r && gapFreeRec r)) = true)
    (hcat : cat < 256) :
    ∃ (pb dbBytes : List Nat),
      encRecords its rvs [] = some pb ∧
      dataBlockEncode cat its rvs ⟨[], 0, 0⟩ = some ⟨dbBytes, 0, 0⟩ ∧
      (∀ b ∈ dbBytes, b < 256) ∧
      bytesBits dbBytes = natBits 8 cat ++ (natBits 16 (dbTotalLen pb.length) ++ bytesBits pb) ∧
      (pb.length ≤ 65532 →
        ∃ buf, dataBlockDecode cat its ⟨dbBytes, 0, 0⟩ = some (rvs, ⟨[], buf, 0⟩)) := by
  obtain ⟨pb, hpb256, hencR, hdecL⟩ := records_rt its hsch rvs hrvs
  have hpbEnc : encRecords its rvs [] = some pb := by
    have h := hencR [] (by simp)
    simpa using h
  have hs0 : WfW (⟨[], 0, 0⟩ : WState) := ⟨by norm_num, by norm_num, by simp⟩
  obtain ⟨hw1, hwf1⟩ := write_bits_ok 8 ⟨[], 0, 0⟩ cat hs0
  obtain ⟨hw2, hwf2⟩ := write_bits_ok 16 (write_bits ⟨[], 0, 0⟩ cat 8) (dbTotalLen pb.length) hwf1
  obtain ⟨hw3, hwf3⟩ := writeBytesAsBits_ok pb _ hwf2
  have hwAll : wBits (writeBytesAsBits pb
      (write_bits (write_bits ⟨[], 0, 0⟩ cat 8) (dbTotalLen pb.length) 16))
      = natBits 8 cat ++ (natBits 16 (dbTotalLen pb.length) ++ bytesBits pb) := by
    rw [hw3, hw2, hw1]
    have hwe : wBits (⟨[], 0, 0⟩ : WState) = [] := by
      simp [wBits, natBits, bytesBits]
    rw [hwe]
    simp [List.append_assoc]
  have hlen8 : (wBits (writeBytesAsBits pb
      (write_bits (write_bits ⟨[], 0, 0⟩ cat 8) (dbTotalLen pb.length) 16))).length % 8 = 0 := by
    rw [hwAll]
    simp [natBits_length, bytesBits_length]
  obtain ⟨hf0, hwEq⟩ := writer_aligned _ hwf3 hlen8
  have hbuf0 : (writeBytesAsBits pb
      (write_bits (write_bits ⟨[], 0, 0⟩ cat 8) (dbTotalLen pb.length) 16)).buffer = 0 := by
    have h := hwf3.1
    rw [hf0] at h
    simpa using h
  refine ⟨pb, (writeBytesAsBits pb
      (write_bits (write_bits ⟨[], 0, 0⟩ cat 8) (dbTotalLen pb.length) 16)).out,
    hpbEnc, ?_, hwf3.2.2, ?_, ?_⟩
  · simp only [dataBlockEncode]
    rw [hpbEnc]
    dsimp only
    cases hws : writeBytesAsBits pb
        (write_bits (write_bits ⟨[], 0, 0⟩ cat 8) (dbTotalLen pb.length) 16) with
    | mk o b f =>
        rw [hws] at hf0 hbuf0
        dsimp only at hf0 hbuf0
        rw [hf0, hbuf0]
  · rw [← hwEq, hwAll]
  · intro hle
    have hLEN : dbTotalLen pb.length = 3 + pb.length := by
      rw [dbTotalLen]
      omega
    have hr0 : rBits ⟨(writeBytesAsBits pb
        (write_bits (write_bits ⟨[], 0, 0⟩ cat 8) (dbTotalLen pb.length) 16)).out, 0, 0⟩
        = natBits 8 cat ++ (natBits 16 (dbTotalLen pb.length) ++ (bytesBits pb ++ [])) := by
      show natBits 0 0 ++ _ = _
      rw [← hwEq, hwAll]
      simp [natBits]
    have hk0 : WfR ⟨(writeBytesAsBits pb
        (write_bits (write_bits ⟨[], 0, 0⟩ cat 8) (dbTotalLen pb.length) 16)).out, 0, 0⟩ :=
      ⟨by norm_num, hwf3.2.2⟩
    obtain ⟨k1, he1, hrk1, hk1⟩ := read_bits_ok _ 8 cat _ hk0 hr0 (by norm_num)
    have he1' : read_bits ⟨(writeBytesAsBits pb
        (write_bits (write_bits ⟨[], 0, 0⟩ cat 8) (dbTotalLen pb.length) 16)).out, 0, 0⟩ 8
        = some (cat, k1) := by
      have h28 : (2:Nat) ^ 8 = 256 := by norm_num
      rw [Nat.mod_eq_of_lt (by omega : cat < 2 ^ 8)] at he1
      exact he1
    obtain ⟨k2, he2, hrk2, hk2⟩ := read_bits_ok k1 16 (dbTotalLen pb.length) _ hk1 hrk1 (by norm_num)
    have hLENlt : dbTotalLen pb.length < 2 ^ 16 := by
      rw [hLEN]
      omega
    have he2' : read_bits k1 16 = some (dbTotalLen pb.length, k2) := by
      rw [Nat.mod_eq_of_lt hLENlt] at he2
      exact he2
    obtain ⟨k3, he3, hrk3, hk3⟩ := readNBytes_ok pb k2 [] hk2 hpb256 hrk2
    obtain ⟨hbl3, hin3⟩ := reader_aligned k3 [] hk3 (by simp) (by simpa [bytesBits] using hrk3)
    refine ⟨k3.buffer, ?_⟩
    simp only [dataBlockDecode]
    rw [he1']
    dsimp only
    rw [if_neg (by simp : ¬ ((cat != cat) = true))]
    rw [he2']
    dsimp only
    rw [if_neg (by rw [hLEN]; omega : ¬ (dbTotalLen pb.length < 3))]
    rw [show dbTotalLen pb.length - 3 = pb.length from by rw [hLEN]; omega]
    rw [he3]
    dsimp only
    rw [hdecL pb.length (Nat.le_refl _)]
    dsimp only
    cases k3 with
    | mk i b f =>
        dsimp only at hbl3 hin3 ⊢
        rw [hbl3, hin3]

end Cg

namespace Cg

/-- C1: value-level round trip of the generated code.  For every legal item
value (any layout: Fixed, Explicit, Extended, Repetitive, Compound), every
legal record value and every legal record list, decoding the encoder's
output returns the original value — PROVIDED the value is gap-free (no
absent Extended part is followed by a present one; see
`generated_value_roundtrip_cex` for the gap counterexample the claim's own
"in particular" sentence runs into) and, for DataBlock, the serialized
payload fits the `u16` LEN field (≤ 65532 bytes). -/
theorem generated_value_roundtrip :
    (∀ (L : IRLayout) (v : ItemVal),
      wfLayout L = true → wfItemVal L v = true → gapFreeItem v = true →
      ∃ pb k', itemEncode L v ⟨[], 0, 0⟩ = some ⟨pb, 0, 0⟩ ∧
        itemDecode L ⟨pb, 0, 0⟩ = some (v, k') ∧ k'.input = []) ∧
    (∀ (its : List RecItem) (vs : List (Option ItemVal)),
      wfRecSchema its = true → wfRecVals its vs = true → gapFreeRec vs = true →
      ∃ rb, recordEncode its vs [] = some rb ∧ recordDecode its rb = some (vs, [])) ∧
    (∀ (cat : Nat) (its : List RecItem) (rvs : List (List (Option ItemVal))) (pb : List Nat),
      wfRecSchema its = true → (rvs.all (fun r => wfRecVals its r && gapFreeRec r)) = true →
      cat < 256 → encRecords its rvs [] = some pb → pb.length ≤ 65532 →
      ∃ db k', dataBlockEncode cat its rvs ⟨[], 0, 0⟩ = some ⟨db, 0, 0⟩ ∧
        dataBlockDecode cat its ⟨db, 0, 0⟩ = some (rvs, k') ∧ k'.input = []) := by
  refine ⟨?_, ?_, ?_⟩
  · intro L v hwl hv hg
    obtain ⟨pb, hpb256, hencI, hdecI⟩ := itm_rt L v hwl hv hg
    obtain ⟨buf', hd⟩ := hdecI 0 [] (by simp)
    rw [List.append_nil] at hd
    refine ⟨pb, ⟨[], buf', 0⟩, ?_, hd, rfl⟩
    have h := hencI [] (by simp)
    simpa using h
  · intro its vs hsch hv hg
    obtain ⟨rb, hrb256, hrbLen, hencR, hdecR⟩ := record_rt its vs hsch hv hg
    refine ⟨rb, ?_, ?_⟩
    · have h := hencR [] (by simp)
      simpa using h
    · have h := hdecR [] (by simp)
      rw [List.append_nil] at h
      exact h
  · intro cat its rvs pb hsch hrvs hcat henc hle
    obtain ⟨pb2, db, hencR, hencDB, hdb256, hbits, hdec⟩ :=
      dataBlock_rt cat its rvs hsch hrvs hcat
    have hpb2 : pb2 = pb := by
      rw [henc] at hencR
      exact (Option.some.inj hencR).symm
    rw [hpb2] at hdec
    obtain ⟨buf, hd⟩ := hdec hle
    exact ⟨db, ⟨[], buf, 0⟩, hencDB, hd, rfl⟩

/-- C1 counterexample: a legal Extended value with an absent middle part
followed by a present third part (three one-part-group layout, spare-only
parts).  The encoder writes FX = 0 after the first part (taken from
`part1.is_some()`), skips the absent part, but still emits the present third
part; the decoder stops at FX = 0, so the decoded value has `[none, none]`
where the original had `[none, some []]` — and an extra unread byte remains
on the stream. -/
theorem generated_value_roundtrip_cex :
    wfFlat (IRFlat.extended 2 [⟨0, [IRElement.spare 7]⟩, ⟨1, [IRElement.spare 7]⟩,
      ⟨2, [IRElement.spare 7]⟩]) = true ∧
    wfFlatVal (IRFlat.extended 2 [⟨0, [IRElement.spare 7]⟩, ⟨1, [IRElement.spare 7]⟩,
        ⟨2, [IRElement.spare 7]⟩])
      (FlatVal.extended [] [none, some []]) = true ∧
    (encFlat (IRFlat.extended 2 [⟨0, [IRElement.spare 7]⟩, ⟨1, [IRElement.spare 7]⟩,
        ⟨2, [IRElement.spare 7]⟩])
        (FlatVal.extended [] [none, some []]) ⟨[], 0, 0⟩).bind
      (fun s => (decFlat (IRFlat.extended 2 [⟨0, [IRElement.spare 7]⟩,
          ⟨1, [IRElement.spare 7]⟩, ⟨2, [IRElement.spare 7]⟩])
        ⟨(flushW s).out, 0, 0⟩).map Prod.fst)
      = some (FlatVal.extended [] [none, none]) ∧
    FlatVal.extended [] [none, none] ≠ FlatVal.extended [] [none, some []] := by
  decide

theorem generated_value_roundtrip_witness :
    ∃ pb k', itemEncode (IRLayout.flat (IRFlat.fixed 1 [IRElement.field "a" 8]))
        (ItemVal.flat (FlatVal.simple [ElemVal.vField 5])) ⟨[], 0, 0⟩ = some ⟨pb, 0, 0⟩ ∧
      itemDecode (IRLayout.flat (IRFlat.fixed 1 [IRElement.field "a" 8])) ⟨pb, 0, 0⟩
        = some (ItemVal.flat (FlatVal.simple [ElemVal.vField 5]), k') ∧ k'.input = [] :=
  generated_value_roundtrip.1 (IRLayout.flat (IRFlat.fixed 1 [IRElement.field "a" 8]))
    (ItemVal.flat (FlatVal.simple [ElemVal.vField 5])) (by decide) (by decide) (by decide)

/-- C2 (amended): byte-level round trip holds on the encoder's image — for
every byte sequence the generated encoder produces from a legal gap-free
value, decoding those bytes and re-encoding the decoded value reproduces
exactly the same bytes.  It does NOT hold for every byte sequence the
decoder merely accepts (see `generated_byte_roundtrip_cex`). -/
theorem generated_byte_roundtrip (L : IRLayout) (v : ItemVal) (b : List Nat)
    (hwl : wfLayout L = true) (hv : wfItemVal L v = true) (hg : gapFreeItem v = true)
    (henc : itemEncode L v ⟨[], 0, 0⟩ = some ⟨b, 0, 0⟩) :
    ∃ v' k', itemDecode L ⟨b, 0, 0⟩ = some (v', k') ∧
      itemEncode L v' ⟨[], 0, 0⟩ = some ⟨b, 0, 0⟩ := by
  obtain ⟨pb, hpb256, hencI, hdecI⟩ := itm_rt L v hwl hv hg
  have hb : b = pb := by
    have h := hencI [] (by simp)
    rw [henc] at h
    have h2 := Option.some.inj h
    have h3 := congrArg WState.out h2
    simpa using h3
  subst hb
  obtain ⟨buf', hd⟩ := hdecI 0 [] (by simp)
  rw [List.append_nil] at hd
  refine ⟨v, ⟨[], buf', 0⟩, hd, ?_⟩
  have h := hencI [] (by simp)
  simpa using h

/-- C2 counterexample: the decoder accepts the byte `0xFF` as a legal
one-byte Fixed item consisting of a single 8-bit Spare element (spare bits
are read and discarded), but the encoder always writes spare bits as zero:
re-encoding the decoded value yields `0x00`, not `0xFF`. -/
theorem generated_byte_roundtrip_cex :
    wfFlat (IRFlat.fixed 1 [IRElement.spare 8]) = true ∧
    (decFlat (IRFlat.fixed 1 [IRElement.spare 8]) ⟨[255], 0, 0⟩).map Prod.fst
      = some (FlatVal.simple []) ∧
    ((decFlat (IRFlat.fixed 1 [IRElement.spare 8]) ⟨[255], 0, 0⟩).bind
      (fun p => (encFlat (IRFlat.fixed 1 [IRElement.spare 8]) p.1 ⟨[], 0, 0⟩).map
        (fun s => (flushW s).out)))
      = some [0] ∧
    [0] ≠ [255] := by
  decide

theorem generated_byte_roundtrip_witness :
    ∃ v' k', itemDecode (IRLayout.flat (IRFlat.fixed 1 [IRElement.field "a" 8]))
        ⟨[5], 0, 0⟩ = some (v', k') ∧
      itemEncode (IRLayout.flat (IRFlat.fixed 1 [IRElement.field "a" 8])) v' ⟨[], 0, 0⟩
        = some ⟨[5], 0, 0⟩ :=
  generated_byte_roundtrip (IRLayout.flat (IRFlat.fixed 1 [IRElement.field "a" 8]))
    (ItemVal.flat (FlatVal.simple [ElemVal.vField 5])) [5]
    (by decide) (by decide) (by decide) (by decide)

/-- C10: the generated DataBlock encode computes the 2-byte LEN header as
`(3 + payload length) mod 2^16` (the unchecked `as u16` cast plus wrapping
add); it equals exactly `3 + payload length` when the payload is at most
65532 bytes, silently wraps below the true total for longer payloads, and
the encode never returns an error either way. -/
theorem datablock_len_truncation (cat : Nat) (its : List RecItem)
    (rvs : List (List (Option ItemVal))) (pb : List Nat) (s : WState)
    (h : encRecords its rvs [] = some pb) :
    dataBlockEncode cat its rvs s
      = some (writeBytesAsBits pb
          (write_bits (write_bits s cat 8) (dbTotalLen pb.length) 16)) ∧
    dbTotalLen pb.length = (3 + pb.length) % 65536 ∧
    (pb.length ≤ 65532 → dbTotalLen pb.length = 3 + pb.length) ∧
    (65533 ≤ pb.length → dbTotalLen pb.length < 3 + pb.length) := by
  refine ⟨?_, ?_, ?_, ?_⟩
  · simp only [dataBlockEncode]
    rw [h]
  · rw [dbTotalLen]
    omega
  · intro hle
    rw [dbTotalLen]
    omega
  · intro hge
    rw [dbTotalLen]
    omega

theorem datablock_len_truncation_witness :
    ∃ x, dataBlockEncode 48 [] [] ⟨[], 0, 0⟩ = some x ∧ dbTotalLen 0 = 3 := by
  obtain ⟨h1, h2, h3, h4⟩ := datablock_len_truncation 48 [] [] [] ⟨[], 0, 0⟩ rfl
  refine ⟨_, h1, ?_⟩
  rw [show (0:Nat) = List.length ([] : List Nat) from rfl, h3 (by norm_num)]
  rfl

end Cg
